import Mathlib

/-!
# nouveau event registry (`drivers/gpu/drm/nouveau/core/core/event.c`)

A shallow embedding of the event multiplexer of the nouveau driver and a
verification of its reference counting, dispatch and teardown behaviour.

## Modelling conventions

* One registry (`struct nouveau_event`) is modelled; `handler->event` of every
  listener is that registry.  Listeners (`struct nouveau_eventh`) live in a
  model heap `handlers`: a pointer is an address (a position of the heap), a
  live listener is `some h` there, freed or never allocated memory is `none`.
* The intrusive lists `event->list[i]` are lists of addresses, in link order.
* C `int` and `u32` values are `Int` and `Nat`; where the C arithmetic wraps
  the model writes the wrap (`s32`, `u32`) out.  The counters `refs[]` are C
  `int`s that only move by one; they are modelled without wrap-around (it
  would take 2^31 simultaneously armed listeners on one slot to reach it).
* Every function returns `Except Fault _`: `Fault.invalid` is an access outside
  a live object (undefined behaviour in C), `Fault.BUG` a `BUG_ON` that fired.
* Calls leaving the module (backend `enable`/`disable`/`check`, listener
  callbacks, `WARN_ON`) are appended to the log `calls`, oldest first.
  What the callbacks return is supplied by an oracle; callbacks are assumed not
  to call back into the registry.
* Allocation: `kmalloc`/`kzalloc` succeed or fail as an oracle says, and fail
  whenever the requested size, computed in `size_t` as the code computes it, is
  above `KMALLOC_MAX_SIZE`.
* Operations are atomic steps; the two spin locks appear only in the lock
  traces of the last section.
-/

namespace Nouveau

/-! ## Constants of headers that are not part of the sources -/

/-- Modelled from the spec: `ENOMEM` of `errno.h` (allocation failure,
"ResourceExhausted"); the header is not under the sources, the value is the
Linux one. -/
def ENOMEM : Int := 12

/-- Modelled from the spec: `EINVAL` of `errno.h` ("InvalidArgument"); the
header is not under the sources, the value is the Linux one. -/
def EINVAL : Int := 22

/-- Modelled from the spec: the "drop" return code of a listener callback,
`NVKM_EVENT_DROP` of `core/event.h`, which is not under the sources. -/
def NVKM_EVENT_DROP : Int := 0

/-- Modelled from the spec: the bit number of the "armed" flag in
`nouveau_eventh.flags`, `NVKM_EVENT_ENABLE` of `core/event.h`, which is not
under the sources. -/
def NVKM_EVENT_ENABLE : Nat := 0

/-- Modelled from the spec: `sizeof(struct nouveau_event)` without its flexible
array `refs[]` on a 64-bit kernel (four pointers, two `int`s, two spinlocks,
one pointer); the structure is declared in `core/event.h`, which is not under
the sources. -/
def sizeof_event : Nat := 64

/-- Modelled from the spec: `sizeof(event->refs[0])`, the size of an `int`. -/
def sizeof_refs : Nat := 4

/-- Modelled from the spec: `sizeof(*event->list)`, the size of a
`struct list_head` (two pointers) on a 64-bit kernel. -/
def sizeof_list : Nat := 16

/-- Modelled from the spec: the largest request `kmalloc` serves in any kernel
configuration (`KMALLOC_MAX_SIZE` is at most 2^30 bytes); a larger request
returns NULL whatever the state of memory. -/
def KMALLOC_MAX_SIZE : Nat := 1073741824

/-! ## Machine arithmetic -/

/-- Conversion to `u32`: reduction modulo 2^32. -/
def u32 (x : Int) : Nat := (x % 4294967296).toNat

/-- Conversion to a 32-bit `int` (two's complement wrap). -/
def s32 (x : Int) : Int := (x + 2147483648) % 4294967296 - 2147483648

/-- Conversion of an `int` to the 64-bit `size_t`: reduction modulo 2^64. -/
def size_t (x : Int) : Nat := (x % 18446744073709551616).toNat

/-- The C operator `~` on an `int`. -/
def bnot (x : Int) : Int := -x - 1

/-- Auxiliary of `__ffs`: position of the lowest set bit, scanning upwards. -/
def ffs_scan : Nat → Nat → Nat
  | 0, _ => 0
  | fuel + 1, m => if m % 2 = 1 then 0 else ffs_scan fuel (m / 2) + 1

/-- Modelled from the spec: `__ffs` of the kernel bit operations (not under
the sources): the index of the least significant set bit of a non-zero word
("extracting set bits one at a time"); the result for 0 is unspecified in C
and is 64 here. -/
def __ffs (m : Nat) : Nat := ffs_scan 64 m

/-- Modelled from the spec: `test_bit` of the kernel bit operations. -/
def test_bit (nr : Nat) (flags : Nat) : Bool := flags.testBit nr

/-- Modelled from the spec: the word written by `__test_and_set_bit`. -/
def __set_bit (nr : Nat) (flags : Nat) : Nat := flags ||| (1 <<< nr)

/-- Modelled from the spec: the word written by `__test_and_clear_bit`
(`flags & ~(1UL << nr)`). -/
def __clear_bit (nr : Nat) (flags : Nat) : Nat := flags ^^^ (flags &&& (1 <<< nr))

/-! ## Data model -/

deriving instance DecidableEq for Except

/-- Ways in which an operation fails to return. -/
inductive Fault
  | BUG
  | invalid
  | fuel
  deriving DecidableEq, Repr

/-- One call leaving the module.  `func` carries the address of the listener on
whose behalf the callback is invoked (not an argument of the C call). -/
inductive Call
  | enable (type : Int) (index : Int)
  | disable (type : Int) (index : Int)
  | check (types : Nat) (index : Int)
  | func (handler : Nat) (fn : Nat) (priv : Nat) (types : Nat) (index : Int)
  | WARN
  deriving DecidableEq, Repr

/-- The listener `struct nouveau_eventh` (without its list node, which is the
membership of its address in a list of the registry). -/
structure nouveau_eventh where
  flags : Nat
  types : Nat
  index : Int
  func : Nat
  priv : Nat
  deriving DecidableEq, Repr

/-- The registry `struct nouveau_event`, with the model heap of its listeners
and the log of outgoing calls.  `check`, `enable`, `disable` say whether the
function pointer is non-NULL. -/
structure nouveau_event where
  check : Bool
  enable : Bool
  disable : Bool
  types_nr : Int
  index_nr : Int
  list : List (List Nat)
  refs : List Int
  handlers : List (Option nouveau_eventh)
  calls : List Call
  deriving DecidableEq, Repr

/-- Dereference of a listener pointer. -/
def nouveau_event.eventh (event : nouveau_event) (handler : Nat) : Option nouveau_eventh :=
  event.handlers.getD handler none

/-- Write through a listener pointer. -/
def nouveau_event.store (event : nouveau_event) (handler : Nat) (h : nouveau_eventh) :
    nouveau_event :=
  { event with handlers := event.handlers.set handler (some h) }

/-- Append an outgoing call to the log. -/
def nouveau_event.log (event : nouveau_event) (c : Call) : nouveau_event :=
  { event with calls := event.calls ++ [c] }

/-- The counter slot `handler->index * event->types_nr + t`: an `int` product
converted to `u32` by the addition of the `u32` bit number. -/
def slot (types_nr index : Int) (t : Nat) : Nat :=
  u32 (s32 (index * types_nr) + t)

/-! ## `nouveau_event_put` and `nouveau_event_get` -/

/-- Body of the loop of `nouveau_event_put` for bit `t`. -/
def put_body (index : Int) (t : Nat) (event : nouveau_event) : Except Fault nouveau_event :=
  match event.refs[slot event.types_nr index t]? with
  | none => .error .invalid
  | some r =>
    let event1 := { event with refs := event.refs.set (slot event.types_nr index t) (r - 1) }
    if r - 1 = 0 then
      if event.disable then .ok (event1.log (Call.disable (s32 (2 ^ t)) index))
      else .ok event1
    else .ok event1

/-- The loop `for (m = handler->types; t = __ffs(m), m; m &= ~(1 << t))` of
`nouveau_event_put`; the first argument bounds the number of iterations. -/
def put_loop (index : Int) : Nat → Nat → nouveau_event → Except Fault nouveau_event
  | 0, _, _ => .error .fuel
  | fuel + 1, m, event =>
    if m = 0 then .ok event
    else
      match put_body index (__ffs m) event with
      | .error e => .error e
      | .ok event1 => put_loop index fuel (m &&& u32 (bnot (s32 (2 ^ __ffs m)))) event1

/-- Model of `nouveau_event_put`. -/
def nouveau_event_put (event : nouveau_event) (handler : Nat) : Except Fault nouveau_event :=
  match event.eventh handler with
  | none => .error .invalid
  | some h =>
    if !test_bit NVKM_EVENT_ENABLE h.flags then .ok event
    else
      put_loop h.index 33 h.types
        (event.store handler { h with flags := __clear_bit NVKM_EVENT_ENABLE h.flags })

/-- Body of the loop of `nouveau_event_get` for bit `t`. -/
def get_body (index : Int) (t : Nat) (event : nouveau_event) : Except Fault nouveau_event :=
  match event.refs[slot event.types_nr index t]? with
  | none => .error .invalid
  | some r =>
    let event1 := { event with refs := event.refs.set (slot event.types_nr index t) (r + 1) }
    if r = 0 then
      if event.enable then .ok (event1.log (Call.enable (s32 (2 ^ t)) index))
      else .ok event1
    else .ok event1

/-- The loop of `nouveau_event_get`. -/
def get_loop (index : Int) : Nat → Nat → nouveau_event → Except Fault nouveau_event
  | 0, _, _ => .error .fuel
  | fuel + 1, m, event =>
    if m = 0 then .ok event
    else
      match get_body index (__ffs m) event with
      | .error e => .error e
      | .ok event1 => get_loop index fuel (m &&& u32 (bnot (s32 (2 ^ __ffs m)))) event1

/-- Model of `nouveau_event_get`. -/
def nouveau_event_get (event : nouveau_event) (handler : Nat) : Except Fault nouveau_event :=
  match event.eventh handler with
  | none => .error .invalid
  | some h =>
    if test_bit NVKM_EVENT_ENABLE h.flags then .ok event
    else
      get_loop h.index 33 h.types
        (event.store handler { h with flags := __set_bit NVKM_EVENT_ENABLE h.flags })

/-! ## Teardown, registration, replacement -/

/-- Modelled from the spec: `list_del` of the kernel lists: the node is
unlinked from the list it is on; unlinking a node that is on no list
dereferences poisoned pointers. -/
def list_del (event : nouveau_event) (handler : Nat) : Except Fault nouveau_event :=
  if event.list.any (fun l => l.contains handler) then
    .ok { event with list := event.list.map (fun l => l.filter (fun x => x != handler)) }
  else .error .invalid

/-- Model of `nouveau_event_fini`. -/
def nouveau_event_fini (event : nouveau_event) (handler : Nat) : Except Fault nouveau_event :=
  match nouveau_event_put event handler with
  | .error e => .error e
  | .ok event1 => list_del event1 handler

/-- Modelled from the spec: `kfree`: the object stops being live. -/
def kfree (event : nouveau_event) (handler : Nat) : nouveau_event :=
  { event with handlers := event.handlers.set handler none }

/-- Model of `nouveau_event_init`; `types` is a `u32`, the shift
`1 << event->types_nr` is defined for widths 0 to 31 only. -/
def nouveau_event_init (event : nouveau_event) (types : Nat) (index : Int) (func priv : Nat)
    (handler : Nat) : Except Fault (Int × nouveau_event) :=
  if event.types_nr < 0 ∨ 32 ≤ event.types_nr then .error .invalid
  else if types &&& u32 (bnot (s32 (s32 (2 ^ event.types_nr.toNat) - 1))) ≠ 0 then
    .ok (-EINVAL, event)
  else if index ≥ event.index_nr then .ok (-EINVAL, event)
  else
    match event.eventh handler with
    | none => .error .invalid
    | some _ =>
      let event1 := event.store handler
        { flags := 0, types := types, index := index, func := func, priv := priv }
      if index < 0 then .error .invalid
      else
        match event1.list[index.toNat]? with
        | none => .error .invalid
        | some l => .ok (0, { event1 with list := event1.list.set index.toNat (l ++ [handler]) })

/-- Model of `nouveau_event_new`.  `check` is what the backend admission
function returns, `kmalloc` whether the allocation succeeds; the result is the
return value, the pointer left in `*phandler` (`none` for NULL or not written)
and the registry.  A new object gets the first unused address and has
arbitrary contents until `nouveau_event_init` writes it. -/
def nouveau_event_new (check : Nat → Int → Int) (kmalloc : Bool) (event : nouveau_event)
    (types : Nat) (index : Int) (func priv : Nat) :
    Except Fault (Int × Option Nat × nouveau_event) :=
  let types := types % 4294967296
  let ret : Int := if event.check then check types index else -ENOMEM
  let event0 := if event.check then event.log (Call.check types index) else event
  if event.check ∧ ret ≠ 0 then .ok (ret, none, event0)
  else if kmalloc then
    let handler := event0.handlers.length
    let event1 := { event0 with handlers := event0.handlers ++ [some ⟨0, 0, 0, 0, 0⟩] }
    match nouveau_event_init event1 types index func priv handler with
    | .error e => .error e
    | .ok (ret1, event2) =>
      if ret1 ≠ 0 then .ok (ret1, some handler, kfree event2 handler)
      else .ok (ret1, some handler, event2)
  else .ok (ret, none, event0)

/-- Model of `nouveau_event_ref`: `ref` is the content of the slot `*ref`, the
result carries the new content. -/
def nouveau_event_ref (event : nouveau_event) (handler : Option Nat) (ref : Option Nat) :
    Except Fault (Option Nat × nouveau_event) :=
  if handler ≠ none then .error .BUG
  else
    match ref with
    | none => .ok (handler, event)
    | some r =>
      match nouveau_event_fini event r with
      | .error e => .error e
      | .ok event1 => .ok (handler, kfree event1 r)

/-! ## Dispatch -/

/-- The walk `list_for_each_entry` of `nouveau_event_trigger` over the nodes
still to visit.  `cb handler func priv types index` is what the callback
returns when invoked for the listener at address `handler`. -/
def trigger_loop (cb : Nat → Nat → Nat → Nat → Int → Int) (types : Nat) (index : Int) :
    List Nat → nouveau_event → Except Fault nouveau_event
  | [], event => .ok event
  | handler :: rest, event =>
    match event.eventh handler with
    | none => .error .invalid
    | some h =>
      if !test_bit NVKM_EVENT_ENABLE h.flags then trigger_loop cb types index rest event
      else if h.types &&& types = 0 then trigger_loop cb types index rest event
      else
        let event1 := event.log (Call.func handler h.func h.priv (h.types &&& types) index)
        if cb handler h.func h.priv (h.types &&& types) index ≠ NVKM_EVENT_DROP then
          trigger_loop cb types index rest event1
        else
          match nouveau_event_put event1 handler with
          | .error e => .error e
          | .ok event2 => trigger_loop cb types index rest event2

/-- Model of `nouveau_event_trigger`. -/
def nouveau_event_trigger (cb : Nat → Nat → Nat → Nat → Int → Int) (event : nouveau_event)
    (types : Nat) (index : Int) : Except Fault nouveau_event :=
  if index ≥ event.index_nr then .ok (event.log Call.WARN)
  else if index < 0 then .error .invalid
  else
    match event.list[index.toNat]? with
    | none => .error .invalid
    | some l => trigger_loop cb types index l event

/-! ## Construction -/

/-- Model of `nouveau_event_create`; `kzalloc` and `kmalloc` say whether the
two allocations succeed when their size can be served at all.  The arguments
are C `int`s.  The product `index_nr * types_nr` is an `int` product and wraps;
it is converted to `size_t` for the size of the registry, and `index_nr` for the
size of the array of lists.  No dimension is tested: when the product has
wrapped, the call still returns 0 and `refs[]` holds the wrapped number of
counters (none when that number is negative). -/
def nouveau_event_create (kzalloc kmalloc : Bool) (types_nr index_nr : Int) :
    Except Fault (Int × Option nouveau_event) :=
  if types_nr < -2147483648 ∨ 2147483647 < types_nr ∨
      index_nr < -2147483648 ∨ 2147483647 < index_nr then .error .invalid
  else if !kzalloc ∨ KMALLOC_MAX_SIZE <
      (sizeof_event + size_t (s32 (index_nr * types_nr)) * sizeof_refs) %
        18446744073709551616 then
    .ok (-ENOMEM, none)
  else if !kmalloc ∨ KMALLOC_MAX_SIZE <
      (sizeof_list * size_t index_nr) % 18446744073709551616 then
    .ok (-ENOMEM, none)
  else .ok (0, some
    { check := false, enable := false, disable := false,
      types_nr := types_nr, index_nr := index_nr,
      list := List.replicate index_nr.toNat [],
      refs := List.replicate (s32 (index_nr * types_nr)).toNat 0,
      handlers := [], calls := [] })

/-! ## Specification-level vocabulary -/

/-- The set bits of a `u32`, lowest first. -/
def bits (m : Nat) : List Nat := (List.range 32).filter (fun t => m.testBit t)

/-- A loop body run over a list of bit numbers, in order. -/
def run_bits (body : Nat → nouveau_event → Except Fault nouveau_event) :
    List Nat → nouveau_event → Except Fault nouveau_event
  | [], event => .ok event
  | t :: ts, event =>
    match body t event with
    | .error e => .error e
    | .ok event1 => run_bits body ts event1

/-- The counters after `d` has been added to the slot of each bit of `ts`. -/
def refs_adj (d : Int) (types_nr index : Int) (ts : List Nat) (refs : List Int) : List Int :=
  ts.foldl (fun r t => r.set (slot types_nr index t) (r.getD (slot types_nr index t) 0 + d)) refs

/-- The backend calls made by a pass over the bits `ts`: one single-bit call,
in order, for each bit whose counter is `z` before the pass. -/
def fired (mk : Int → Int → Call) (z : Int) (types_nr index : Int) (ts : List Nat)
    (refs : List Int) : List Call :=
  (ts.filter (fun t => refs[slot types_nr index t]? = some z)).map
    (fun t => mk (s32 (2 ^ t)) index)

/-- The armed flag (`NVKM_EVENT_ENABLE`) of a listener. -/
def armed (h : nouveau_eventh) : Bool := test_bit NVKM_EVENT_ENABLE h.flags

/-- The object at address `a` is a live listener filed under index `i` whose
types fit the `types_nr`-bit mask. -/
def listener_ok (event : nouveau_event) (i : Nat) (a : Nat) : Prop :=
  match event.eventh a with
  | some h => h.index = i ∧ h.types < 2 ^ event.types_nr.toNat
  | none => False

instance (event : nouveau_event) (i a : Nat) : Decidable (listener_ok event i a) := by
  unfold listener_ok
  split <;> infer_instance

/-- A live listener is linked on the list of its index. -/
def linked (event : nouveau_event) (a : Nat) : Prop :=
  match event.eventh a with
  | some h => 0 ≤ h.index ∧ a ∈ event.list.getD h.index.toNat []
  | none => True

instance (event : nouveau_event) (a : Nat) : Decidable (linked event a) := by
  unfold linked
  split <;> infer_instance

/-- Shape invariant of the registry: sizes as allocated by
`nouveau_event_create`, every list node a live listener of that index with
types inside the mask, no node twice on a list, every live listener linked. -/
def wf (event : nouveau_event) : Prop :=
  0 ≤ event.types_nr ∧ event.types_nr ≤ 31 ∧ 0 ≤ event.index_nr ∧
  event.index_nr * event.types_nr < 2147483648 ∧
  event.list.length = event.index_nr.toNat ∧
  event.refs.length = (event.index_nr * event.types_nr).toNat ∧
  (∀ i ∈ List.range event.list.length, ∀ a ∈ event.list.getD i [], listener_ok event i a) ∧
  (∀ l ∈ event.list, l.Nodup) ∧
  (∀ a ∈ List.range event.handlers.length, linked event a)

instance (event : nouveau_event) : Decidable (wf event) := by
  unfold wf
  infer_instance

/-- Listener `a` is armed and wants type bit `t`. -/
def wants (event : nouveau_event) (t : Nat) (a : Nat) : Bool :=
  match event.eventh a with
  | some h => armed h && h.types.testBit t
  | none => false

/-- Number of armed listeners on list `i` that want type bit `t`. -/
def armed_count (event : nouveau_event) (i t : Nat) : Nat :=
  (event.list.getD i []).countP (wants event t)

/-- The reference-count invariant: each counter is the number of armed
listeners of its index wanting its type. -/
def refs_ok (event : nouveau_event) : Prop :=
  ∀ i ∈ List.range event.index_nr.toNat, ∀ t ∈ List.range event.types_nr.toNat,
    event.refs[slot event.types_nr i t]? = some (armed_count event i t : Int)

instance (event : nouveau_event) : Decidable (refs_ok event) := by
  unfold refs_ok
  infer_instance

/-- The invariant of the registry: shape and reference counts. -/
def Inv (event : nouveau_event) : Prop := wf event ∧ refs_ok event

instance (event : nouveau_event) : Decidable (Inv event) := by
  unfold Inv
  infer_instance

/-- One visit of the dispatch walk, at node `handler`. -/
def trigger_visit (cb : Nat → Nat → Nat → Nat → Int → Int) (types : Nat) (index : Int)
    (handler : Nat) (event : nouveau_event) : Except Fault nouveau_event :=
  match event.eventh handler with
  | none => .error .invalid
  | some h =>
    if !armed h then .ok event
    else if h.types &&& types = 0 then .ok event
    else if cb handler h.func h.priv (h.types &&& types) index ≠ NVKM_EVENT_DROP then
      .ok (event.log (Call.func handler h.func h.priv (h.types &&& types) index))
    else
      nouveau_event_put
        (event.log (Call.func handler h.func h.priv (h.types &&& types) index)) handler

/-- The callback invocation a dispatch of `types` on `index` makes for the
listener at address `a`: none unless it is armed and its types meet `types`. -/
def dispatch_call (event : nouveau_event) (types : Nat) (index : Int) (a : Nat) : Option Call :=
  match event.eventh a with
  | some h =>
    if armed h = true ∧ h.types &&& types ≠ 0 then
      some (Call.func a h.func h.priv (h.types &&& types) index)
    else none
  | none => none

/-- The log entry is a listener callback. -/
def Call.is_func : Call → Bool
  | .func _ _ _ _ _ => true
  | _ => false

/-- The listener at `a` is invoked by a dispatch of `types` on `index` and its
callback returns `NVKM_EVENT_DROP`. -/
def dropped (cb : Nat → Nat → Nat → Nat → Int → Int) (event : nouveau_event) (types : Nat)
    (index : Int) (a : Nat) : Bool :=
  match event.eventh a with
  | some h =>
    armed h && (h.types &&& types != 0) &&
      (cb a h.func h.priv (h.types &&& types) index == NVKM_EVENT_DROP)
  | none => false

/-- Number of listeners of `list[index]` that a dispatch of `types` drops and
that hold a reference on type bit `t`. -/
def dropped_count (cb : Nat → Nat → Nat → Nat → Int → Int) (event : nouveau_event) (types : Nat)
    (index : Int) (t : Nat) : Nat :=
  (event.list.getD index.toNat []).countP
    (fun a => dropped cb event types index a && wants event t a)

/-- No callback of the listener at `a` among the log entries after the first
`base` ones. -/
def no_callback (a base : Nat) (event : nouveau_event) : Prop :=
  ∀ c ∈ event.calls.drop base, ∀ fn priv m i, c ≠ Call.func a fn priv m i

/-- The listener at `a` is out of dispatch since log position `base`: the
registry satisfies its invariant, the cell `a` has been allocated and holds no
armed listener, and no callback of `a` has been logged since. -/
def Quiet (a base : Nat) (event : nouveau_event) : Prop :=
  Inv event ∧ a < event.handlers.length ∧ (∀ h, event.eventh a = some h → armed h = false) ∧
    base ≤ event.calls.length ∧ no_callback a base event

/-- Logged `enable(1 << t, i)` calls minus logged `disable(1 << t, i)` calls. -/
def balance (event : nouveau_event) (i t : Nat) : Int :=
  (event.calls.count (Call.enable (2 ^ t) i) : Int) - event.calls.count (Call.disable (2 ^ t) i)

/-- The backend has been told to enable exactly the (index, type) pairs whose
counter is positive. -/
def Bal (event : nouveau_event) : Prop :=
  ∀ i t : Nat, (i : Int) < event.index_nr → (t : Int) < event.types_nr →
    ∀ r, event.refs[slot event.types_nr i t]? = some r →
      balance event i t = if 0 < r then 1 else 0

/-- The fields of the registry that no operation writes. -/
def setup (event : nouveau_event) : Int × Int × Bool × Bool × Bool :=
  (event.types_nr, event.index_nr, event.check, event.enable, event.disable)

/-- Property carried through a dispatch: every counter that was positive at the
start and is 0 now has had its `disable` call since. -/
def disabled_since (e z : nouveau_event) : Prop :=
  Inv z ∧ setup z = setup e ∧ e.calls.length ≤ z.calls.length ∧
    ∀ i t : Nat, (i : Int) < e.index_nr → (t : Int) < e.types_nr →
      ∀ r, e.refs[slot e.types_nr i t]? = some r → 0 < r →
        z.refs[slot e.types_nr i t]? = some 0 → e.disable = true →
          Call.disable (2 ^ t) i ∈ z.calls.drop e.calls.length

/-- The backend configuration installed by the owner of a new registry. -/
def configure (event : nouveau_event) (check enable disable : Bool) : nouveau_event :=
  { event with check := check, enable := enable, disable := disable }

/-- A call of a client into the registry.  `ref` is the teardown
`nouveau_event_ref(NULL, &ref)` of the slot holding `handler`. -/
inductive Op
  | new (check : Nat → Int → Int) (kmalloc : Bool) (types : Nat) (index : Int) (func priv : Nat)
  | get (handler : Nat)
  | put (handler : Nat)
  | ref (handler : Nat)
  | trigger (cb : Nat → Nat → Nat → Nat → Int → Int) (types : Nat) (index : Int)

/-- The registry after one client call. -/
def step (event : nouveau_event) : Op → Except Fault nouveau_event
  | .new check kmalloc types index func priv =>
    match nouveau_event_new check kmalloc event types index func priv with
    | .error e => .error e
    | .ok r => .ok r.2.2
  | .get handler => nouveau_event_get event handler
  | .put handler => nouveau_event_put event handler
  | .ref handler =>
    match nouveau_event_ref event none (some handler) with
    | .error e => .error e
    | .ok r => .ok r.2
  | .trigger cb types index => nouveau_event_trigger cb event types index

/-- The registry after a sequence of client calls. -/
def run (event : nouveau_event) : List Op → Except Fault nouveau_event
  | [] => .ok event
  | op :: ops =>
    match step event op with
    | .error e => .error e
    | .ok event1 => run event1 ops

/-! ## A worked scenario

The scenario of the specification: a registry with four types and one index,
listener A (address 0, types `0b0101`) and listener B (address 1, types
`0b0001`), both armed, then a dispatch of type 0 in which A asks to be dropped. -/

/-- Admission function that accepts everything. -/
def demo_check : Nat → Int → Int := fun _ _ => 0

/-- Callbacks: the listener at address 0 drops, every other keeps. -/
def demo_cb : Nat → Nat → Nat → Nat → Int → Int :=
  fun handler _ _ _ _ => if handler = 0 then NVKM_EVENT_DROP else 1

/-- The registry as `nouveau_event_create(4, 1)` leaves it. -/
def demo_fresh : nouveau_event :=
  { check := false, enable := false, disable := false, types_nr := 4, index_nr := 1,
    list := [[]], refs := [0, 0, 0, 0], handlers := [], calls := [] }

/-- A and B registered, both disarmed. -/
def demo_registered : nouveau_event :=
  { check := false, enable := true, disable := true, types_nr := 4, index_nr := 1,
    list := [[0, 1]], refs := [0, 0, 0, 0],
    handlers := [some ⟨0, 5, 0, 7, 8⟩, some ⟨0, 1, 0, 9, 10⟩], calls := [] }

/-- A armed, B disarmed. -/
def demo_A_armed : nouveau_event :=
  { check := false, enable := true, disable := true, types_nr := 4, index_nr := 1,
    list := [[0, 1]], refs := [1, 0, 1, 0],
    handlers := [some ⟨1, 5, 0, 7, 8⟩, some ⟨0, 1, 0, 9, 10⟩],
    calls := [Call.enable 1 0, Call.enable 4 0] }

/-- A and B armed. -/
def demo_armed : nouveau_event :=
  { check := false, enable := true, disable := true, types_nr := 4, index_nr := 1,
    list := [[0, 1]], refs := [2, 0, 1, 0],
    handlers := [some ⟨1, 5, 0, 7, 8⟩, some ⟨1, 1, 0, 9, 10⟩],
    calls := [Call.enable 1 0, Call.enable 4 0] }

/-- After the dispatch of type 0 in which A was dropped. -/
def demo_dropped : nouveau_event :=
  { check := false, enable := true, disable := true, types_nr := 4, index_nr := 1,
    list := [[0, 1]], refs := [1, 0, 0, 0],
    handlers := [some ⟨0, 5, 0, 7, 8⟩, some ⟨1, 1, 0, 9, 10⟩],
    calls := [Call.enable 1 0, Call.enable 4 0, Call.func 0 7 8 1 0, Call.disable 4 0,
      Call.func 1 9 10 1 0] }

/-- The client calls of the scenario. -/
def demo_ops : List Op :=
  [Op.new demo_check true 5 0 7 8, Op.new demo_check true 1 0 9 10, Op.get 0, Op.get 1,
    Op.trigger demo_cb 1 0]

/-- The registry with A and B registered and an admission function configured. -/
def demo_checked : nouveau_event :=
  { check := true, enable := true, disable := true, types_nr := 4, index_nr := 1,
    list := [[0, 1]], refs := [0, 0, 0, 0],
    handlers := [some ⟨0, 5, 0, 7, 8⟩, some ⟨0, 1, 0, 9, 10⟩], calls := [] }

/-- An empty registry with four types, three indices and an admission function. -/
def demo_wide : nouveau_event :=
  { check := true, enable := true, disable := true, types_nr := 4, index_nr := 3,
    list := [[], [], []], refs := [0, 0, 0, 0, 0, 0, 0, 0, 0, 0, 0, 0],
    handlers := [], calls := [] }

/-- Admission function that denies `(types = 0b011, index = 2)` with -13 and
accepts everything else. -/
def demo_deny : Nat → Int → Int := fun types index => if types = 3 ∧ index = 2 then -13 else 0

/-- The return value of a call that returned. -/
def ret_of {α : Type} : Except Fault (Int × α) → Option Int
  | .ok r => some r.1
  | .error _ => none

/-- Two listener records agree on the fields written at registration. -/
def same_registration (h h1 : nouveau_eventh) : Prop :=
  h1.types = h.types ∧ h1.index = h.index ∧ h1.func = h.func ∧ h1.priv = h.priv

/-- State `z` comes after state `e`: no address of `e` has been given out
again, and an object of `e` that is live in `z` was live in `e` with the same
registered fields. -/
def Later (e z : nouveau_event) : Prop :=
  e.handlers.length ≤ z.handlers.length ∧
  ∀ a h1, a < e.handlers.length → z.eventh a = some h1 →
    ∃ h, e.eventh a = some h ∧ same_registration h h1

/-! ## Lock traces

Each operation again, returning next to its result the sequence of lock
acquisitions, lock releases and outgoing calls it performs, in program order. -/

/-- The two spinlocks of a registry. -/
inductive Lock
  | list_lock
  | refs_lock
  deriving DecidableEq, Repr

/-- One step of a trace: `spin_lock_irqsave`, `spin_unlock_irqrestore`, or a
call leaving the module. -/
inductive Ev
  | spin_lock_irqsave (l : Lock)
  | spin_unlock_irqrestore (l : Lock)
  | call (c : Call)
  deriving DecidableEq, Repr

/-- The calls logged after state `event` up to the later state `event1`. -/
def calls_since (event event1 : nouveau_event) : List Call :=
  event1.calls.drop event.calls.length

/-- The outgoing call of a trace step, if it is one. -/
def Ev.call? : Ev → Option Call
  | .call c => some c
  | _ => none

/-- Trace of `nouveau_event_put`: nothing for a disarmed listener; otherwise
the loop, with the `disable` calls it makes, between taking and releasing
`refs_lock`. -/
def nouveau_event_put_trace (event : nouveau_event) (handler : Nat) :
    Except Fault (nouveau_event × List Ev) :=
  match event.eventh handler with
  | none => .error .invalid
  | some h =>
    if !test_bit NVKM_EVENT_ENABLE h.flags then .ok (event, [])
    else
      match put_loop h.index 33 h.types
        (event.store handler { h with flags := __clear_bit NVKM_EVENT_ENABLE h.flags }) with
      | .error e => .error e
      | .ok event1 =>
        .ok (event1, [Ev.spin_lock_irqsave Lock.refs_lock] ++
          (calls_since event event1).map Ev.call ++ [Ev.spin_unlock_irqrestore Lock.refs_lock])

/-- Trace of `nouveau_event_get`: nothing for an armed listener; otherwise the
loop, with the `enable` calls it makes, between taking and releasing
`refs_lock`. -/
def nouveau_event_get_trace (event : nouveau_event) (handler : Nat) :
    Except Fault (nouveau_event × List Ev) :=
  match event.eventh handler with
  | none => .error .invalid
  | some h =>
    if test_bit NVKM_EVENT_ENABLE h.flags then .ok (event, [])
    else
      match get_loop h.index 33 h.types
        (event.store handler { h with flags := __set_bit NVKM_EVENT_ENABLE h.flags }) with
      | .error e => .error e
      | .ok event1 =>
        .ok (event1, [Ev.spin_lock_irqsave Lock.refs_lock] ++
          (calls_since event event1).map Ev.call ++ [Ev.spin_unlock_irqrestore Lock.refs_lock])

/-- Trace of `nouveau_event_fini`: the trace of `nouveau_event_put`, then
`list_del` between taking and releasing `list_lock`. -/
def nouveau_event_fini_trace (event : nouveau_event) (handler : Nat) :
    Except Fault (nouveau_event × List Ev) :=
  match nouveau_event_put_trace event handler with
  | .error e => .error e
  | .ok (event1, tr) =>
    match list_del event1 handler with
    | .error e => .error e
    | .ok event2 =>
      .ok (event2, tr ++
        [Ev.spin_lock_irqsave Lock.list_lock, Ev.spin_unlock_irqrestore Lock.list_lock])

/-- Trace of `nouveau_event_init`: nothing when an argument is rejected;
otherwise `list_add_tail` between taking and releasing `list_lock`. -/
def nouveau_event_init_trace (event : nouveau_event) (types : Nat) (index : Int)
    (func priv : Nat) (handler : Nat) : Except Fault ((Int × nouveau_event) × List Ev) :=
  if event.types_nr < 0 ∨ 32 ≤ event.types_nr then .error .invalid
  else if types &&& u32 (bnot (s32 (s32 (2 ^ event.types_nr.toNat) - 1))) ≠ 0 then
    .ok ((-EINVAL, event), [])
  else if index ≥ event.index_nr then .ok ((-EINVAL, event), [])
  else
    match event.eventh handler with
    | none => .error .invalid
    | some _ =>
      let event1 := event.store handler
        { flags := 0, types := types, index := index, func := func, priv := priv }
      if index < 0 then .error .invalid
      else
        match event1.list[index.toNat]? with
        | none => .error .invalid
        | some l =>
          .ok ((0, { event1 with list := event1.list.set index.toNat (l ++ [handler]) }),
            [Ev.spin_lock_irqsave Lock.list_lock, Ev.spin_unlock_irqrestore Lock.list_lock])

/-- Trace of `nouveau_event_new`: the admission call when one is configured,
then the trace of `nouveau_event_init` when the allocation succeeded. -/
def nouveau_event_new_trace (check : Nat → Int → Int) (kmalloc : Bool) (event : nouveau_event)
    (types : Nat) (index : Int) (func priv : Nat) :
    Except Fault ((Int × Option Nat × nouveau_event) × List Ev) :=
  let types := types % 4294967296
  let ret : Int := if event.check then check types index else -ENOMEM
  let event0 := if event.check then event.log (Call.check types index) else event
  let tr0 : List Ev := if event.check then [Ev.call (Call.check types index)] else []
  if event.check ∧ ret ≠ 0 then .ok ((ret, none, event0), tr0)
  else if kmalloc then
    let handler := event0.handlers.length
    let event1 := { event0 with handlers := event0.handlers ++ [some ⟨0, 0, 0, 0, 0⟩] }
    match nouveau_event_init_trace event1 types index func priv handler with
    | .error e => .error e
    | .ok ((ret1, event2), tr) =>
      if ret1 ≠ 0 then .ok ((ret1, some handler, kfree event2 handler), tr0 ++ tr)
      else .ok ((ret1, some handler, event2), tr0 ++ tr)
  else .ok ((ret, none, event0), tr0)

/-- Trace of `nouveau_event_ref`: the trace of `nouveau_event_fini` when the
slot holds a listener. -/
def nouveau_event_ref_trace (event : nouveau_event) (handler : Option Nat) (ref : Option Nat) :
    Except Fault ((Option Nat × nouveau_event) × List Ev) :=
  if handler ≠ none then .error .BUG
  else
    match ref with
    | none => .ok ((handler, event), [])
    | some r =>
      match nouveau_event_fini_trace event r with
      | .error e => .error e
      | .ok (event1, tr) => .ok ((handler, kfree event1 r), tr)

/-- Trace of the walk of `nouveau_event_trigger`: for each listener that is
served its callback, followed by the trace of `nouveau_event_put` when the
callback asks to be dropped. -/
def trigger_loop_trace (cb : Nat → Nat → Nat → Nat → Int → Int) (types : Nat) (index : Int) :
    List Nat → nouveau_event → Except Fault (nouveau_event × List Ev)
  | [], event => .ok (event, [])
  | handler :: rest, event =>
    match event.eventh handler with
    | none => .error .invalid
    | some h =>
      if !test_bit NVKM_EVENT_ENABLE h.flags then trigger_loop_trace cb types index rest event
      else if h.types &&& types = 0 then trigger_loop_trace cb types index rest event
      else
        let event1 := event.log (Call.func handler h.func h.priv (h.types &&& types) index)
        if cb handler h.func h.priv (h.types &&& types) index ≠ NVKM_EVENT_DROP then
          match trigger_loop_trace cb types index rest event1 with
          | .error e => .error e
          | .ok (event3, tr) =>
            .ok (event3,
              Ev.call (Call.func handler h.func h.priv (h.types &&& types) index) :: tr)
        else
          match nouveau_event_put_trace event1 handler with
          | .error e => .error e
          | .ok (event2, tr1) =>
            match trigger_loop_trace cb types index rest event2 with
            | .error e => .error e
            | .ok (event3, tr) =>
              .ok (event3,
                Ev.call (Call.func handler h.func h.priv (h.types &&& types) index) ::
                  (tr1 ++ tr))

/-- Trace of `nouveau_event_trigger`: the warning alone for an index at or
above `index_nr`; otherwise the walk between taking and releasing `list_lock`. -/
def nouveau_event_trigger_trace (cb : Nat → Nat → Nat → Nat → Int → Int)
    (event : nouveau_event) (types : Nat) (index : Int) :
    Except Fault (nouveau_event × List Ev) :=
  if index ≥ event.index_nr then .ok (event.log Call.WARN, [Ev.call Call.WARN])
  else if index < 0 then .error .invalid
  else
    match event.list[index.toNat]? with
    | none => .error .invalid
    | some l =>
      match trigger_loop_trace cb types index l event with
      | .error e => .error e
      | .ok (event1, tr) =>
        .ok (event1, [Ev.spin_lock_irqsave Lock.list_lock] ++ tr ++
          [Ev.spin_unlock_irqrestore Lock.list_lock])

/-- The locks held (innermost first) after a trace that starts with the locks
`held`, or `none` when the trace breaks the discipline: `list_lock` is taken
only with no lock held; `refs_lock` is taken with no lock held or, when `nest`
allows it, with exactly `list_lock` held; a release is of the innermost lock
held. -/
def locks_after (nest : Bool) : List Lock → List Ev → Option (List Lock)
  | held, [] => some held
  | held, ev :: tr =>
    match ev with
    | .call _ => locks_after nest held tr
    | .spin_lock_irqsave Lock.list_lock =>
      if held = [] then locks_after nest [Lock.list_lock] tr else none
    | .spin_lock_irqsave Lock.refs_lock =>
      if held = [] ∨ (nest = true ∧ held = [Lock.list_lock]) then
        locks_after nest (Lock.refs_lock :: held) tr
      else none
    | .spin_unlock_irqrestore l =>
      match held with
      | [] => none
      | l0 :: rest => if l = l0 then locks_after nest rest tr else none

/-- The result of a traced operation without its trace. -/
def untraced {α : Type} : Except Fault (α × List Ev) → Except Fault α
  | .ok r => .ok r.1
  | .error e => .error e

theorem ffs_scan_spec (fuel : Nat) : ∀ m : Nat, m ≠ 0 → m < 2 ^ fuel →
    m.testBit (ffs_scan fuel m) = true ∧ ffs_scan fuel m < fuel ∧
      ∀ i, i < ffs_scan fuel m → m.testBit i = false := by
  induction fuel with
  | zero => intro m h0 h; simp at h; omega
  | succ n ih =>
    intro m h0 h
    unfold ffs_scan
    by_cases hodd : m % 2 = 1
    · simp [hodd, Nat.testBit_zero]
    · have hm2 : m / 2 ≠ 0 := by omega
      have hlt : m / 2 < 2 ^ n := by
        rw [Nat.div_lt_iff_lt_mul (by norm_num)]; rw [pow_succ] at h; exact h
      obtain ⟨h1, h2, h3⟩ := ih (m / 2) hm2 hlt
      simp only [hodd, if_false]
      refine ⟨?_, by omega, ?_⟩
      · rw [Nat.testBit_succ]; exact h1
      · intro i hi
        cases i with
        | zero => rw [Nat.testBit_zero]; simp; omega
        | succ j => rw [Nat.testBit_succ]; exact h3 j (by omega)

theorem ffs_spec (m : Nat) (h0 : m ≠ 0) (h : m < 4294967296) :
    m.testBit (__ffs m) = true ∧ __ffs m < 32 ∧ ∀ i, i < __ffs m → m.testBit i = false := by
  have h64 : m < 2 ^ 64 := by omega
  obtain ⟨h1, _, h3⟩ := ffs_scan_spec 64 m h0 h64
  refine ⟨h1, ?_, h3⟩
  by_contra hge
  have : m.testBit (__ffs m) = false :=
    Nat.testBit_eq_false_of_lt (lt_of_lt_of_le h (by
      calc 4294967296 = 2 ^ 32 := by norm_num
        _ ≤ 2 ^ (__ffs m) := Nat.pow_le_pow_right (by norm_num) (by omega)))
  have h1b : m.testBit (__ffs m) = true := h1
  rw [h1b] at this; cases this

theorem clear_mask_eq : ∀ t : Nat, t < 32 → u32 (bnot (s32 (2 ^ t))) = 2 ^ 32 - (2 ^ t + 1) := by
  decide

theorem testBit_clear (m t i : Nat) (ht : t < 32) (hm : m < 4294967296) :
    (m &&& u32 (bnot (s32 (2 ^ t)))).testBit i = (m.testBit i && decide (i ≠ t)) := by
  rw [clear_mask_eq t ht, Nat.testBit_and]
  have hx : 2 ^ t < 2 ^ 32 := Nat.pow_lt_pow_right (by norm_num) ht
  rw [Nat.testBit_two_pow_sub_succ hx, Nat.testBit_two_pow]
  by_cases hi : i < 32
  · by_cases hit : t = i
    · subst hit; simp
    · have : i ≠ t := fun h => hit h.symm
      simp [hi, hit, this]
  · have : m.testBit i = false :=
      Nat.testBit_eq_false_of_lt (lt_of_lt_of_le hm (by
        calc 4294967296 = 2 ^ 32 := by norm_num
          _ ≤ 2 ^ i := Nat.pow_le_pow_right (by norm_num) (by omega)))
    simp [this]

theorem clear_lt (m t : Nat) (hm : m < 4294967296) : m &&& u32 (bnot (s32 (2 ^ t))) < 4294967296 :=
  lt_of_le_of_lt Nat.and_le_left hm

theorem mem_bits (m t : Nat) : t ∈ bits m ↔ t < 32 ∧ m.testBit t = true := by
  simp [bits]

theorem bits_sorted (m : Nat) : (bits m).Sorted (· < ·) :=
  (List.sorted_lt_range 32).filter _

theorem bits_nodup (m : Nat) : (bits m).Nodup := (bits_sorted m).nodup

theorem bits_zero : bits 0 = [] := by decide

theorem bits_ffs (m : Nat) (h0 : m ≠ 0) (h : m < 4294967296) :
    bits m = __ffs m :: bits (m &&& u32 (bnot (s32 (2 ^ __ffs m)))) := by
  obtain ⟨h1, h2, h3⟩ := ffs_spec m h0 h
  have hmem : ∀ i, i ∈ bits (m &&& u32 (bnot (s32 (2 ^ __ffs m)))) ↔
      i < 32 ∧ m.testBit i = true ∧ i ≠ __ffs m := by
    intro i
    rw [mem_bits, testBit_clear m _ i h2 h]
    simp
  have hs : (__ffs m :: bits (m &&& u32 (bnot (s32 (2 ^ __ffs m))))).Sorted (· < ·) := by
    refine List.sorted_cons.2 ⟨?_, bits_sorted _⟩
    intro i hi
    rw [hmem] at hi
    obtain ⟨_, hb, hne⟩ := hi
    by_contra hlt
    have : i < __ffs m := by omega
    rw [h3 i this] at hb; cases hb
  apply List.eq_of_perm_of_sorted _ (bits_sorted m) hs
  rw [List.perm_ext_iff_of_nodup (bits_nodup m) hs.nodup]
  intro i
  rw [List.mem_cons, hmem, mem_bits]
  constructor
  · rintro ⟨a, b⟩
    by_cases hi : i = __ffs m
    · exact Or.inl hi
    · exact Or.inr ⟨a, b, hi⟩
  · rintro (hi | ⟨a, b, _⟩)
    · subst hi; exact ⟨h2, h1⟩
    · exact ⟨a, b⟩

theorem put_loop_eq (index : Int) (fuel : Nat) : ∀ (m : Nat) (event : nouveau_event),
    m < 4294967296 → (bits m).length < fuel →
    put_loop index fuel m event = run_bits (put_body index) (bits m) event := by
  induction fuel with
  | zero => intro m e _ h; omega
  | succ n ih =>
    intro m e hm hlen
    unfold put_loop
    by_cases h0 : m = 0
    · subst h0; simp [bits_zero, run_bits]
    · rw [if_neg h0, bits_ffs m h0 hm]
      rw [bits_ffs m h0 hm] at hlen
      simp only [run_bits]
      cases hb : put_body index (__ffs m) e with
      | error x => rfl
      | ok e1 =>
        simp only
        exact ih _ e1 (clear_lt m _ hm) (by simpa using hlen)

theorem get_loop_eq (index : Int) (fuel : Nat) : ∀ (m : Nat) (event : nouveau_event),
    m < 4294967296 → (bits m).length < fuel →
    get_loop index fuel m event = run_bits (get_body index) (bits m) event := by
  induction fuel with
  | zero => intro m e _ h; omega
  | succ n ih =>
    intro m e hm hlen
    unfold get_loop
    by_cases h0 : m = 0
    · subst h0; simp [bits_zero, run_bits]
    · rw [if_neg h0, bits_ffs m h0 hm]
      rw [bits_ffs m h0 hm] at hlen
      simp only [run_bits]
      cases hb : get_body index (__ffs m) e with
      | error x => rfl
      | ok e1 =>
        simp only
        exact ih _ e1 (clear_lt m _ hm) (by simpa using hlen)

theorem bits_length_le (m : Nat) : (bits m).length ≤ 32 := by
  unfold bits
  exact le_trans (List.length_filter_le _ _) (by simp)

theorem put_body_eq (index : Int) (t : Nat) (e : nouveau_event)
    (hk : slot e.types_nr index t < e.refs.length) :
    put_body index t e = .ok { e with
      refs := refs_adj (-1) e.types_nr index [t] e.refs,
      calls := e.calls ++
        (if e.disable then fired Call.disable 1 e.types_nr index [t] e.refs else []) } := by
  unfold put_body
  obtain ⟨r, hr⟩ : ∃ r, e.refs[slot e.types_nr index t]? = some r :=
    ⟨_, List.getElem?_eq_getElem hk⟩
  have hg : e.refs.getD (slot e.types_nr index t) 0 = r := by
    rw [List.getD_eq_getElem?_getD, hr]; rfl
  rw [hr]
  simp only [refs_adj, fired, List.foldl_cons, List.foldl_nil, List.filter_cons, List.filter_nil, hr,
    hg, nouveau_event.log, Int.sub_eq_add_neg]
  by_cases h1 : r = 1
  · cases hd : e.disable <;> simp [h1]
  · have h2 : ¬ (r + -1 = 0) := by omega
    cases hd : e.disable <;> simp [h1, h2]

theorem get_body_eq (index : Int) (t : Nat) (e : nouveau_event)
    (hk : slot e.types_nr index t < e.refs.length) :
    get_body index t e = .ok { e with
      refs := refs_adj 1 e.types_nr index [t] e.refs,
      calls := e.calls ++
        (if e.enable then fired Call.enable 0 e.types_nr index [t] e.refs else []) } := by
  unfold get_body
  obtain ⟨r, hr⟩ : ∃ r, e.refs[slot e.types_nr index t]? = some r :=
    ⟨_, List.getElem?_eq_getElem hk⟩
  have hg : e.refs.getD (slot e.types_nr index t) 0 = r := by
    rw [List.getD_eq_getElem?_getD, hr]; rfl
  rw [hr]
  simp only [refs_adj, fired, List.foldl_cons, List.foldl_nil, List.filter_cons, List.filter_nil, hr,
    hg, nouveau_event.log]
  by_cases h1 : r = 0
  · cases hd : e.enable <;> simp [h1]
  · cases hd : e.enable <;> simp [h1]

theorem refs_adj_length (d n index : Int) (ts : List Nat) : ∀ refs : List Int,
    (refs_adj d n index ts refs).length = refs.length := by
  induction ts with
  | nil => intro refs; rfl
  | cons t ts ih => intro refs; simp only [refs_adj, List.foldl_cons] at ih ⊢; rw [ih]; simp

theorem refs_adj_cons (d n index : Int) (t : Nat) (ts : List Nat) (refs : List Int) :
    refs_adj d n index (t :: ts) refs = refs_adj d n index ts (refs_adj d n index [t] refs) := rfl

theorem fired_cons_of_ne (mk : Int → Int → Call) (z d n index : Int) (t : Nat) (ts : List Nat)
    (refs : List Int) (hne : ∀ u ∈ ts, slot n index u ≠ slot n index t) :
    fired mk z n index ts (refs_adj d n index [t] refs) = fired mk z n index ts refs := by
  unfold fired
  congr 1
  apply List.filter_congr
  intro u hu
  simp only [refs_adj, List.foldl_cons, List.foldl_nil]
  have := List.getElem?_set_ne (a := refs.getD (slot n index t) 0 + d) (l := refs)
    (fun h => hne u hu h.symm)
  simp only [this]

theorem fired_cons (mk : Int → Int → Call) (z n index : Int) (t : Nat) (ts : List Nat)
    (refs : List Int) :
    fired mk z n index (t :: ts) refs = fired mk z n index [t] refs ++ fired mk z n index ts refs := by
  unfold fired
  rw [← List.map_append, ← List.filter_append]; rfl

/-- The pass over a list of bits with distinct, in-bounds slots. -/
theorem run_bits_put (index : Int) (ts : List Nat) : ∀ e : nouveau_event,
    (∀ t ∈ ts, slot e.types_nr index t < e.refs.length) →
    (ts.map (slot e.types_nr index)).Nodup →
    run_bits (put_body index) ts e = .ok { e with
      refs := refs_adj (-1) e.types_nr index ts e.refs,
      calls := e.calls ++
        (if e.disable then fired Call.disable 1 e.types_nr index ts e.refs else []) } := by
  induction ts with
  | nil => intro e _ _; simp [run_bits, refs_adj, fired]
  | cons t ts ih =>
    intro e hb hn
    rw [List.map_cons, List.nodup_cons] at hn
    have hne : ∀ u ∈ ts, slot e.types_nr index u ≠ slot e.types_nr index t := by
      intro u hu h
      exact hn.1 (h ▸ List.mem_map_of_mem _ hu)
    simp only [run_bits]
    rw [put_body_eq index t e (hb t (List.mem_cons_self _ _))]
    simp only
    rw [ih]
    · simp only [refs_adj_cons (-1) e.types_nr index t ts, fired_cons Call.disable 1 e.types_nr index t ts,
        fired_cons_of_ne Call.disable 1 (-1) e.types_nr index t ts e.refs hne]
      cases e.disable <;> simp
    · intro u hu
      simp only [refs_adj_length]
      exact hb u (List.mem_cons_of_mem _ hu)
    · exact hn.2

theorem run_bits_get (index : Int) (ts : List Nat) : ∀ e : nouveau_event,
    (∀ t ∈ ts, slot e.types_nr index t < e.refs.length) →
    (ts.map (slot e.types_nr index)).Nodup →
    run_bits (get_body index) ts e = .ok { e with
      refs := refs_adj 1 e.types_nr index ts e.refs,
      calls := e.calls ++
        (if e.enable then fired Call.enable 0 e.types_nr index ts e.refs else []) } := by
  induction ts with
  | nil => intro e _ _; simp [run_bits, refs_adj, fired]
  | cons t ts ih =>
    intro e hb hn
    rw [List.map_cons, List.nodup_cons] at hn
    have hne : ∀ u ∈ ts, slot e.types_nr index u ≠ slot e.types_nr index t := by
      intro u hu h
      exact hn.1 (h ▸ List.mem_map_of_mem _ hu)
    simp only [run_bits]
    rw [get_body_eq index t e (hb t (List.mem_cons_self _ _))]
    simp only
    rw [ih]
    · simp only [refs_adj_cons 1 e.types_nr index t ts, fired_cons Call.enable 0 e.types_nr index t ts,
        fired_cons_of_ne Call.enable 0 1 e.types_nr index t ts e.refs hne]
      cases e.enable <;> simp
    · intro u hu
      simp only [refs_adj_length]
      exact hb u (List.mem_cons_of_mem _ hu)
    · exact hn.2

/-- Pointwise value of the adjusted counters. -/
theorem refs_adj_getElem? (d n index : Int) (ts : List Nat) : ∀ (refs : List Int) (k : Nat),
    (ts.map (slot n index)).Nodup →
    (refs_adj d n index ts refs)[k]? =
      (refs[k]?).map (fun r => if k ∈ ts.map (slot n index) then r + d else r) := by
  induction ts with
  | nil => intro refs k _; simp [refs_adj]
  | cons t ts ih =>
    intro refs k hn
    rw [List.map_cons, List.nodup_cons] at hn
    rw [refs_adj_cons, ih _ k hn.2]
    simp only [refs_adj, List.foldl_cons, List.foldl_nil, List.map_cons, List.mem_cons]
    by_cases hk : k = slot n index t
    · subst hk
      have hnot : slot n index t ∉ ts.map (slot n index) := hn.1
      simp only [hnot, if_false, true_or, if_true]
      by_cases hlt : slot n index t < refs.length
      · rw [List.getElem?_set_self hlt, List.getElem?_eq_getElem hlt, List.getD_eq_getElem?_getD,
          List.getElem?_eq_getElem hlt]
        simp
      · have h1 : refs[slot n index t]? = none := List.getElem?_eq_none (by omega)
        have h2 : (refs.set (slot n index t) (refs.getD (slot n index t) 0 + d))[slot n index t]? = none :=
          List.getElem?_eq_none (by simp; omega)
        rw [h1, h2]; rfl
    · rw [List.getElem?_set_ne (fun h => hk h.symm)]
      simp [hk]

theorem slot_eq (n i : Int) (t : Nat) (hn : 0 ≤ n) (hi : 0 ≤ i) (hb : i * n + t < 2147483648) :
    slot n i t = (i * n).toNat + t := by
  have hp : 0 ≤ i * n := mul_nonneg hi hn
  unfold slot u32 s32
  generalize i * n = p at hp hb ⊢
  omega

theorem slot_bound (n N i : Int) (t : Nat) (hi : i < N) (ht : (t : Int) < n) (hn : 0 ≤ n) :
    i * n + t < N * n := by
  have h1 : (i + 1) * n ≤ N * n := mul_le_mul_of_nonneg_right (by omega) hn
  have h2 : (i + 1) * n = i * n + n := by ring
  omega

theorem slot_lt (n N i : Int) (t : Nat) (hn : 0 ≤ n) (hi : 0 ≤ i) (hiN : i < N)
    (ht : (t : Int) < n) (hN : N * n < 2147483648) :
    slot n i t < (N * n).toNat := by
  have hb := slot_bound n N i t hiN ht hn
  rw [slot_eq n i t hn hi (by omega)]
  have hp : 0 ≤ i * n := mul_nonneg hi hn
  generalize i * n = p at hp hb ⊢
  generalize N * n = q at hN hb ⊢
  omega

theorem slot_inj (n N i j : Int) (t u : Nat) (hn : 0 ≤ n) (hi : 0 ≤ i) (hj : 0 ≤ j)
    (hiN : i < N) (hjN : j < N) (ht : (t : Int) < n) (hu : (u : Int) < n)
    (hN : N * n < 2147483648) (h : slot n i t = slot n j u) : i = j ∧ t = u := by
  have hbi := slot_bound n N i t hiN ht hn
  have hbj := slot_bound n N j u hjN hu hn
  rw [slot_eq n i t hn hi (by omega), slot_eq n j u hn hj (by omega)] at h
  have hpi : 0 ≤ i * n := mul_nonneg hi hn
  have hpj : 0 ≤ j * n := mul_nonneg hj hn
  have heq : i * n + t = j * n + u := by
    generalize i * n = p at hpi h ⊢
    generalize j * n = q at hpj h ⊢
    omega
  have hij : i = j := by
    rcases lt_trichotomy i j with hlt | heq' | hgt
    · exfalso
      have := slot_bound n j i t hlt ht hn
      omega
    · exact heq'
    · exfalso
      have := slot_bound n i j u hgt hu hn
      omega
  subst hij
  exact ⟨rfl, by omega⟩

theorem testBit_lt_of_lt_pow (x n t : Nat) (hx : x < 2 ^ n) (ht : x.testBit t = true) : t < n := by
  by_contra hge
  have := Nat.testBit_eq_false_of_lt (lt_of_lt_of_le hx (Nat.pow_le_pow_right (by norm_num) (by omega : n ≤ t)))
  rw [this] at ht; cases ht

theorem eventh_lt (e : nouveau_event) (a : Nat) (h : nouveau_eventh) (ha : e.eventh a = some h) :
    a < e.handlers.length := by
  by_contra hge
  unfold nouveau_event.eventh at ha
  rw [List.getD_eq_getElem?_getD, List.getElem?_eq_none (by omega)] at ha
  cases ha

theorem getD_mem_lt {α : Type} (l : List (List α)) (i : Nat) (a : α) (h : a ∈ l.getD i []) :
    i < l.length := by
  by_contra hge
  rw [List.getD_eq_getElem?_getD, List.getElem?_eq_none (by omega)] at h
  simp at h

/-- What the shape invariant says about a live listener. -/
theorem wf_live (e : nouveau_event) (hw : wf e) (a : Nat) (h : nouveau_eventh)
    (ha : e.eventh a = some h) :
    0 ≤ h.index ∧ h.index < e.index_nr ∧ h.types < 2 ^ e.types_nr.toNat ∧
      a ∈ e.list.getD h.index.toNat [] := by
  obtain ⟨_, _, _, _, hlen, _, hok, _, hlink⟩ := hw
  have hl := hlink a (List.mem_range.2 (eventh_lt e a h ha))
  unfold linked at hl
  rw [ha] at hl
  obtain ⟨h0, hmem⟩ := hl
  have hilt := getD_mem_lt _ _ _ hmem
  have hk := hok _ (List.mem_range.2 hilt) a hmem
  unfold listener_ok at hk
  rw [ha] at hk
  refine ⟨h0, by omega, hk.2, hmem⟩

theorem wf_types_lt (e : nouveau_event) (hw : wf e) (a : Nat) (h : nouveau_eventh)
    (ha : e.eventh a = some h) : h.types < 4294967296 := by
  have h1 := (wf_live e hw a h ha).2.2.1
  have h2 : e.types_nr.toNat ≤ 31 := by have := hw.2.1; omega
  calc h.types < 2 ^ e.types_nr.toNat := h1
    _ ≤ 2 ^ 31 := Nat.pow_le_pow_right (by norm_num) h2
    _ < 4294967296 := by norm_num

theorem wf_bit_lt (e : nouveau_event) (hw : wf e) (a : Nat) (h : nouveau_eventh)
    (ha : e.eventh a = some h) (t : Nat) (ht : t ∈ bits h.types) : (t : Int) < e.types_nr := by
  have h1 := (wf_live e hw a h ha).2.2.1
  have := testBit_lt_of_lt_pow _ _ _ h1 ((mem_bits _ _).1 ht).2
  have := hw.1
  omega

theorem wf_slots_lt (e : nouveau_event) (hw : wf e) (a : Nat) (h : nouveau_eventh)
    (ha : e.eventh a = some h) :
    ∀ t ∈ bits h.types, slot e.types_nr h.index t < e.refs.length := by
  intro t ht
  obtain ⟨h0, h1, _, _⟩ := wf_live e hw a h ha
  rw [hw.2.2.2.2.2.1]
  exact slot_lt _ _ _ _ hw.1 h0 h1 (wf_bit_lt e hw a h ha t ht) hw.2.2.2.1

theorem wf_slots_nodup (e : nouveau_event) (hw : wf e) (a : Nat) (h : nouveau_eventh)
    (ha : e.eventh a = some h) :
    ((bits h.types).map (slot e.types_nr h.index)).Nodup := by
  obtain ⟨h0, h1, _, _⟩ := wf_live e hw a h ha
  refine (List.nodup_map_iff_inj_on (bits_nodup _)).2 ?_
  intro t ht u hu heq
  exact (slot_inj _ _ _ _ _ _ hw.1 h0 h0 h1 h1 (wf_bit_lt e hw a h ha t ht)
    (wf_bit_lt e hw a h ha u hu) hw.2.2.2.1 heq).2

/-- Result of `nouveau_event_get` on a disarmed live listener. -/
theorem get_eq (e : nouveau_event) (hw : wf e) (a : Nat) (h : nouveau_eventh)
    (ha : e.eventh a = some h) (hd : armed h = false) :
    nouveau_event_get e a = .ok { e with
      handlers := e.handlers.set a (some { h with flags := __set_bit NVKM_EVENT_ENABLE h.flags }),
      refs := refs_adj 1 e.types_nr h.index (bits h.types) e.refs,
      calls := e.calls ++
        (if e.enable then fired Call.enable 0 e.types_nr h.index (bits h.types) e.refs else []) } := by
  unfold nouveau_event_get
  rw [ha]
  unfold armed at hd
  simp only [hd]
  rw [get_loop_eq _ _ _ _ (wf_types_lt e hw a h ha) (by have := bits_length_le h.types; omega)]
  rw [run_bits_get]
  · rfl
  · exact wf_slots_lt e hw a h ha
  · exact wf_slots_nodup e hw a h ha

/-- Result of `nouveau_event_put` on an armed live listener. -/
theorem put_eq (e : nouveau_event) (hw : wf e) (a : Nat) (h : nouveau_eventh)
    (ha : e.eventh a = some h) (hd : armed h = true) :
    nouveau_event_put e a = .ok { e with
      handlers := e.handlers.set a (some { h with flags := __clear_bit NVKM_EVENT_ENABLE h.flags }),
      refs := refs_adj (-1) e.types_nr h.index (bits h.types) e.refs,
      calls := e.calls ++
        (if e.disable then fired Call.disable 1 e.types_nr h.index (bits h.types) e.refs else []) } := by
  unfold nouveau_event_put
  rw [ha]
  unfold armed at hd
  simp only [hd]
  rw [put_loop_eq _ _ _ _ (wf_types_lt e hw a h ha) (by have := bits_length_le h.types; omega)]
  rw [run_bits_put]
  · rfl
  · exact wf_slots_lt e hw a h ha
  · exact wf_slots_nodup e hw a h ha

theorem get_armed (e : nouveau_event) (a : Nat) (h : nouveau_eventh)
    (ha : e.eventh a = some h) (hd : armed h = true) : nouveau_event_get e a = .ok e := by
  unfold nouveau_event_get
  rw [ha]
  unfold armed at hd
  simp [hd]

theorem put_disarmed (e : nouveau_event) (a : Nat) (h : nouveau_eventh)
    (ha : e.eventh a = some h) (hd : armed h = false) : nouveau_event_put e a = .ok e := by
  unfold nouveau_event_put
  rw [ha]
  unfold armed at hd
  simp [hd]

/-! ### The armed flag -/

theorem test_bit_set (nr f : Nat) : test_bit nr (__set_bit nr f) = true := by
  unfold test_bit __set_bit
  rw [Nat.testBit_or, Nat.one_shiftLeft, Nat.testBit_two_pow_self]
  simp

theorem test_bit_clear (nr f : Nat) : test_bit nr (__clear_bit nr f) = false := by
  unfold test_bit __clear_bit
  rw [Nat.testBit_xor, Nat.testBit_and, Nat.one_shiftLeft, Nat.testBit_two_pow_self]
  simp

theorem clear_set (nr f : Nat) (h : test_bit nr f = false) : __clear_bit nr (__set_bit nr f) = f := by
  unfold test_bit at h
  unfold __clear_bit __set_bit
  apply Nat.eq_of_testBit_eq
  intro i
  simp only [Nat.testBit_xor, Nat.testBit_and, Nat.testBit_or, Nat.one_shiftLeft, Nat.testBit_two_pow]
  by_cases hi : nr = i
  · subst hi; simp [h]
  · simp [hi]

theorem set_clear (nr f : Nat) (h : test_bit nr f = true) : __set_bit nr (__clear_bit nr f) = f := by
  unfold test_bit at h
  unfold __clear_bit __set_bit
  apply Nat.eq_of_testBit_eq
  intro i
  simp only [Nat.testBit_xor, Nat.testBit_and, Nat.testBit_or, Nat.one_shiftLeft, Nat.testBit_two_pow]
  by_cases hi : nr = i
  · subst hi; simp [h]
  · simp [hi]

/-! ### Heap updates -/

theorem eventh_of_set (e e1 : nouveau_event) (a : Nat) (h h1 : nouveau_eventh)
    (ha : e.eventh a = some h) (hh : e1.handlers = e.handlers.set a (some h1)) (b : Nat) :
    e1.eventh b = if b = a then some h1 else e.eventh b := by
  have hlt := eventh_lt e a h ha
  unfold nouveau_event.eventh
  rw [hh, List.getD_eq_getElem?_getD, List.getD_eq_getElem?_getD]
  by_cases hb : b = a
  · subst hb; rw [List.getElem?_set_self hlt]; simp
  · rw [List.getElem?_set_ne (fun x => hb x.symm)]; simp [hb]

theorem countP_flip {α : Type} [DecidableEq α] (p q : α → Bool) (a : α) : ∀ l : List α,
    l.Nodup → a ∈ l → (∀ b, b ≠ a → q b = p b) → p a = false → q a = true →
    l.countP q = l.countP p + 1 := by
  intro l
  induction l with
  | nil => intro _ h; cases h
  | cons x xs ih =>
    intro hn hm hoff hp hq
    rw [List.nodup_cons] at hn
    by_cases hx : x = a
    · subst hx
      have : xs.countP q = xs.countP p :=
        List.countP_congr (fun b hb => by
          have hne : b ≠ x := fun h => hn.1 (h ▸ hb)
          rw [hoff b hne])
      rw [List.countP_cons_of_pos _ _ hq, List.countP_cons_of_neg _ _ (by simp [hp]), this]
    · have hm1 : a ∈ xs := by
        rcases List.mem_cons.1 hm with h | h
        · exact absurd h.symm hx
        · exact h
      have := ih hn.2 hm1 hoff hp hq
      simp only [List.countP_cons, hoff x hx, this]
      omega

theorem getD_nodup (l : List (List Nat)) (h : ∀ x ∈ l, x.Nodup) (i : Nat) : (l.getD i []).Nodup := by
  rw [List.getD_eq_getElem?_getD]
  by_cases hi : i < l.length
  · rw [List.getElem?_eq_getElem hi]
    exact h _ (List.getElem_mem _)
  · rw [List.getElem?_eq_none (by omega)]
    exact List.nodup_nil

/-- A node of list `i` is a listener whose index is `i`. -/
theorem wf_member (e : nouveau_event) (hw : wf e) (i a : Nat) (ha : a ∈ e.list.getD i []) :
    ∃ h, e.eventh a = some h ∧ h.index = i ∧ h.types < 2 ^ e.types_nr.toNat := by
  have hilt := getD_mem_lt _ _ _ ha
  have hk := hw.2.2.2.2.2.2.1 _ (List.mem_range.2 hilt) a ha
  unfold listener_ok at hk
  cases hx : e.eventh a with
  | none => rw [hx] at hk; exact hk.elim
  | some h => rw [hx] at hk; exact ⟨h, rfl, hk⟩

/-- Changing only the flags of one listener keeps the shape invariant. -/
theorem wf_of_flags (e e1 : nouveau_event) (hw : wf e) (a : Nat) (h h1 : nouveau_eventh)
    (ha : e.eventh a = some h) (hh : e1.handlers = e.handlers.set a (some h1))
    (hi : h1.index = h.index) (ht : h1.types = h.types)
    (hn : e1.types_nr = e.types_nr) (hN : e1.index_nr = e.index_nr) (hl : e1.list = e.list)
    (hr : e1.refs.length = e.refs.length) : wf e1 := by
  have hev := eventh_of_set e e1 a h h1 ha hh
  obtain ⟨w1, w2, w3, w4, w5, w6, w7, w8, w9⟩ := hw
  refine ⟨by rw [hn]; exact w1, by rw [hn]; exact w2, by rw [hN]; exact w3,
    by rw [hn, hN]; exact w4, by rw [hl, hN]; exact w5, by rw [hr, hn, hN]; exact w6, ?_,
    by rw [hl]; exact w8, ?_⟩
  · intro i hi1 b hb
    rw [hl] at hi1 hb
    have := w7 i hi1 b hb
    unfold listener_ok at this ⊢
    rw [hev b, hn]
    by_cases hba : b = a
    · subst hba
      rw [ha] at this
      simp only [if_true, hi, ht]
      exact this
    · simp only [hba, if_false]; exact this
  · intro b hb
    have hlen : e1.handlers.length = e.handlers.length := by rw [hh]; simp
    rw [hlen] at hb
    have := w9 b hb
    unfold linked at this ⊢
    rw [hev b, hl]
    by_cases hba : b = a
    · subst hba
      rw [ha] at this
      simp only [if_true, hi]
      exact this
    · simp only [hba, if_false]; exact this

theorem mem_slots_iff (e : nouveau_event) (hw : wf e) (a : Nat) (h : nouveau_eventh)
    (ha : e.eventh a = some h) (i t : Nat) (hi : i < e.index_nr.toNat) (ht : t < e.types_nr.toNat) :
    slot e.types_nr i t ∈ (bits h.types).map (slot e.types_nr h.index) ↔
      (i : Int) = h.index ∧ h.types.testBit t = true := by
  obtain ⟨h0, h1, _, _⟩ := wf_live e hw a h ha
  have hn := hw.1
  have hn31 := hw.2.1
  constructor
  · intro hm
    obtain ⟨u, hu, heq⟩ := List.mem_map.1 hm
    have := slot_inj e.types_nr e.index_nr h.index i u t hn h0 (by omega) h1 (by omega)
      (wf_bit_lt e hw a h ha u hu) (by omega) hw.2.2.2.1 heq
    obtain ⟨hi1, hu1⟩ := this
    subst hu1
    exact ⟨hi1.symm, ((mem_bits _ _).1 hu).2⟩
  · rintro ⟨hi1, hb⟩
    rw [hi1]
    exact List.mem_map_of_mem _ ((mem_bits _ _).2 ⟨by omega, hb⟩)

/-- Flipping the armed flag of one listener and adjusting the counters of its
bits keeps the reference-count invariant. -/
theorem refs_ok_of_flip (e e1 : nouveau_event) (hw : wf e) (hr : refs_ok e) (a : Nat)
    (h h1 : nouveau_eventh) (d : Int)
    (ha : e.eventh a = some h) (hh : e1.handlers = e.handlers.set a (some h1))
    (_hi : h1.index = h.index) (ht : h1.types = h.types)
    (hn : e1.types_nr = e.types_nr) (hN : e1.index_nr = e.index_nr) (hl : e1.list = e.list)
    (hrefs : e1.refs = refs_adj d e.types_nr h.index (bits h.types) e.refs)
    (hflip : (armed h = false ∧ armed h1 = true ∧ d = 1) ∨
      (armed h = true ∧ armed h1 = false ∧ d = -1)) : refs_ok e1 := by
  have hev := eventh_of_set e e1 a h h1 ha hh
  obtain ⟨h0, hlt, _, hmem⟩ := wf_live e hw a h ha
  intro i hi1 t ht1
  rw [hN] at hi1
  rw [hn] at ht1 ⊢
  have hcur := hr i hi1 t ht1
  rw [List.mem_range] at hi1 ht1
  rw [hrefs, refs_adj_getElem? _ _ _ _ _ _ (wf_slots_nodup e hw a h ha), hcur]
  simp only [Option.map_some', Option.some.injEq]
  have hw_off : ∀ b, b ≠ a → wants e1 t b = wants e t b := by
    intro b hb; unfold wants; rw [hev b]; simp [hb]
  have hwe : wants e t a = (armed h && h.types.testBit t) := by unfold wants; rw [ha]
  have hwe1 : wants e1 t a = (armed h1 && h.types.testBit t) := by
    unfold wants; rw [hev a]; simp [ht]
  unfold armed_count
  rw [hl]
  by_cases hcase : (i : Int) = h.index ∧ h.types.testBit t = true
  · rw [if_pos ((mem_slots_iff e hw a h ha i t hi1 ht1).2 hcase)]
    obtain ⟨hii, hb⟩ := hcase
    have hia : i = h.index.toNat := by omega
    subst hia
    have hnd := getD_nodup e.list hw.2.2.2.2.2.2.2.1 h.index.toNat
    rcases hflip with ⟨f1, f2, f3⟩ | ⟨f1, f2, f3⟩
    · have := countP_flip (wants e t) (wants e1 t) a _ hnd hmem hw_off
        (by rw [hwe, f1]; rfl) (by rw [hwe1, f2, hb]; rfl)
      rw [this, f3]; push_cast; ring
    · have := countP_flip (wants e1 t) (wants e t) a _ hnd hmem
        (fun b hb => (hw_off b hb).symm) (by rw [hwe1, f2]; rfl) (by rw [hwe, f1, hb]; rfl)
      rw [this, f3]; push_cast; ring
  · rw [if_neg (fun hm => hcase ((mem_slots_iff e hw a h ha i t hi1 ht1).1 hm))]
    congr 1
    apply List.countP_congr
    intro b hb
    by_cases hba : b = a
    · subst hba
      obtain ⟨h2, hb2, hidx, _⟩ := wf_member e hw i b hb
      rw [ha] at hb2
      cases hb2
      have hbit : h.types.testBit t = false := by
        cases hx : h.types.testBit t
        · rfl
        · exact absurd ⟨hidx.symm, hx⟩ hcase
      rw [hwe, hwe1, hbit]; simp
    · rw [hw_off b hba]

/-! ### The invariant does not read the log or the backend configuration -/

theorem wf_congr (e e1 : nouveau_event) (hn : e1.types_nr = e.types_nr)
    (hN : e1.index_nr = e.index_nr) (hl : e1.list = e.list) (hr : e1.refs = e.refs)
    (hh : e1.handlers = e.handlers) (hw : wf e) : wf e1 := by
  cases e; cases e1
  simp only at hn hN hl hr hh
  subst hn hN hl hr hh
  exact hw

theorem refs_ok_congr (e e1 : nouveau_event) (hn : e1.types_nr = e.types_nr)
    (hN : e1.index_nr = e.index_nr) (hl : e1.list = e.list) (hr : e1.refs = e.refs)
    (hh : e1.handlers = e.handlers) (hw : refs_ok e) : refs_ok e1 := by
  cases e; cases e1
  simp only at hn hN hl hr hh
  subst hn hN hl hr hh
  exact hw

theorem Inv_congr (e e1 : nouveau_event) (hn : e1.types_nr = e.types_nr)
    (hN : e1.index_nr = e.index_nr) (hl : e1.list = e.list) (hr : e1.refs = e.refs)
    (hh : e1.handlers = e.handlers) (hI : Inv e) : Inv e1 :=
  ⟨wf_congr e e1 hn hN hl hr hh hI.1, refs_ok_congr e e1 hn hN hl hr hh hI.2⟩

theorem Inv_log (e : nouveau_event) (c : Call) (hI : Inv e) : Inv (e.log c) :=
  Inv_congr e _ rfl rfl rfl rfl rfl hI

theorem eventh_log (e : nouveau_event) (c : Call) (a : Nat) : (e.log c).eventh a = e.eventh a := rfl

theorem armed_set (h : nouveau_eventh) :
    armed { h with flags := __set_bit NVKM_EVENT_ENABLE h.flags } = true := test_bit_set _ _

theorem armed_clear (h : nouveau_eventh) :
    armed { h with flags := __clear_bit NVKM_EVENT_ENABLE h.flags } = false := test_bit_clear _ _

/-! ### Arm and disarm keep the invariant -/

theorem get_inv (e e1 : nouveau_event) (a : Nat) (hI : Inv e)
    (hg : nouveau_event_get e a = .ok e1) : Inv e1 := by
  cases ha : e.eventh a with
  | none => unfold nouveau_event_get at hg; rw [ha] at hg; cases hg
  | some h =>
    cases hd : armed h with
    | true => rw [get_armed e a h ha hd] at hg; cases hg; exact hI
    | false =>
      rw [get_eq e hI.1 a h ha hd] at hg
      cases hg
      exact ⟨wf_of_flags e _ hI.1 a h _ ha rfl rfl rfl rfl rfl rfl (refs_adj_length _ _ _ _ _),
        refs_ok_of_flip e _ hI.1 hI.2 a h _ 1 ha rfl rfl rfl rfl rfl rfl rfl
          (Or.inl ⟨hd, armed_set h, rfl⟩)⟩

theorem put_inv (e e1 : nouveau_event) (a : Nat) (hI : Inv e)
    (hg : nouveau_event_put e a = .ok e1) : Inv e1 := by
  cases ha : e.eventh a with
  | none => unfold nouveau_event_put at hg; rw [ha] at hg; cases hg
  | some h =>
    cases hd : armed h with
    | false => rw [put_disarmed e a h ha hd] at hg; cases hg; exact hI
    | true =>
      rw [put_eq e hI.1 a h ha hd] at hg
      cases hg
      exact ⟨wf_of_flags e _ hI.1 a h _ ha rfl rfl rfl rfl rfl rfl (refs_adj_length _ _ _ _ _),
        refs_ok_of_flip e _ hI.1 hI.2 a h _ (-1) ha rfl rfl rfl rfl rfl rfl rfl
          (Or.inr ⟨hd, armed_clear h, rfl⟩)⟩

/-- Disarming a live listener of a well-shaped registry returns. -/
theorem put_total (e : nouveau_event) (hw : wf e) (a : Nat) (h : nouveau_eventh)
    (ha : e.eventh a = some h) : ∃ e1, nouveau_event_put e a = .ok e1 := by
  cases hd : armed h with
  | false => exact ⟨_, put_disarmed e a h ha hd⟩
  | true => exact ⟨_, put_eq e hw a h ha hd⟩

theorem get_total (e : nouveau_event) (hw : wf e) (a : Nat) (h : nouveau_eventh)
    (ha : e.eventh a = some h) : ∃ e1, nouveau_event_get e a = .ok e1 := by
  cases hd : armed h with
  | true => exact ⟨_, get_armed e a h ha hd⟩
  | false => exact ⟨_, get_eq e hw a h ha hd⟩

/-! ### The dispatch walk as a sequence of visits -/

theorem trigger_loop_cons (cb : Nat → Nat → Nat → Nat → Int → Int) (types : Nat) (index : Int)
    (a : Nat) (rest : List Nat) (e : nouveau_event) :
    trigger_loop cb types index (a :: rest) e =
      match trigger_visit cb types index a e with
      | .error x => .error x
      | .ok e1 => trigger_loop cb types index rest e1 := by
  unfold trigger_visit armed
  rw [trigger_loop]
  cases e.eventh a with
  | none => rfl
  | some h =>
    simp only
    by_cases h1 : test_bit NVKM_EVENT_ENABLE h.flags = true
    · by_cases h2 : h.types &&& types = 0
      · simp [h1, h2]
      · by_cases h3 : cb a h.func h.priv (h.types &&& types) index = NVKM_EVENT_DROP
        · simp only [h1, h2, h3]
          simp only [Bool.not_true, Bool.false_eq_true, if_false, ne_eq, not_true_eq_false]
        · simp [h1, h2, h3]
    · simp [h1]

/-- A property kept by disarming and by logging a callback is kept by a visit. -/
theorem visit_keeps (P : nouveau_event → Prop)
    (hput : ∀ e a e1, P e → nouveau_event_put e a = .ok e1 → P e1)
    (hlog : ∀ e a fn priv types index, P e → P (e.log (Call.func a fn priv types index)))
    (cb : Nat → Nat → Nat → Nat → Int → Int) (types : Nat) (index : Int) (a : Nat)
    (e e1 : nouveau_event) (hP : P e) (hv : trigger_visit cb types index a e = .ok e1) : P e1 := by
  unfold trigger_visit at hv
  cases ha : e.eventh a with
  | none => rw [ha] at hv; cases hv
  | some h =>
    rw [ha] at hv
    simp only at hv
    split at hv
    · cases hv; exact hP
    · split at hv
      · cases hv; exact hP
      · split at hv
        · cases hv; exact hlog _ _ _ _ _ _ hP
        · exact hput _ _ _ (hlog _ _ _ _ _ _ hP) hv

theorem trigger_loop_keeps (P : nouveau_event → Prop)
    (hput : ∀ e a e1, P e → nouveau_event_put e a = .ok e1 → P e1)
    (hlog : ∀ e a fn priv types index, P e → P (e.log (Call.func a fn priv types index)))
    (cb : Nat → Nat → Nat → Nat → Int → Int) (types : Nat) (index : Int) :
    ∀ (l : List Nat) (e e1 : nouveau_event), P e →
      trigger_loop cb types index l e = .ok e1 → P e1 := by
  intro l
  induction l with
  | nil => intro e e1 hP h; rw [trigger_loop] at h; cases h; exact hP
  | cons a rest ih =>
    intro e e1 hP h
    rw [trigger_loop_cons] at h
    cases hv : trigger_visit cb types index a e with
    | error x => rw [hv] at h; cases h
    | ok e2 =>
      rw [hv] at h
      exact ih e2 e1 (visit_keeps P hput hlog cb types index a e e2 hP hv) h

theorem trigger_keeps (P : nouveau_event → Prop)
    (hput : ∀ e a e1, P e → nouveau_event_put e a = .ok e1 → P e1)
    (hlog : ∀ e c, (c = Call.WARN ∨ ∃ a fn priv types index, c = Call.func a fn priv types index) →
      P e → P (e.log c))
    (cb : Nat → Nat → Nat → Nat → Int → Int) (types : Nat) (index : Int)
    (e e1 : nouveau_event) (hP : P e) (h : nouveau_event_trigger cb e types index = .ok e1) :
    P e1 := by
  unfold nouveau_event_trigger at h
  split at h
  · cases h; exact hlog _ _ (Or.inl rfl) hP
  · split at h
    · cases h
    · split at h
      · cases h
      · exact trigger_loop_keeps P hput
          (fun e a fn priv types index hp => hlog e _ (Or.inr ⟨a, fn, priv, types, index, rfl⟩) hp)
          cb types index _ e e1 hP h

theorem trigger_inv (cb : Nat → Nat → Nat → Nat → Int → Int) (types : Nat) (index : Int)
    (e e1 : nouveau_event) (hI : Inv e) (h : nouveau_event_trigger cb e types index = .ok e1) :
    Inv e1 :=
  trigger_keeps Inv (fun e a e1 hp hg => put_inv e e1 a hp hg) (fun e c _ hp => Inv_log e c hp)
    cb types index e e1 hI h

/-! ### The type-mask test of registration -/

theorem width_mask_eq : ∀ n : Nat, n < 32 →
    u32 (bnot (s32 (s32 (2 ^ n) - 1))) = 2 ^ 32 - (2 ^ n - 1 + 1) := by
  decide

theorem testBit_width_mask (n i : Nat) (hn : n < 32) :
    (u32 (bnot (s32 (s32 (2 ^ n) - 1)))).testBit i = (decide (i < 32) && !decide (i < n)) := by
  rw [width_mask_eq n hn]
  have hx : 2 ^ n - 1 < 2 ^ 32 :=
    lt_of_le_of_lt (Nat.sub_le _ _) (Nat.pow_lt_pow_right (by norm_num) hn)
  rw [Nat.testBit_two_pow_sub_succ hx, Nat.testBit_two_pow_sub_one]

/-- The mask test of `nouveau_event_init` accepts exactly the `u32` values
below `2 ^ types_nr`. -/
theorem width_mask_zero_iff (n types : Nat) (hn : n < 32) (ht : types < 4294967296) :
    types &&& u32 (bnot (s32 (s32 (2 ^ n) - 1))) = 0 ↔ types < 2 ^ n := by
  constructor
  · intro h
    apply Nat.lt_pow_two_of_testBit
    intro i hi
    by_cases h32 : i < 32
    · have := congrArg (fun x => Nat.testBit x i) h
      simp only [Nat.testBit_and, testBit_width_mask n i hn, Nat.zero_testBit] at this
      have hni : ¬ i < n := by omega
      simpa [h32, hni] using this
    · exact Nat.testBit_eq_false_of_lt (lt_of_lt_of_le ht (by
        calc 4294967296 = 2 ^ 32 := by norm_num
          _ ≤ 2 ^ i := Nat.pow_le_pow_right (by norm_num) (by omega)))
  · intro h
    apply Nat.eq_of_testBit_eq
    intro i
    rw [Nat.testBit_and, testBit_width_mask n i hn, Nat.zero_testBit]
    by_cases hi : i < n
    · simp [hi]
    · have : types.testBit i = false :=
        Nat.testBit_eq_false_of_lt (lt_of_lt_of_le h (Nat.pow_le_pow_right (by norm_num) (by omega)))
      simp [this]

/-! ### Heap and list updates -/

theorem eventh_append (e e1 : nouveau_event) (x : Option nouveau_eventh)
    (hh : e1.handlers = e.handlers ++ [x]) (b : Nat) :
    e1.eventh b = if b < e.handlers.length then e.eventh b
      else if b = e.handlers.length then x else none := by
  unfold nouveau_event.eventh
  rw [hh, List.getD_eq_getElem?_getD, List.getD_eq_getElem?_getD]
  by_cases hb : b < e.handlers.length
  · rw [List.getElem?_append_left hb]; simp [hb]
  · rw [List.getElem?_append_right (by omega)]
    by_cases hb2 : b = e.handlers.length
    · subst hb2; simp
    · have : b - e.handlers.length ≠ 0 := by omega
      simp only [hb, hb2, if_false]
      rw [List.getElem?_eq_none (by simp; omega)]; rfl

theorem eventh_append_of_live (e e1 : nouveau_event) (x : Option nouveau_eventh)
    (hh : e1.handlers = e.handlers ++ [x]) (b : Nat) (h : nouveau_eventh)
    (hb : e.eventh b = some h) : e1.eventh b = some h := by
  rw [eventh_append e e1 x hh b, if_pos (eventh_lt e b h hb), hb]

theorem getD_set_list {α : Type} (l : List (List α)) (i j : Nat) (x : List α) (hi : i < l.length) :
    (l.set i x).getD j [] = if j = i then x else l.getD j [] := by
  rw [List.getD_eq_getElem?_getD, List.getD_eq_getElem?_getD]
  by_cases hj : j = i
  · subst hj; rw [List.getElem?_set_self hi]; simp
  · rw [List.getElem?_set_ne (fun h => hj h.symm)]; simp [hj]

theorem getD_map_list {α : Type} (l : List (List α)) (f : List α → List α) (hf : f [] = [])
    (j : Nat) : (l.map f).getD j [] = f (l.getD j []) := by
  rw [List.getD_eq_getElem?_getD, List.getD_eq_getElem?_getD, List.getElem?_map]
  cases l[j]? with
  | none => simp [hf]
  | some x => simp

theorem countP_eq_of_forall {α : Type} (p q : α → Bool) (l : List α)
    (h : ∀ x ∈ l, p x = q x) : l.countP p = l.countP q :=
  List.countP_congr (fun x hx => by rw [h x hx])

theorem armed_zero (types : Nat) (index : Int) (func priv : Nat) :
    armed ⟨0, types, index, func, priv⟩ = false := by
  unfold armed test_bit
  exact Nat.zero_testBit _

/-- A freed cell appended to the heap changes nothing. -/
theorem Inv_dead (e e1 : nouveau_event) (hI : Inv e) (hn : e1.types_nr = e.types_nr)
    (hN : e1.index_nr = e.index_nr) (hl : e1.list = e.list) (hr : e1.refs = e.refs)
    (hh : e1.handlers = e.handlers ++ [none]) : Inv e1 := by
  have hev : ∀ b, e1.eventh b = e.eventh b := by
    intro b
    rw [eventh_append e e1 none hh b]
    by_cases hb : b < e.handlers.length
    · simp [hb]
    · have : e.eventh b = none := by
        cases hx : e.eventh b with
        | none => rfl
        | some h => exact absurd (eventh_lt e b h hx) hb
      rw [this]; simp
  obtain ⟨⟨w1, w2, w3, w4, w5, w6, w7, w8, w9⟩, hr0⟩ := hI
  refine ⟨⟨by rw [hn]; exact w1, by rw [hn]; exact w2, by rw [hN]; exact w3,
    by rw [hn, hN]; exact w4, by rw [hl, hN]; exact w5, by rw [hr, hn, hN]; exact w6, ?_,
    by rw [hl]; exact w8, ?_⟩, ?_⟩
  · intro i hi b hb
    rw [hl] at hi hb
    have := w7 i hi b hb
    unfold listener_ok at this ⊢
    rw [hev b, hn]; exact this
  · intro b _
    unfold linked
    rw [hev b, hl]
    cases hx : e.eventh b with
    | none => trivial
    | some h =>
      have := w9 b (List.mem_range.2 (eventh_lt e b h hx))
      unfold linked at this
      rw [hx] at this
      exact this
  · intro i hi t ht
    rw [hN] at hi
    rw [hn] at ht ⊢
    rw [hr, hr0 i hi t ht]
    unfold armed_count
    rw [hl]
    congr 2
    apply List.countP_congr
    intro b _
    unfold wants
    rw [hev b]

/-- Linking a new disarmed listener at the tail of the list of its index
keeps the invariant. -/
theorem Inv_link (e e1 : nouveau_event) (hI : Inv e) (hnew : nouveau_eventh)
    (hn : e1.types_nr = e.types_nr) (hN : e1.index_nr = e.index_nr) (hr : e1.refs = e.refs)
    (hh : e1.handlers = e.handlers ++ [some hnew])
    (hi0 : 0 ≤ hnew.index) (hi1 : hnew.index < e.index_nr)
    (ht : hnew.types < 2 ^ e.types_nr.toNat) (hf : armed hnew = false)
    (hl : e1.list = e.list.set hnew.index.toNat
      (e.list.getD hnew.index.toNat [] ++ [e.handlers.length])) : Inv e1 := by
  obtain ⟨hw, hr0⟩ := hI
  have hw0 := hw
  obtain ⟨w1, w2, w3, w4, w5, w6, w7, w8, w9⟩ := hw
  have hilt : hnew.index.toNat < e.list.length := by omega
  have hev := eventh_append e e1 (some hnew) hh
  have hold : ∀ b h, e.eventh b = some h → e1.eventh b = some h :=
    fun b h hb => eventh_append_of_live e e1 _ hh b h hb
  have hnewev : e1.eventh e.handlers.length = some hnew := by rw [hev]; simp
  have hgd : ∀ j, e1.list.getD j [] =
      if j = hnew.index.toNat then e.list.getD hnew.index.toNat [] ++ [e.handlers.length]
      else e.list.getD j [] := by
    intro j; rw [hl, getD_set_list _ _ _ _ hilt]
  have hfresh : ∀ j, e.handlers.length ∉ e.list.getD j [] := by
    intro j hm
    obtain ⟨h, hb, _⟩ := wf_member e hw0 j _ hm
    exact absurd (eventh_lt e _ h hb) (lt_irrefl _)
  have hlen : e1.list.length = e.list.length := by rw [hl]; simp
  refine ⟨⟨by rw [hn]; exact w1, by rw [hn]; exact w2, by rw [hN]; exact w3,
    by rw [hn, hN]; exact w4, by rw [hlen, hN]; exact w5, by rw [hr, hn, hN]; exact w6, ?_,
    ?_, ?_⟩, ?_⟩
  · intro j hj b hb
    rw [hlen] at hj
    rw [hgd j] at hb
    unfold listener_ok
    rw [hn]
    by_cases hji : j = hnew.index.toNat
    · rw [if_pos hji] at hb
      rcases List.mem_append.1 hb with hb1 | hb1
      · obtain ⟨h, hbe, hbi, hbt⟩ := wf_member e hw0 _ b hb1
        rw [hold b h hbe]
        exact ⟨by rw [hji]; exact hbi, hbt⟩
      · rw [List.mem_singleton] at hb1
        subst hb1
        rw [hnewev]
        exact ⟨by rw [hji]; omega, ht⟩
    · rw [if_neg hji] at hb
      obtain ⟨h, hbe, hbi, hbt⟩ := wf_member e hw0 _ b hb
      rw [hold b h hbe]
      exact ⟨hbi, hbt⟩
  · intro l hlm
    rw [hl] at hlm
    rcases List.mem_or_eq_of_mem_set hlm with hm | hm
    · exact w8 l hm
    · rw [hm]
      refine List.Nodup.append (getD_nodup e.list w8 _) (List.nodup_singleton _) ?_
      intro x hx1 hx2
      rw [List.mem_singleton] at hx2
      subst hx2
      exact hfresh _ hx1
  · intro b hb
    rw [hh, List.length_append, List.length_singleton, List.mem_range] at hb
    unfold linked
    by_cases hbl : b < e.handlers.length
    · cases hx : e.eventh b with
      | none => rw [hev b, if_pos hbl, hx]; trivial
      | some h =>
        rw [hold b h hx]
        have := w9 b (List.mem_range.2 hbl)
        unfold linked at this
        rw [hx] at this
        refine ⟨this.1, ?_⟩
        rw [hgd]
        split
        · rename_i heq
          rw [← heq]
          exact List.mem_append_left _ this.2
        · exact this.2
    · have hbe : b = e.handlers.length := by omega
      subst hbe
      rw [hnewev]
      refine ⟨hi0, ?_⟩
      rw [hgd, if_pos rfl]
      exact List.mem_append_right _ (List.mem_singleton_self _)
  · intro i hi t ht1
    rw [hN] at hi
    rw [hn] at ht1 ⊢
    rw [hr, hr0 i hi t ht1]
    unfold armed_count
    have hwold : ∀ j, ∀ b ∈ e.list.getD j [], wants e1 t b = wants e t b := by
      intro j b hb
      obtain ⟨h, hbe, _⟩ := wf_member e hw0 j b hb
      unfold wants
      rw [hold b h hbe, hbe]
    have hwnew : wants e1 t e.handlers.length = false := by
      unfold wants; rw [hnewev]; simp [hf]
    congr 2
    rw [hgd i]
    by_cases hji : i = hnew.index.toNat
    · rw [if_pos hji, List.countP_append, List.countP_cons_of_neg _ _ (by simp [hwnew]),
        List.countP_nil, Nat.add_zero, hji]
      exact (countP_eq_of_forall _ _ _ (hwold _)).symm
    · rw [if_neg hji]
      exact (countP_eq_of_forall _ _ _ (hwold _)).symm

/-! ### Registration -/

theorem set_append_last {α : Type} (l : List α) (x y : α) :
    (l ++ [x]).set l.length y = l ++ [y] := by
  apply List.ext_getElem?
  intro i
  by_cases hi : i = l.length
  · subst hi
    rw [List.getElem?_set_self (by simp), List.getElem?_append_right (le_refl _)]
    simp
  · rw [List.getElem?_set_ne (fun h => hi h.symm)]
    by_cases hlt : i < l.length
    · rw [List.getElem?_append_left hlt, List.getElem?_append_left hlt]
    · rw [List.getElem?_eq_none (by simp; omega), List.getElem?_eq_none (by simp; omega)]

/-- What `nouveau_event_init` does on a registry of valid width. -/
theorem init_effect (e e2 : nouveau_event) (types : Nat) (index : Int) (func priv handler : Nat)
    (ret : Int) (x : nouveau_eventh)
    (hn0 : 0 ≤ e.types_nr) (hn1 : e.types_nr ≤ 31) (hN : 0 ≤ e.index_nr)
    (hlen : e.list.length = e.index_nr.toNat)
    (ht : types < 4294967296) (hx : e.eventh handler = some x)
    (h : nouveau_event_init e types index func priv handler = .ok (ret, e2)) :
    (ret = -EINVAL ∧ e2 = e ∧ (¬ types < 2 ^ e.types_nr.toNat ∨ e.index_nr ≤ index)) ∨
    (ret = 0 ∧ 0 ≤ index ∧ index < e.index_nr ∧ types < 2 ^ e.types_nr.toNat ∧
      e2 = { e with
        handlers := e.handlers.set handler (some ⟨0, types, index, func, priv⟩),
        list := e.list.set index.toNat (e.list.getD index.toNat [] ++ [handler]) }) := by
  unfold nouveau_event_init at h
  have hw : ¬ (e.types_nr < 0 ∨ 32 ≤ e.types_nr) := by omega
  rw [if_neg hw] at h
  have hm := width_mask_zero_iff e.types_nr.toNat types (by omega) ht
  by_cases hmask : types &&& u32 (bnot (s32 (s32 (2 ^ e.types_nr.toNat) - 1))) = 0
  · have hlt := hm.1 hmask
    rw [if_neg (by simpa using hmask)] at h
    by_cases hidx : index ≥ e.index_nr
    · rw [if_pos hidx] at h
      cases h
      exact Or.inl ⟨rfl, rfl, Or.inr hidx⟩
    · rw [if_neg hidx, hx] at h
      simp only at h
      by_cases hneg : index < 0
      · rw [if_pos hneg] at h; cases h
      · rw [if_neg hneg] at h
        have hil : index.toNat < e.list.length := by omega
        have hget : (e.store handler ⟨0, types, index, func, priv⟩).list[index.toNat]? =
            some (e.list.getD index.toNat []) := by
          show e.list[index.toNat]? = _
          rw [List.getD_eq_getElem?_getD, List.getElem?_eq_getElem hil]; rfl
        rw [hget] at h
        simp only [Except.ok.injEq, Prod.mk.injEq] at h
        refine Or.inr ⟨h.1.symm, by omega, by omega, hlt, ?_⟩
        rw [← h.2]; rfl
  · rw [if_pos hmask] at h
    cases h
    exact Or.inl ⟨rfl, rfl, Or.inl (fun hlt => hmask (hm.2 hlt))⟩

/-- What `nouveau_event_new` does to a well-shaped registry: nothing but the log
changes, or a freed cell is left behind, or a disarmed listener is linked at the
tail of the list of its index. -/
theorem new_effect (check : Nat → Int → Int) (km : Bool) (e e1 : nouveau_event)
    (types : Nat) (index : Int) (func priv : Nat) (ret : Int) (ph : Option Nat) (hw : wf e)
    (h : nouveau_event_new check km e types index func priv = .ok (ret, ph, e1)) :
    e1.types_nr = e.types_nr ∧ e1.index_nr = e.index_nr ∧ e1.refs = e.refs ∧
    e1.check = e.check ∧ e1.enable = e.enable ∧ e1.disable = e.disable ∧
    e1.calls = e.calls ++ (if e.check then [Call.check (types % 4294967296) index] else []) ∧
    ((ret ≠ 0 ∨ ph = none) ∧ e1.handlers = e.handlers ∧ e1.list = e.list ∨
     ret = -EINVAL ∧ e1.handlers = e.handlers ++ [none] ∧ e1.list = e.list ∨
     ret = 0 ∧ ph = some e.handlers.length ∧ 0 ≤ index ∧ index < e.index_nr ∧
       types % 4294967296 < 2 ^ e.types_nr.toNat ∧
       e1.handlers = e.handlers ++ [some ⟨0, types % 4294967296, index, func, priv⟩] ∧
       e1.list = e.list.set index.toNat (e.list.getD index.toNat [] ++ [e.handlers.length])) := by
  have key : ∀ e0 : nouveau_event, e0.types_nr = e.types_nr → e0.index_nr = e.index_nr →
      e0.handlers = e.handlers → e0.list = e.list →
      ∀ r : Int × nouveau_event,
      nouveau_event_init { e0 with handlers := e0.handlers ++ [some ⟨0, 0, 0, 0, 0⟩] }
        (types % 4294967296) index func priv e0.handlers.length = .ok r →
      (r.1 = -EINVAL ∧
        r.2 = { e0 with handlers := e0.handlers ++ [some ⟨0, 0, 0, 0, 0⟩] }) ∨
      (r.1 = 0 ∧ 0 ≤ index ∧ index < e.index_nr ∧
        types % 4294967296 < 2 ^ e.types_nr.toNat ∧
        r.2 = { e0 with
          handlers := e.handlers ++ [some ⟨0, types % 4294967296, index, func, priv⟩],
          list := e.list.set index.toNat (e.list.getD index.toNat [] ++ [e.handlers.length]) }) := by
    intro e0 f1 f2 f7 f8 r hinit
    obtain ⟨w1, w2, w3, _, w5, _⟩ := hw
    obtain ⟨ret1, e2⟩ := r
    have hlive : ({ e0 with handlers := e0.handlers ++ [some ⟨0, 0, 0, 0, 0⟩] } :
        nouveau_event).eventh e0.handlers.length = some ⟨0, 0, 0, 0, 0⟩ := by
      unfold nouveau_event.eventh
      simp
    have := init_effect _ e2 (types % 4294967296) index func priv e0.handlers.length ret1 _
      (by show 0 ≤ e0.types_nr; rw [f1]; exact w1) (by show e0.types_nr ≤ 31; rw [f1]; exact w2)
      (by show 0 ≤ e0.index_nr; rw [f2]; exact w3)
      (by show e0.list.length = e0.index_nr.toNat; rw [f8, f2]; exact w5)
      (Nat.mod_lt _ (by norm_num)) hlive hinit
    rcases this with ⟨hr, he2, _⟩ | ⟨hr, i0, i1, tl, he2⟩
    · exact Or.inl ⟨hr, he2⟩
    · refine Or.inr ⟨hr, i0, by rw [← f2]; exact i1, by rw [← f1]; exact tl, ?_⟩
      rw [he2]
      simp only [set_append_last, f7, f8]
  have fin : ∀ e0 : nouveau_event, e0.types_nr = e.types_nr → e0.index_nr = e.index_nr →
      e0.handlers = e.handlers → e0.list = e.list → e0.refs = e.refs →
      e0.check = e.check → e0.enable = e.enable → e0.disable = e.disable →
      e0.calls = e.calls ++ (if e.check then [Call.check (types % 4294967296) index] else []) →
      (match nouveau_event_init { e0 with handlers := e0.handlers ++ [some ⟨0, 0, 0, 0, 0⟩] }
        (types % 4294967296) index func priv e0.handlers.length with
      | .error x => Except.error x
      | .ok (ret1, event2) =>
        if ret1 ≠ 0 then .ok (ret1, some e0.handlers.length, kfree event2 e0.handlers.length)
        else .ok (ret1, some e0.handlers.length, event2)) = Except.ok (ret, ph, e1) →
      e1.types_nr = e.types_nr ∧ e1.index_nr = e.index_nr ∧ e1.refs = e.refs ∧
      e1.check = e.check ∧ e1.enable = e.enable ∧ e1.disable = e.disable ∧
      e1.calls = e.calls ++ (if e.check then [Call.check (types % 4294967296) index] else []) ∧
      ((ret ≠ 0 ∨ ph = none) ∧ e1.handlers = e.handlers ∧ e1.list = e.list ∨
       ret = -EINVAL ∧ e1.handlers = e.handlers ++ [none] ∧ e1.list = e.list ∨
       ret = 0 ∧ ph = some e.handlers.length ∧ 0 ≤ index ∧ index < e.index_nr ∧
         types % 4294967296 < 2 ^ e.types_nr.toNat ∧
         e1.handlers = e.handlers ++ [some ⟨0, types % 4294967296, index, func, priv⟩] ∧
         e1.list = e.list.set index.toNat (e.list.getD index.toNat [] ++ [e.handlers.length])) := by
    intro e0 f1 f2 f7 f8 f3 f4 f5 f6 f9 hm
    cases hinit : nouveau_event_init { e0 with handlers := e0.handlers ++ [some ⟨0, 0, 0, 0, 0⟩] }
        (types % 4294967296) index func priv e0.handlers.length with
    | error x => rw [hinit] at hm; cases hm
    | ok r =>
      rw [hinit] at hm
      obtain ⟨ret1, e2⟩ := r
      simp only at hm
      rcases key e0 f1 f2 f7 f8 _ hinit with ⟨hr, he2⟩ | ⟨hr, i0, i1, tl, he2⟩
      · simp only at hr he2
        have hne : ret1 ≠ 0 := by rw [hr]; unfold EINVAL; decide
        rw [if_pos hne] at hm
        simp only [Except.ok.injEq, Prod.mk.injEq] at hm
        obtain ⟨m1, m2, m3⟩ := hm
        subst m1 m2 m3 he2
        refine ⟨f1, f2, f3, f4, f5, f6, f9, Or.inr (Or.inl ⟨hr, ?_, f8⟩)⟩
        show (e0.handlers ++ [some (nouveau_eventh.mk 0 0 0 0 0)]).set e0.handlers.length none = _
        rw [set_append_last, f7]
      · simp only at hr he2
        have hne : ¬ ret1 ≠ 0 := by rw [hr]; simp
        rw [if_neg hne] at hm
        simp only [Except.ok.injEq, Prod.mk.injEq] at hm
        obtain ⟨m1, m2, m3⟩ := hm
        subst m1 m2 m3 he2
        refine ⟨f1, f2, f3, f4, f5, f6, f9, Or.inr (Or.inr ?_)⟩
        exact ⟨hr, by rw [f7], i0, i1, tl, rfl, rfl⟩
  unfold nouveau_event_new at h
  obtain ⟨ck, en, di, n, N, l, r, hs, cs⟩ := e
  cases ck with
  | false =>
    simp only [Bool.false_eq_true, if_false, false_and] at h
    cases km with
    | false =>
      simp only [Bool.false_eq_true, if_false, Except.ok.injEq, Prod.mk.injEq] at h
      obtain ⟨m1, m2, m3⟩ := h
      subst m1 m2 m3
      refine ⟨rfl, rfl, rfl, rfl, rfl, rfl, by simp, Or.inl ⟨Or.inr rfl, rfl, rfl⟩⟩
    | true =>
      simp only [if_true] at h
      exact fin (⟨false, en, di, n, N, l, r, hs, cs⟩ : nouveau_event)
        rfl rfl rfl rfl rfl rfl rfl rfl (by simp) h
  | true =>
    simp only [if_true, true_and] at h
    by_cases hret : check (types % 4294967296) index = 0
    · simp only [hret, ne_eq, not_true_eq_false, if_false] at h
      cases km with
      | false =>
        simp only [Bool.false_eq_true, if_false, Except.ok.injEq, Prod.mk.injEq] at h
        obtain ⟨m1, m2, m3⟩ := h
        subst m1 m2 m3
        refine ⟨rfl, rfl, rfl, rfl, rfl, rfl, by simp [nouveau_event.log],
          Or.inl ⟨Or.inr rfl, rfl, rfl⟩⟩
      | true =>
        simp only [if_true] at h
        exact fin ((⟨true, en, di, n, N, l, r, hs, cs⟩ : nouveau_event).log
          (Call.check (types % 4294967296) index)) rfl rfl rfl rfl rfl rfl rfl rfl
          (by simp [nouveau_event.log]) h
    · simp only [ne_eq, hret, not_false_eq_true, if_true, Except.ok.injEq, Prod.mk.injEq] at h
      obtain ⟨m1, m2, m3⟩ := h
      subst m1 m2 m3
      refine ⟨rfl, rfl, rfl, rfl, rfl, rfl, by simp [nouveau_event.log],
        Or.inl ⟨Or.inl hret, rfl, rfl⟩⟩

theorem new_inv (check : Nat → Int → Int) (km : Bool) (e e1 : nouveau_event)
    (types : Nat) (index : Int) (func priv : Nat) (ret : Int) (ph : Option Nat) (hI : Inv e)
    (h : nouveau_event_new check km e types index func priv = .ok (ret, ph, e1)) : Inv e1 := by
  obtain ⟨h1, h2, h3, _, _, _, _, hs⟩ := new_effect check km e e1 types index func priv ret ph hI.1 h
  rcases hs with ⟨_, hh, hl⟩ | ⟨_, hh, hl⟩ | ⟨_, _, i0, i1, tl, hh, hl⟩
  · exact Inv_congr e e1 h1 h2 hl h3 hh hI
  · exact Inv_dead e e1 hI h1 h2 hl h3 hh
  · exact Inv_link e e1 hI ⟨0, types % 4294967296, index, func, priv⟩ h1 h2 h3 hh i0 i1 tl
      (armed_zero _ _ _ _) hl

/-! ### Teardown -/

theorem eventh_of_set_none (e e1 : nouveau_event) (a : Nat)
    (hh : e1.handlers = e.handlers.set a none) (b : Nat) :
    e1.eventh b = if b = a then none else e.eventh b := by
  unfold nouveau_event.eventh
  rw [hh, List.getD_eq_getElem?_getD, List.getD_eq_getElem?_getD]
  by_cases hb : b = a
  · subst hb
    by_cases hlt : b < e.handlers.length
    · rw [List.getElem?_set_self hlt]; simp
    · rw [List.getElem?_eq_none (by simp; omega)]; simp
  · rw [List.getElem?_set_ne (fun x => hb x.symm)]; simp [hb]

/-- After `nouveau_event_put` the listener is disarmed; nothing else of it changes. -/
theorem put_disarms (e e1 : nouveau_event) (hw : wf e) (a : Nat) (h : nouveau_eventh)
    (ha : e.eventh a = some h) (hp : nouveau_event_put e a = .ok e1) :
    ∃ h1, e1.eventh a = some h1 ∧ armed h1 = false ∧ h1.index = h.index ∧ h1.types = h.types ∧
      h1.func = h.func ∧ h1.priv = h.priv ∧ e1.list = e.list := by
  cases hd : armed h with
  | false =>
    rw [put_disarmed e a h ha hd] at hp
    cases hp
    exact ⟨h, ha, hd, rfl, rfl, rfl, rfl, rfl⟩
  | true =>
    rw [put_eq e hw a h ha hd] at hp
    cases hp
    refine ⟨{ h with flags := __clear_bit NVKM_EVENT_ENABLE h.flags }, ?_, armed_clear h,
      rfl, rfl, rfl, rfl, rfl⟩
    rw [eventh_of_set e _ a h _ ha rfl a]; simp

/-- Unlinking and freeing a disarmed listener keeps the invariant. -/
theorem Inv_unlink (e e1 : nouveau_event) (hI : Inv e) (a : Nat) (h : nouveau_eventh)
    (ha : e.eventh a = some h) (hd : armed h = false)
    (hn : e1.types_nr = e.types_nr) (hN : e1.index_nr = e.index_nr) (hr : e1.refs = e.refs)
    (hh : e1.handlers = e.handlers.set a none)
    (hl : e1.list = e.list.map (fun l => l.filter (fun x => x != a))) : Inv e1 := by
  obtain ⟨hw, hr0⟩ := hI
  have hw0 := hw
  obtain ⟨w1, w2, w3, w4, w5, w6, w7, w8, w9⟩ := hw
  have hev := eventh_of_set_none e e1 a hh
  have hgd : ∀ j, e1.list.getD j [] = (e.list.getD j []).filter (fun x => x != a) := by
    intro j; rw [hl, getD_map_list _ _ (by simp)]
  have hlen : e1.list.length = e.list.length := by rw [hl]; simp
  refine ⟨⟨by rw [hn]; exact w1, by rw [hn]; exact w2, by rw [hN]; exact w3,
    by rw [hn, hN]; exact w4, by rw [hlen, hN]; exact w5, by rw [hr, hn, hN]; exact w6, ?_,
    ?_, ?_⟩, ?_⟩
  · intro j hj b hb
    rw [hlen] at hj
    rw [hgd j, List.mem_filter] at hb
    have hba : b ≠ a := by simpa using hb.2
    have := w7 j hj b hb.1
    unfold listener_ok at this ⊢
    rw [hev b, if_neg hba, hn]; exact this
  · intro l hlm
    rw [hl, List.mem_map] at hlm
    obtain ⟨l0, hl0, rfl⟩ := hlm
    exact (w8 l0 hl0).filter _
  · intro b hb
    have hlen2 : e1.handlers.length = e.handlers.length := by rw [hh]; simp
    rw [hlen2] at hb
    unfold linked
    rw [hev b]
    by_cases hba : b = a
    · rw [if_pos hba]; trivial
    · rw [if_neg hba]
      have := w9 b hb
      unfold linked at this
      cases hx : e.eventh b with
      | none => trivial
      | some hb0 =>
        rw [hx] at this
        refine ⟨this.1, ?_⟩
        rw [hgd, List.mem_filter]
        exact ⟨this.2, by simpa using hba⟩
  · intro i hi t ht1
    rw [hN] at hi
    rw [hn] at ht1 ⊢
    rw [hr, hr0 i hi t ht1]
    unfold armed_count
    congr 2
    rw [hgd i, List.countP_filter]
    apply countP_eq_of_forall
    intro b _
    by_cases hba : b = a
    · subst hba
      have : wants e t b = false := by unfold wants; rw [ha]; simp [hd]
      rw [this]; simp
    · have : wants e1 t b = wants e t b := by unfold wants; rw [hev b, if_neg hba]
      rw [this]; simp [hba]

/-- What the teardown `nouveau_event_ref(NULL, &ref)` does to a well-shaped
registry: the listener is disarmed, unlinked and freed. -/
theorem ref_effect (e e2 : nouveau_event) (hw : wf e) (a : Nat) (r : Option Nat)
    (h : nouveau_event_ref e none (some a) = .ok (r, e2)) :
    r = none ∧ ∃ h0 e1, e.eventh a = some h0 ∧ nouveau_event_put e a = .ok e1 ∧
      e2 = { e1 with
        list := e1.list.map (fun l => l.filter (fun x => x != a)),
        handlers := e1.handlers.set a none } := by
  unfold nouveau_event_ref at h
  simp only [ne_eq, not_true_eq_false, if_false] at h
  unfold nouveau_event_fini at h
  cases ha : e.eventh a with
  | none =>
    have : nouveau_event_put e a = .error .invalid := by
      unfold nouveau_event_put; rw [ha]
    rw [this] at h; cases h
  | some h0 =>
    obtain ⟨e1, hp⟩ := put_total e hw a h0 ha
    rw [hp] at h
    simp only at h
    cases hld : list_del e1 a with
    | error x => rw [hld] at h; cases h
    | ok e3 =>
      rw [hld] at h
      simp only [Except.ok.injEq, Prod.mk.injEq] at h
      unfold list_del at hld
      split at hld
      · cases hld
        exact ⟨h.1.symm, h0, e1, rfl, hp, h.2.symm⟩
      · cases hld

theorem ref_inv (e e2 : nouveau_event) (hI : Inv e) (a : Nat) (r : Option Nat)
    (h : nouveau_event_ref e none (some a) = .ok (r, e2)) : Inv e2 := by
  obtain ⟨_, h0, e1, ha, hp, rfl⟩ := ref_effect e e2 hI.1 a r h
  obtain ⟨h1, hb, hd, _⟩ := put_disarms e e1 hI.1 a h0 ha hp
  exact Inv_unlink e1 _ (put_inv e e1 a hI hp) a h1 hb hd rfl rfl rfl rfl rfl

/-! ### Construction and runs -/

/-- What `nouveau_event_create` returns when it returns 0: both allocations
could be served, so `index_nr` is between 0 and 2^26. -/
theorem create_shape (kz km : Bool) (types_nr index_nr : Int) (e0 : nouveau_event)
    (h : nouveau_event_create kz km types_nr index_nr = .ok (0, some e0)) :
    0 ≤ index_nr ∧ index_nr ≤ 67108864 ∧ -2147483648 ≤ types_nr ∧ types_nr ≤ 2147483647 ∧
    e0 =
      { check := false, enable := false, disable := false,
        types_nr := types_nr, index_nr := index_nr,
        list := List.replicate index_nr.toNat [],
        refs := List.replicate (s32 (index_nr * types_nr)).toNat 0,
        handlers := [], calls := [] } := by
  unfold nouveau_event_create at h
  split at h
  · cases h
  · rename_i hr
    split at h
    · cases h
    · split at h
      · cases h
      · rename_i hl
        simp only [Except.ok.injEq, Prod.mk.injEq, Option.some.injEq, true_and] at h
        simp only [not_or, not_lt] at hr hl
        have hl2 := hl.2
        unfold KMALLOC_MAX_SIZE sizeof_list size_t at hl2
        exact ⟨by omega, by omega, by omega, by omega, h.symm⟩

/-- With a width of 0 to 31 the product of the dimensions of a registry that
`nouveau_event_create` made does not wrap. -/
theorem create_effect (kz km : Bool) (types_nr index_nr : Int) (e0 : nouveau_event)
    (h0 : 0 ≤ types_nr) (h31 : types_nr ≤ 31)
    (h : nouveau_event_create kz km types_nr index_nr = .ok (0, some e0)) :
    0 ≤ types_nr ∧ 0 ≤ index_nr ∧ index_nr * types_nr < 2147483648 ∧
    e0 =
      { check := false, enable := false, disable := false,
        types_nr := types_nr, index_nr := index_nr,
        list := List.replicate index_nr.toNat [],
        refs := List.replicate (index_nr * types_nr).toNat 0,
        handlers := [], calls := [] } := by
  obtain ⟨c1, c2, _, _, he0⟩ := create_shape kz km types_nr index_nr e0 h
  have hp0 : 0 ≤ index_nr * types_nr := mul_nonneg c1 h0
  have hp1 : index_nr * types_nr ≤ 67108864 * 31 := mul_le_mul c2 h31 h0 (by norm_num)
  have hs : s32 (index_nr * types_nr) = index_nr * types_nr := by
    unfold s32
    generalize index_nr * types_nr = p at hp0 hp1
    omega
  rw [hs] at he0
  exact ⟨h0, c1, by omega, he0⟩

theorem create_inv (kz km : Bool) (types_nr index_nr : Int) (e0 : nouveau_event)
    (check enable disable : Bool) (h0 : 0 ≤ types_nr) (h31 : types_nr ≤ 31)
    (h : nouveau_event_create kz km types_nr index_nr = .ok (0, some e0)) :
    Inv (configure e0 check enable disable) := by
  obtain ⟨h1, h2, h3, rfl⟩ := create_effect kz km types_nr index_nr e0 h0 h31 h
  have hgd : ∀ j, (List.replicate index_nr.toNat ([] : List Nat)).getD j [] = [] := by
    intro j
    rw [List.getD_eq_getElem?_getD]
    by_cases hj : j < index_nr.toNat
    · rw [List.getElem?_eq_getElem (by simpa using hj)]; simp
    · rw [List.getElem?_eq_none (by simp; omega)]; rfl
  refine ⟨⟨h1, h31, h2, h3, by simp [configure], by simp [configure], ?_, ?_, ?_⟩, ?_⟩
  · intro i _ a ha
    simp only [configure] at ha
    rw [hgd i] at ha
    cases ha
  · intro l hl
    simp only [configure] at hl
    rw [List.eq_of_mem_replicate hl]
    exact List.nodup_nil
  · intro a ha
    simp [configure] at ha
  · intro i hi t ht
    simp only [configure] at hi ht ⊢
    rw [List.mem_range] at hi ht
    have hlt := slot_lt types_nr index_nr i t h1 (by omega) (by omega) (by omega) h3
    unfold armed_count
    simp only [hgd i, List.countP_nil]
    rw [List.getElem?_eq_getElem (by simpa using hlt)]
    simp

theorem step_inv (e e1 : nouveau_event) (op : Op) (hI : Inv e) (h : step e op = .ok e1) :
    Inv e1 := by
  cases op with
  | new check km types index func priv =>
    simp only [step] at h
    cases hn : nouveau_event_new check km e types index func priv with
    | error x => rw [hn] at h; cases h
    | ok r =>
      rw [hn] at h
      cases h
      obtain ⟨ret, ph, e2⟩ := r
      exact new_inv check km e e2 types index func priv ret ph hI hn
  | get a => exact get_inv e e1 a hI h
  | put a => exact put_inv e e1 a hI h
  | ref a =>
    simp only [step] at h
    cases hn : nouveau_event_ref e none (some a) with
    | error x => rw [hn] at h; cases h
    | ok r =>
      rw [hn] at h
      cases h
      obtain ⟨r1, e2⟩ := r
      exact ref_inv e e2 hI a r1 hn
  | trigger cb types index => exact trigger_inv cb types index e e1 hI h

theorem run_inv (ops : List Op) : ∀ (e e1 : nouveau_event), Inv e → run e ops = .ok e1 → Inv e1 := by
  induction ops with
  | nil => intro e e1 hI h; rw [run] at h; cases h; exact hI
  | cons op ops ih =>
    intro e e1 hI h
    rw [run] at h
    cases hs : step e op with
    | error x => rw [hs] at h; cases h
    | ok e2 =>
      rw [hs] at h
      exact ih e2 e1 (step_inv e e2 op hI hs) h

/-! ### Case analyses of the operations on a well-shaped registry -/

theorem put_cases (e e1 : nouveau_event) (hw : wf e) (a : Nat)
    (hp : nouveau_event_put e a = .ok e1) :
    ∃ h, e.eventh a = some h ∧
      ((armed h = false ∧ e1 = e) ∨
       (armed h = true ∧ e1 = { e with
          handlers := e.handlers.set a
            (some { h with flags := __clear_bit NVKM_EVENT_ENABLE h.flags }),
          refs := refs_adj (-1) e.types_nr h.index (bits h.types) e.refs,
          calls := e.calls ++
            (if e.disable then fired Call.disable 1 e.types_nr h.index (bits h.types) e.refs
             else []) })) := by
  cases ha : e.eventh a with
  | none => unfold nouveau_event_put at hp; rw [ha] at hp; cases hp
  | some h =>
    refine ⟨h, rfl, ?_⟩
    cases hd : armed h with
    | false => rw [put_disarmed e a h ha hd] at hp; cases hp; exact Or.inl ⟨rfl, rfl⟩
    | true => rw [put_eq e hw a h ha hd] at hp; cases hp; exact Or.inr ⟨rfl, rfl⟩

theorem get_cases (e e1 : nouveau_event) (hw : wf e) (a : Nat)
    (hp : nouveau_event_get e a = .ok e1) :
    ∃ h, e.eventh a = some h ∧
      ((armed h = true ∧ e1 = e) ∨
       (armed h = false ∧ e1 = { e with
          handlers := e.handlers.set a
            (some { h with flags := __set_bit NVKM_EVENT_ENABLE h.flags }),
          refs := refs_adj 1 e.types_nr h.index (bits h.types) e.refs,
          calls := e.calls ++
            (if e.enable then fired Call.enable 0 e.types_nr h.index (bits h.types) e.refs
             else []) })) := by
  cases ha : e.eventh a with
  | none => unfold nouveau_event_get at hp; rw [ha] at hp; cases hp
  | some h =>
    refine ⟨h, rfl, ?_⟩
    cases hd : armed h with
    | true => rw [get_armed e a h ha hd] at hp; cases hp; exact Or.inl ⟨rfl, rfl⟩
    | false => rw [get_eq e hw a h ha hd] at hp; cases hp; exact Or.inr ⟨rfl, rfl⟩

/-- The five kinds of step. -/
theorem step_cases (e e1 : nouveau_event) (op : Op) (h : step e op = .ok e1) :
    (∃ check km types index func priv ret ph, op = Op.new check km types index func priv ∧
      nouveau_event_new check km e types index func priv = .ok (ret, ph, e1)) ∨
    (∃ a, op = Op.get a ∧ nouveau_event_get e a = .ok e1) ∨
    (∃ a, op = Op.put a ∧ nouveau_event_put e a = .ok e1) ∨
    (∃ a r, op = Op.ref a ∧ nouveau_event_ref e none (some a) = .ok (r, e1)) ∨
    (∃ cb types index, op = Op.trigger cb types index ∧
      nouveau_event_trigger cb e types index = .ok e1) := by
  cases op with
  | new check km types index func priv =>
    simp only [step] at h
    cases hn : nouveau_event_new check km e types index func priv with
    | error x => rw [hn] at h; cases h
    | ok r =>
      obtain ⟨ret, ph, e2⟩ := r
      rw [hn] at h
      cases h
      exact Or.inl ⟨check, km, types, index, func, priv, ret, ph, rfl, hn⟩
  | get a => exact Or.inr (Or.inl ⟨a, rfl, h⟩)
  | put a => exact Or.inr (Or.inr (Or.inl ⟨a, rfl, h⟩))
  | ref a =>
    simp only [step] at h
    cases hn : nouveau_event_ref e none (some a) with
    | error x => rw [hn] at h; cases h
    | ok r =>
      obtain ⟨r1, e2⟩ := r
      rw [hn] at h
      cases h
      exact Or.inr (Or.inr (Or.inr (Or.inl ⟨a, r1, rfl, hn⟩)))
  | trigger cb types index => exact Or.inr (Or.inr (Or.inr (Or.inr ⟨cb, types, index, rfl, h⟩)))

/-- A property kept by every permitted step is kept by a run of permitted steps. -/
theorem run_keeps (P : nouveau_event → Prop) (G : Op → Prop)
    (hstep : ∀ e op e1, G op → P e → step e op = .ok e1 → P e1) (ops : List Op) :
    ∀ (e e1 : nouveau_event), (∀ op ∈ ops, G op) → P e → run e ops = .ok e1 → P e1 := by
  induction ops with
  | nil => intro e e1 _ hP h; rw [run] at h; cases h; exact hP
  | cons op ops ih =>
    intro e e1 hG hP h
    rw [run] at h
    cases hs : step e op with
    | error x => rw [hs] at h; cases h
    | ok e2 =>
      rw [hs] at h
      exact ih e2 e1 (fun o ho => hG o (List.mem_cons_of_mem _ ho))
        (hstep e op e2 (hG op (List.mem_cons_self _ _)) hP hs) h

/-- A visit of the dispatch walk, with what is known when a callback is logged. -/
theorem visit_cases (cb : Nat → Nat → Nat → Nat → Int → Int) (types : Nat) (index : Int)
    (a : Nat) (e e1 : nouveau_event) (hv : trigger_visit cb types index a e = .ok e1) :
    ∃ h, e.eventh a = some h ∧
      ((armed h = false ∨ h.types &&& types = 0) ∧ e1 = e ∨
       (armed h = true ∧ h.types &&& types ≠ 0 ∧
          cb a h.func h.priv (h.types &&& types) index ≠ NVKM_EVENT_DROP ∧
          e1 = e.log (Call.func a h.func h.priv (h.types &&& types) index)) ∨
       (armed h = true ∧ h.types &&& types ≠ 0 ∧
          cb a h.func h.priv (h.types &&& types) index = NVKM_EVENT_DROP ∧
          nouveau_event_put (e.log (Call.func a h.func h.priv (h.types &&& types) index)) a
            = .ok e1)) := by
  unfold trigger_visit at hv
  cases ha : e.eventh a with
  | none => rw [ha] at hv; cases hv
  | some h =>
    rw [ha] at hv
    refine ⟨h, rfl, ?_⟩
    simp only at hv
    cases hd : armed h with
    | false => simp only [hd, Bool.not_false, if_true] at hv; cases hv; exact Or.inl ⟨Or.inl rfl, rfl⟩
    | true =>
      simp only [hd, Bool.not_true, Bool.false_eq_true, if_false] at hv
      by_cases hm : h.types &&& types = 0
      · rw [if_pos hm] at hv; cases hv; exact Or.inl ⟨Or.inr hm, rfl⟩
      · rw [if_neg hm] at hv
        by_cases hc : cb a h.func h.priv (h.types &&& types) index = NVKM_EVENT_DROP
        · rw [if_neg (by simpa using hc)] at hv
          exact Or.inr (Or.inr ⟨rfl, hm, hc, hv⟩)
        · rw [if_pos hc] at hv
          cases hv
          exact Or.inr (Or.inl ⟨rfl, hm, hc, rfl⟩)

/-- A property kept by disarming and by logging the callback of a live armed
listener is kept by dispatch. -/
theorem trigger_keeps_live (P : nouveau_event → Prop)
    (hput : ∀ e a e1, P e → nouveau_event_put e a = .ok e1 → P e1)
    (hlog : ∀ e a h m i, P e → e.eventh a = some h → armed h = true →
      P (e.log (Call.func a h.func h.priv m i)))
    (hwarn : ∀ e, P e → P (e.log Call.WARN))
    (cb : Nat → Nat → Nat → Nat → Int → Int) (types : Nat) (index : Int)
    (e e1 : nouveau_event) (hP : P e) (h : nouveau_event_trigger cb e types index = .ok e1) :
    P e1 := by
  have hloop : ∀ (l : List Nat) (e e1 : nouveau_event), P e →
      trigger_loop cb types index l e = .ok e1 → P e1 := by
    intro l
    induction l with
    | nil => intro e e1 hP h; rw [trigger_loop] at h; cases h; exact hP
    | cons a rest ih =>
      intro e e1 hP h
      rw [trigger_loop_cons] at h
      cases hv : trigger_visit cb types index a e with
      | error x => rw [hv] at h; cases h
      | ok e2 =>
        rw [hv] at h
        refine ih e2 e1 ?_ h
        obtain ⟨h0, ha, hc⟩ := visit_cases cb types index a e e2 hv
        rcases hc with ⟨_, rfl⟩ | ⟨hd, _, _, rfl⟩ | ⟨hd, _, _, hp⟩
        · exact hP
        · exact hlog _ _ _ _ _ hP ha hd
        · exact hput _ _ _ (hlog _ _ _ _ _ hP ha hd) hp
  unfold nouveau_event_trigger at h
  split at h
  · cases h; exact hwarn _ hP
  · split at h
    · cases h
    · split at h
      · cases h
      · exact hloop _ e e1 hP h

/-! ### Operations only extend the log and leave the setup alone -/

theorem put_setup (e e1 : nouveau_event) (hw : wf e) (a : Nat)
    (hp : nouveau_event_put e a = .ok e1) :
    setup e1 = setup e ∧ e1.list = e.list ∧ e.calls <+: e1.calls := by
  obtain ⟨h, _, hc⟩ := put_cases e e1 hw a hp
  rcases hc with ⟨_, rfl⟩ | ⟨_, rfl⟩
  · exact ⟨rfl, rfl, List.prefix_refl _⟩
  · exact ⟨rfl, rfl, List.prefix_append _ _⟩

theorem get_setup (e e1 : nouveau_event) (hw : wf e) (a : Nat)
    (hp : nouveau_event_get e a = .ok e1) :
    setup e1 = setup e ∧ e1.list = e.list ∧ e.calls <+: e1.calls := by
  obtain ⟨h, _, hc⟩ := get_cases e e1 hw a hp
  rcases hc with ⟨_, rfl⟩ | ⟨_, rfl⟩
  · exact ⟨rfl, rfl, List.prefix_refl _⟩
  · exact ⟨rfl, rfl, List.prefix_append _ _⟩

theorem new_setup (check : Nat → Int → Int) (km : Bool) (e e1 : nouveau_event)
    (types : Nat) (index : Int) (func priv : Nat) (ret : Int) (ph : Option Nat) (hw : wf e)
    (h : nouveau_event_new check km e types index func priv = .ok (ret, ph, e1)) :
    setup e1 = setup e ∧ e.calls <+: e1.calls := by
  obtain ⟨h1, h2, _, h4, h5, h6, h7, _⟩ := new_effect check km e e1 types index func priv ret ph hw h
  refine ⟨by unfold setup; rw [h1, h2, h4, h5, h6], ?_⟩
  rw [h7]; exact List.prefix_append _ _

theorem ref_setup (e e2 : nouveau_event) (hw : wf e) (a : Nat) (r : Option Nat)
    (h : nouveau_event_ref e none (some a) = .ok (r, e2)) :
    setup e2 = setup e ∧ e.calls <+: e2.calls := by
  obtain ⟨_, h0, e1, _, hp, rfl⟩ := ref_effect e e2 hw a r h
  obtain ⟨s1, _, s3⟩ := put_setup e e1 hw a hp
  exact ⟨s1, s3⟩

theorem trigger_setup (cb : Nat → Nat → Nat → Nat → Int → Int) (types : Nat) (index : Int)
    (e e1 : nouveau_event) (hI : Inv e) (h : nouveau_event_trigger cb e types index = .ok e1) :
    setup e1 = setup e ∧ e1.list = e.list ∧ e.calls <+: e1.calls := by
  have := trigger_keeps_live
    (fun x => Inv x ∧ setup x = setup e ∧ x.list = e.list ∧ e.calls <+: x.calls)
    (fun x a x1 hx hp => by
      obtain ⟨s1, s2, s3⟩ := put_setup x x1 hx.1.1 a hp
      exact ⟨put_inv x x1 a hx.1 hp, s1.trans hx.2.1, s2.trans hx.2.2.1, hx.2.2.2.trans s3⟩)
    (fun x a h m i hx _ _ =>
      ⟨Inv_log x _ hx.1, hx.2.1, hx.2.2.1, hx.2.2.2.trans (List.prefix_append _ _)⟩)
    (fun x hx => ⟨Inv_log x _ hx.1, hx.2.1, hx.2.2.1, hx.2.2.2.trans (List.prefix_append _ _)⟩)
    cb types index e e1 ⟨hI, rfl, rfl, List.prefix_refl _⟩ h
  exact this.2

theorem step_setup (e e1 : nouveau_event) (op : Op) (hI : Inv e) (h : step e op = .ok e1) :
    setup e1 = setup e ∧ e.calls <+: e1.calls := by
  rcases step_cases e e1 op h with ⟨check, km, types, index, func, priv, ret, ph, _, hn⟩ |
    ⟨a, _, hg⟩ | ⟨a, _, hp⟩ | ⟨a, r, _, hr⟩ | ⟨cb, types, index, _, ht⟩
  · exact new_setup check km e e1 types index func priv ret ph hI.1 hn
  · exact ⟨(get_setup e e1 hI.1 a hg).1, (get_setup e e1 hI.1 a hg).2.2⟩
  · exact ⟨(put_setup e e1 hI.1 a hp).1, (put_setup e e1 hI.1 a hp).2.2⟩
  · exact ref_setup e e1 hI.1 a r hr
  · exact ⟨(trigger_setup cb types index e e1 hI ht).1, (trigger_setup cb types index e e1 hI ht).2.2⟩

theorem run_setup (ops : List Op) (e e1 : nouveau_event) (hI : Inv e) (h : run e ops = .ok e1) :
    Inv e1 ∧ setup e1 = setup e ∧ e.calls <+: e1.calls :=
  run_keeps (fun x => Inv x ∧ setup x = setup e ∧ e.calls <+: x.calls) (fun _ => True)
    (fun x op x1 _ hx hs =>
      ⟨step_inv x x1 op hx.1 hs, (step_setup x x1 op hx.1 hs).1.trans hx.2.1,
        hx.2.2.trans (step_setup x x1 op hx.1 hs).2⟩)
    ops e e1 (fun _ _ => trivial) ⟨hI, rfl, List.prefix_refl _⟩ h

theorem setup_fields (e e1 : nouveau_event) (h : setup e1 = setup e) :
    e1.types_nr = e.types_nr ∧ e1.index_nr = e.index_nr ∧ e1.check = e.check ∧
      e1.enable = e.enable ∧ e1.disable = e.disable := by
  unfold setup at h
  simp only [Prod.mk.injEq] at h
  exact h

/-- A state reached from a fresh registry satisfies the invariant and has the
dimensions and configuration it was created with. -/
theorem reachable_inv (kz km : Bool) (types_nr index_nr : Int) (check enable disable : Bool)
    (e0 e : nouveau_event) (ops : List Op) (h0 : 0 ≤ types_nr) (h31 : types_nr ≤ 31)
    (hc : nouveau_event_create kz km types_nr index_nr = .ok (0, some e0))
    (hrun : run (configure e0 check enable disable) ops = .ok e) :
    Inv e ∧ e.types_nr = types_nr ∧ e.index_nr = index_nr ∧ e.check = check ∧
      e.enable = enable ∧ e.disable = disable ∧ 0 ≤ index_nr := by
  have hI0 := create_inv kz km types_nr index_nr e0 check enable disable h0 h31 hc
  obtain ⟨hI, hs, _⟩ := run_setup ops _ e hI0 hrun
  obtain ⟨_, hN, _, rfl⟩ := create_effect kz km types_nr index_nr e0 h0 h31 hc
  obtain ⟨s1, s2, s3, s4, s5⟩ := setup_fields _ _ hs
  exact ⟨hI, s1, s2, s3, s4, s5, hN⟩

/-- The reference-count invariant read at the plain index `i * types_nr + t`. -/
theorem Inv_refs_at (e : nouveau_event) (hI : Inv e) (i t : Nat)
    (hi : (i : Int) < e.index_nr) (ht : (t : Int) < e.types_nr) :
    e.refs[i * e.types_nr.toNat + t]? = some (armed_count e i t : Int) := by
  have hn := hI.1.1
  have hs : slot e.types_nr i t = i * e.types_nr.toNat + t := by
    rw [slot_eq e.types_nr i t hn (by omega)
      (by have := slot_bound e.types_nr e.index_nr i t hi ht hn; have := hI.1.2.2.2.1; omega)]
    congr 1
    have : (i : Int) * e.types_nr = ((i * e.types_nr.toNat : Nat) : Int) := by
      push_cast; rw [Int.toNat_of_nonneg hn]
    rw [this, Int.toNat_ofNat]
  rw [← hs]
  exact hI.2 i (List.mem_range.2 (by omega)) t (List.mem_range.2 (by omega))

theorem armed_count_pos_iff (e : nouveau_event) (i t : Nat) :
    (0 : Int) < (armed_count e i t : Int) ↔
      ∃ a ∈ e.list.getD i [], ∃ h, e.eventh a = some h ∧ armed h = true ∧
        h.types.testBit t = true := by
  unfold armed_count
  rw [Int.natCast_pos, List.countP_pos_iff]
  constructor
  · rintro ⟨a, ha, hwa⟩
    refine ⟨a, ha, ?_⟩
    unfold wants at hwa
    cases hx : e.eventh a with
    | none => rw [hx] at hwa; cases hwa
    | some h =>
      rw [hx] at hwa
      simp only [Bool.and_eq_true] at hwa
      exact ⟨h, rfl, hwa.1, hwa.2⟩
  · rintro ⟨a, ha, h, hx, h1, h2⟩
    refine ⟨a, ha, ?_⟩
    unfold wants
    rw [hx]; simp [h1, h2]

/-! ### Counting the backend calls of one pass -/

theorem s32_two_pow : ∀ u : Nat, u < 31 → s32 (2 ^ u) = 2 ^ u := by decide

theorem two_pow_inj (u t : Nat) (h : (2 : Int) ^ u = 2 ^ t) : u = t := by
  have h2 : ((2 ^ u : Nat) : Int) = ((2 ^ t : Nat) : Int) := by push_cast; exact h
  exact Nat.pow_right_injective (le_refl 2) (Int.ofNat_inj.1 h2)

theorem mem_fired (mk : Int → Int → Call) (z n idx : Int) (ts : List Nat) (refs : List Int)
    (c : Call) (hc : c ∈ fired mk z n idx ts refs) : ∃ x, c = mk x idx := by
  unfold fired at hc
  obtain ⟨u, _, rfl⟩ := List.mem_map.1 hc
  exact ⟨_, rfl⟩

theorem count_fired (mk : Int → Int → Call)
    (hmk : ∀ x y x1 y1, mk x y = mk x1 y1 → x = x1 ∧ y = y1)
    (z n idx : Int) (refs : List Int) (t : Nat) (i : Int) :
    ∀ ts : List Nat, ts.Nodup → (∀ u ∈ ts, u < 31) →
      (fired mk z n idx ts refs).count (mk (2 ^ t) i) =
        if i = idx ∧ t ∈ ts ∧ refs[slot n idx t]? = some z then 1 else 0 := by
  intro ts
  induction ts with
  | nil => intro _ _; simp [fired]
  | cons u ts ih =>
    intro hn hb
    rw [List.nodup_cons] at hn
    rw [fired_cons, List.count_append, ih hn.2 (fun v hv => hb v (List.mem_cons_of_mem _ hv))]
    have hu := hb u (List.mem_cons_self _ _)
    have hhead : (fired mk z n idx [u] refs).count (mk (2 ^ t) i) =
        if i = idx ∧ t = u ∧ refs[slot n idx t]? = some z then 1 else 0 := by
      unfold fired
      by_cases hp : refs[slot n idx u]? = some z
      · simp only [List.filter_cons, hp, decide_True, if_true, List.filter_nil, List.map_cons,
          List.map_nil, s32_two_pow u hu]
        by_cases heq : i = idx ∧ t = u
        · obtain ⟨rfl, rfl⟩ := heq
          simp [hp]
        · rw [List.count_cons_of_ne, List.count_nil]
          · rw [if_neg (fun h => heq ⟨h.1, h.2.1⟩)]
          · intro h
            obtain ⟨h1, h2⟩ := hmk _ _ _ _ h
            exact heq ⟨h2, two_pow_inj _ _ h1⟩
      · simp only [List.filter_cons, hp, decide_False, List.filter_nil, List.map_nil,
          List.count_nil, Bool.false_eq_true, if_false]
        rw [if_neg]
        rintro ⟨_, rfl, h3⟩
        exact hp h3
    rw [hhead]
    by_cases htu : t = u
    · subst htu
      have : t ∉ ts := hn.1
      simp [this]
    · have : ¬ (t = u) := htu
      simp [htu]

theorem count_fired_other (mk mk1 : Int → Int → Call) (hne : ∀ x y x1 y1, mk x y ≠ mk1 x1 y1)
    (z n idx : Int) (ts : List Nat) (refs : List Int) (x y : Int) :
    (fired mk z n idx ts refs).count (mk1 x y) = 0 := by
  rw [List.count_eq_zero]
  intro hm
  obtain ⟨x1, hx⟩ := mem_fired mk z n idx ts refs _ hm
  exact hne _ _ _ _ hx.symm

/-- The counters after a pass, read at the slot of any in-range pair. -/
theorem refs_adj_at (e : nouveau_event) (hw : wf e) (a : Nat) (h : nouveau_eventh)
    (ha : e.eventh a = some h) (d : Int) (i t : Nat) (hi : (i : Int) < e.index_nr)
    (ht : (t : Int) < e.types_nr) :
    (refs_adj d e.types_nr h.index (bits h.types) e.refs)[slot e.types_nr i t]? =
      (e.refs[slot e.types_nr i t]?).map
        (fun r => if (i : Int) = h.index ∧ h.types.testBit t = true then r + d else r) := by
  rw [refs_adj_getElem? _ _ _ _ _ _ (wf_slots_nodup e hw a h ha)]
  have := mem_slots_iff e hw a h ha i t (by omega) (by omega)
  cases e.refs[slot e.types_nr i t]? with
  | none => rfl
  | some r =>
    simp only [Option.map_some', Option.some.injEq]
    by_cases hc : (i : Int) = h.index ∧ h.types.testBit t = true
    · rw [if_pos hc, if_pos (this.2 hc)]
    · rw [if_neg hc, if_neg (fun hm => hc (this.1 hm))]

theorem bits_lt_31 (e : nouveau_event) (hw : wf e) (a : Nat) (h : nouveau_eventh)
    (ha : e.eventh a = some h) : ∀ u ∈ bits h.types, u < 31 := by
  intro u hu
  have := wf_bit_lt e hw a h ha u hu
  have := hw.2.1
  omega

/-- An armed listener is counted. -/
theorem armed_count_ge_one (e : nouveau_event) (hw : wf e) (a : Nat) (h : nouveau_eventh)
    (ha : e.eventh a = some h) (hd : armed h = true) (t : Nat) (hb : h.types.testBit t = true) :
    1 ≤ armed_count e h.index.toNat t := by
  have hmem := (wf_live e hw a h ha).2.2.2
  unfold armed_count
  have : 0 < (e.list.getD h.index.toNat []).countP (wants e t) := by
    rw [List.countP_pos_iff]
    refine ⟨a, hmem, ?_⟩
    unfold wants
    rw [ha]; simp [hd, hb]
  omega

theorem balance_congr (e e1 : nouveau_event) (i t : Nat)
    (h1 : e1.calls.count (Call.enable (2 ^ t) i) = e.calls.count (Call.enable (2 ^ t) i))
    (h2 : e1.calls.count (Call.disable (2 ^ t) i) = e.calls.count (Call.disable (2 ^ t) i)) :
    balance e1 i t = balance e i t := by
  unfold balance; rw [h1, h2]

/-- The balance only reads counters, dimensions and the enable/disable entries
of the log. -/
theorem Bal_of_same (e e1 : nouveau_event) (hb : Bal e) (hn : e1.types_nr = e.types_nr)
    (hN : e1.index_nr = e.index_nr) (hr : e1.refs = e.refs)
    (hc : ∃ new, e1.calls = e.calls ++ new ∧
      ∀ c ∈ new, (∀ x y, c ≠ Call.enable x y) ∧ (∀ x y, c ≠ Call.disable x y)) : Bal e1 := by
  obtain ⟨new, hnew, hno⟩ := hc
  intro i t hi ht r hr1
  rw [hN] at hi
  rw [hn] at ht hr1
  rw [hr] at hr1
  rw [← hb i t hi ht r hr1]
  apply balance_congr
  · rw [hnew, List.count_append]
    have : new.count (Call.enable (2 ^ t) i) = 0 :=
      List.count_eq_zero.2 (fun hm => (hno _ hm).1 _ _ rfl)
    omega
  · rw [hnew, List.count_append]
    have : new.count (Call.disable (2 ^ t) i) = 0 :=
      List.count_eq_zero.2 (fun hm => (hno _ hm).2 _ _ rfl)
    omega

theorem Bal_log (e : nouveau_event) (c : Call) (hb : Bal e)
    (hc : (∀ x y, c ≠ Call.enable x y) ∧ (∀ x y, c ≠ Call.disable x y)) : Bal (e.log c) :=
  Bal_of_same e _ hb rfl rfl rfl ⟨[c], rfl, fun c1 h1 => by
    rw [List.mem_singleton] at h1; subst h1; exact hc⟩

theorem put_bal (e e1 : nouveau_event) (a : Nat) (hI : Inv e) (hdis : e.disable = true)
    (hb : Bal e) (hp : nouveau_event_put e a = .ok e1) : Bal e1 := by
  obtain ⟨h, ha, hc⟩ := put_cases e e1 hI.1 a hp
  rcases hc with ⟨_, rfl⟩ | ⟨hd, rfl⟩
  · exact hb
  · intro i t hi ht r hr1
    simp only at hi ht hr1
    rw [refs_adj_at e hI.1 a h ha (-1) i t hi ht] at hr1
    have hcur := hI.2 i (List.mem_range.2 (by omega)) t (List.mem_range.2 (by omega))
    rw [hcur] at hr1
    simp only [Option.map_some', Option.some.injEq] at hr1
    have hbal := hb i t hi ht _ hcur
    have ht31 : t < 31 := by have := hI.1.2.1; omega
    unfold balance at hbal ⊢
    simp only [hdis, if_true, List.count_append]
    rw [count_fired_other Call.disable Call.enable (by intro _ _ _ _ h; cases h),
      count_fired Call.disable (by intro _ _ _ _ h; cases h; exact ⟨rfl, rfl⟩) 1 _ _ _ t i
        _ (bits_nodup _) (bits_lt_31 e hI.1 a h ha)]
    by_cases hit : (i : Int) = h.index ∧ h.types.testBit t = true
    · rw [if_pos hit] at hr1
      have hge := armed_count_ge_one e hI.1 a h ha hd t hit.2
      have hi2 : h.index.toNat = i := by omega
      rw [hi2] at hge
      have hmb : t ∈ bits h.types := (mem_bits _ _).2 ⟨by omega, hit.2⟩
      have hcur2 := hcur
      rw [hit.1] at hcur2
      by_cases hone : armed_count e i t = 1
      · rw [hone] at hcur2 hbal hr1
        rw [if_pos ⟨hit.1, hmb, hcur2⟩]
        subst hr1
        simp at hbal ⊢
        omega
      · rw [if_neg (by
          rintro ⟨_, _, h3⟩
          rw [hcur2] at h3
          simp only [Option.some.injEq] at h3
          exact hone (by exact_mod_cast h3))]
        have hpos : (0 : Int) < armed_count e i t := by omega
        rw [if_pos hpos] at hbal
        have : (0 : Int) < r := by omega
        rw [if_pos this]
        omega
    · rw [if_neg hit] at hr1
      rw [if_neg (fun hx => hit ⟨hx.1, ((mem_bits _ _).1 hx.2.1).2⟩)]
      subst hr1
      simpa using hbal

theorem get_bal (e e1 : nouveau_event) (a : Nat) (hI : Inv e) (hen : e.enable = true)
    (hb : Bal e) (hp : nouveau_event_get e a = .ok e1) : Bal e1 := by
  obtain ⟨h, ha, hc⟩ := get_cases e e1 hI.1 a hp
  rcases hc with ⟨_, rfl⟩ | ⟨hd, rfl⟩
  · exact hb
  · intro i t hi ht r hr1
    simp only at hi ht hr1
    rw [refs_adj_at e hI.1 a h ha 1 i t hi ht] at hr1
    have hcur := hI.2 i (List.mem_range.2 (by omega)) t (List.mem_range.2 (by omega))
    rw [hcur] at hr1
    simp only [Option.map_some', Option.some.injEq] at hr1
    have hbal := hb i t hi ht _ hcur
    have ht31 : t < 31 := by have := hI.1.2.1; omega
    unfold balance at hbal ⊢
    simp only [hen, if_true, List.count_append]
    rw [count_fired_other Call.enable Call.disable (by intro _ _ _ _ h; cases h),
      count_fired Call.enable (by intro _ _ _ _ h; cases h; exact ⟨rfl, rfl⟩) 0 _ _ _ t i
        _ (bits_nodup _) (bits_lt_31 e hI.1 a h ha)]
    by_cases hit : (i : Int) = h.index ∧ h.types.testBit t = true
    · rw [if_pos hit] at hr1
      have hmb : t ∈ bits h.types := (mem_bits _ _).2 ⟨by omega, hit.2⟩
      have hcur2 := hcur
      rw [hit.1] at hcur2
      by_cases hzero : armed_count e i t = 0
      · rw [hzero] at hcur2 hbal hr1
        rw [if_pos ⟨hit.1, hmb, hcur2⟩]
        subst hr1
        simp at hbal ⊢
        omega
      · rw [if_neg (by
          rintro ⟨_, _, h3⟩
          rw [hcur2] at h3
          simp only [Option.some.injEq] at h3
          exact hzero (by exact_mod_cast h3))]
        have hpos : (0 : Int) < armed_count e i t := by omega
        rw [if_pos hpos] at hbal
        have : (0 : Int) < r := by omega
        rw [if_pos this]
        omega
    · rw [if_neg hit] at hr1
      rw [if_neg (fun hx => hit ⟨hx.1, ((mem_bits _ _).1 hx.2.1).2⟩)]
      subst hr1
      simpa using hbal

/-- One step keeps the balance of a registry with both backend hooks. -/
theorem step_bal (e e1 : nouveau_event) (op : Op)
    (hP : Inv e ∧ e.enable = true ∧ e.disable = true ∧ Bal e) (h : step e op = .ok e1) :
    Inv e1 ∧ e1.enable = true ∧ e1.disable = true ∧ Bal e1 := by
  obtain ⟨hI, hen, hdis, hb⟩ := hP
  have hI1 := step_inv e e1 op hI h
  obtain ⟨hs, _⟩ := step_setup e e1 op hI h
  obtain ⟨_, _, _, s4, s5⟩ := setup_fields _ _ hs
  refine ⟨hI1, by rw [s4]; exact hen, by rw [s5]; exact hdis, ?_⟩
  rcases step_cases e e1 op h with ⟨check, km, types, index, func, priv, ret, ph, _, hn⟩ |
    ⟨a, _, hg⟩ | ⟨a, _, hp⟩ | ⟨a, r, _, hr⟩ | ⟨cb, types, index, _, ht⟩
  · obtain ⟨h1, h2, h3, _, _, _, h7, _⟩ :=
      new_effect check km e e1 types index func priv ret ph hI.1 hn
    refine Bal_of_same e e1 hb h1 h2 h3 ⟨_, h7, ?_⟩
    intro c hc
    split at hc
    · rw [List.mem_singleton] at hc
      subst hc
      exact ⟨fun _ _ hx => (by cases hx), fun _ _ hx => (by cases hx)⟩
    · cases hc
  · exact get_bal e e1 a hI hen hb hg
  · exact put_bal e e1 a hI hdis hb hp
  · obtain ⟨_, h0, e2, _, hp, rfl⟩ := ref_effect e e1 hI.1 a r hr
    exact Bal_of_same e2 _ (put_bal e e2 a hI hdis hb hp) rfl rfl rfl
      ⟨[], by simp, fun c hc => by cases hc⟩
  · have := trigger_keeps_live
      (fun x => Inv x ∧ x.disable = true ∧ Bal x)
      (fun x a x1 hx hp => by
        have hs := (put_setup x x1 hx.1.1 a hp).1
        exact ⟨put_inv x x1 a hx.1 hp, by rw [(setup_fields _ _ hs).2.2.2.2]; exact hx.2.1,
          put_bal x x1 a hx.1 hx.2.1 hx.2.2 hp⟩)
      (fun x a h m i hx _ _ => ⟨Inv_log x _ hx.1, hx.2.1,
        Bal_log x _ hx.2.2 ⟨fun _ _ hc => (by cases hc), fun _ _ hc => (by cases hc)⟩⟩)
      (fun x hx => ⟨Inv_log x _ hx.1, hx.2.1,
        Bal_log x _ hx.2.2 ⟨fun _ _ hc => (by cases hc), fun _ _ hc => (by cases hc)⟩⟩)
      cb types index e e1 ⟨hI, hdis, hb⟩ ht
    exact this.2.2

theorem create_bal (kz km : Bool) (types_nr index_nr : Int) (e0 : nouveau_event)
    (check enable disable : Bool)
    (h : nouveau_event_create kz km types_nr index_nr = .ok (0, some e0)) :
    Bal (configure e0 check enable disable) := by
  obtain ⟨_, _, _, _, rfl⟩ := create_shape kz km types_nr index_nr e0 h
  intro i t _ _ r hr
  simp only [configure] at hr
  have hr0 : r = 0 := by
    have hm := List.getElem?_mem hr
    exact List.eq_of_mem_replicate hm
  subst hr0
  simp [balance, configure]

/-- Every state reached from a fresh registry with both hooks is balanced. -/
theorem reachable_bal (kz km : Bool) (types_nr index_nr : Int) (check : Bool)
    (e0 e : nouveau_event) (ops : List Op) (h0 : 0 ≤ types_nr) (h31 : types_nr ≤ 31)
    (hc : nouveau_event_create kz km types_nr index_nr = .ok (0, some e0))
    (hrun : run (configure e0 check true true) ops = .ok e) : Bal e := by
  have := run_keeps (fun x => Inv x ∧ x.enable = true ∧ x.disable = true ∧ Bal x) (fun _ => True)
    (fun x op x1 _ hx hs => step_bal x x1 op hx hs) ops _ e (fun _ _ => trivial)
    ⟨create_inv kz km types_nr index_nr e0 check true true h0 h31 hc, rfl, rfl,
      create_bal kz km types_nr index_nr e0 check true true hc⟩ hrun
  exact this.2.2.2

theorem slot_plain (e : nouveau_event) (hw : wf e) (i t : Nat)
    (hi : (i : Int) < e.index_nr) (ht : (t : Int) < e.types_nr) :
    slot e.types_nr i t = i * e.types_nr.toNat + t := by
  have hn := hw.1
  rw [slot_eq e.types_nr i t hn (by omega)
    (by have := slot_bound e.types_nr e.index_nr i t hi ht hn; have := hw.2.2.2.1; omega)]
  congr 1
  have : (i : Int) * e.types_nr = ((i * e.types_nr.toNat : Nat) : Int) := by
    push_cast; rw [Int.toNat_of_nonneg hn]
  rw [this, Int.toNat_ofNat]

/-! ### The effect of dispatch -/

theorem filterMap_eq_of_forall {α β : Type} (f g : α → Option β) (l : List α)
    (h : ∀ x ∈ l, f x = g x) : l.filterMap f = l.filterMap g := by
  induction l with
  | nil => rfl
  | cons x xs ih =>
    rw [List.filterMap_cons, List.filterMap_cons, h x (List.mem_cons_self _ _),
      ih (fun y hy => h y (List.mem_cons_of_mem _ hy))]

theorem fired_no_func (mk : Int → Int → Call) (hmk : ∀ x y, (mk x y).is_func = false)
    (z n idx : Int) (ts : List Nat) (refs : List Int) :
    (fired mk z n idx ts refs).filter Call.is_func = [] := by
  rw [List.filter_eq_nil_iff]
  intro c hc
  obtain ⟨x, rfl⟩ := mem_fired mk z n idx ts refs c hc
  simp [hmk]

theorem dispatch_call_congr (e e1 : nouveau_event) (types : Nat) (index : Int) (a : Nat)
    (h : e1.eventh a = e.eventh a) : dispatch_call e1 types index a = dispatch_call e types index a := by
  unfold dispatch_call; rw [h]

theorem dropped_congr (cb : Nat → Nat → Nat → Nat → Int → Int) (e e1 : nouveau_event) (types : Nat)
    (index : Int) (a : Nat) (h : e1.eventh a = e.eventh a) :
    dropped cb e1 types index a = dropped cb e types index a := by
  unfold dropped; rw [h]

/-- One visit of the walk on a well-shaped registry: it returns, touches no
listener but the visited one, disarms that one exactly when it is dropped, and
logs its callback exactly when it is selected. -/
theorem visit_effect (cb : Nat → Nat → Nat → Nat → Int → Int) (types : Nat) (index : Int)
    (a : Nat) (e : nouveau_event) (hw : wf e) (h : nouveau_eventh) (ha : e.eventh a = some h) :
    ∃ e2, trigger_visit cb types index a e = .ok e2 ∧ wf e2 ∧ setup e2 = setup e ∧
      e2.list = e.list ∧ (∀ b, b ≠ a → e2.eventh b = e.eventh b) ∧
      e2.eventh a = some (if dropped cb e types index a = true then
        { h with flags := __clear_bit NVKM_EVENT_ENABLE h.flags } else h) ∧
      (∃ new, e2.calls = e.calls ++ new ∧
        new.filter Call.is_func = (dispatch_call e types index a).toList) ∧
      (Inv e → Inv e2) := by
  have hdc : dispatch_call e types index a =
      if armed h = true ∧ h.types &&& types ≠ 0 then
        some (Call.func a h.func h.priv (h.types &&& types) index) else none := by
    unfold dispatch_call; rw [ha]
  have hdr : dropped cb e types index a = (armed h && (h.types &&& types != 0) &&
      (cb a h.func h.priv (h.types &&& types) index == NVKM_EVENT_DROP)) := by
    unfold dropped; rw [ha]
  by_cases hsel : armed h = true ∧ h.types &&& types ≠ 0
  · obtain ⟨hd, hm⟩ := hsel
    by_cases hc : cb a h.func h.priv (h.types &&& types) index = NVKM_EVENT_DROP
    · -- dropped
      have hwl : wf (e.log (Call.func a h.func h.priv (h.types &&& types) index)) :=
        wf_congr e _ rfl rfl rfl rfl rfl hw
      have hp : nouveau_event_put (e.log (Call.func a h.func h.priv (h.types &&& types) index)) a =
          .ok { e with
            handlers := e.handlers.set a
              (some { h with flags := __clear_bit NVKM_EVENT_ENABLE h.flags }),
            refs := refs_adj (-1) e.types_nr h.index (bits h.types) e.refs,
            calls := (e.calls ++ [Call.func a h.func h.priv (h.types &&& types) index]) ++
              (if e.disable then
                fired Call.disable 1 e.types_nr h.index (bits h.types) e.refs else []) } :=
        put_eq _ hwl a h ha hd
      refine ⟨{ e with
            handlers := e.handlers.set a
              (some { h with flags := __clear_bit NVKM_EVENT_ENABLE h.flags }),
            refs := refs_adj (-1) e.types_nr h.index (bits h.types) e.refs,
            calls := (e.calls ++ [Call.func a h.func h.priv (h.types &&& types) index]) ++
              (if e.disable then
                fired Call.disable 1 e.types_nr h.index (bits h.types) e.refs else []) },
        ?_, ?_, rfl, rfl, ?_, ?_, ?_, ?_⟩
      · unfold trigger_visit
        rw [ha]
        simp only [hd, Bool.not_true, Bool.false_eq_true, if_false, hm, hc, ne_eq,
          not_true_eq_false]
        exact hp
      · exact wf_of_flags e _ hw a h _ ha rfl rfl rfl rfl rfl rfl (refs_adj_length _ _ _ _ _)
      · intro b hb
        rw [eventh_of_set e _ a h _ ha rfl b, if_neg hb]
      · rw [eventh_of_set e _ a h _ ha rfl a, if_pos rfl, hdr]
        simp [hd, hm, hc]
      · refine ⟨[Call.func a h.func h.priv (h.types &&& types) index] ++
          (if e.disable then fired Call.disable 1 e.types_nr h.index (bits h.types) e.refs
            else []), ?_, ?_⟩
        · simp [nouveau_event.log]
        · rw [hdc, if_pos (And.intro hd hm), List.filter_append]
          have : (if e.disable then fired Call.disable 1 e.types_nr h.index (bits h.types) e.refs
              else []).filter Call.is_func = [] := by
            split
            · exact fired_no_func Call.disable (fun _ _ => rfl) _ _ _ _ _
            · rfl
          rw [this]
          simp [Call.is_func]
      · intro hI
        exact put_inv _ _ a (Inv_log e _ hI) hp
    · -- kept
      refine ⟨e.log (Call.func a h.func h.priv (h.types &&& types) index), ?_,
        wf_congr e _ rfl rfl rfl rfl rfl hw, rfl, rfl, fun b _ => rfl, ?_, ?_,
        fun hI => Inv_log e _ hI⟩
      · unfold trigger_visit
        rw [ha]
        simp only [hd, Bool.not_true, Bool.false_eq_true, if_false, hm, ne_eq, hc,
          not_false_eq_true, if_true]
      · rw [hdr]
        have : (cb a h.func h.priv (h.types &&& types) index == NVKM_EVENT_DROP) = false := by
          simpa using hc
        rw [this]
        simp [nouveau_event.log, nouveau_event.eventh] at ha ⊢
        exact ha
      · refine ⟨[Call.func a h.func h.priv (h.types &&& types) index], rfl, ?_⟩
        rw [hdc, if_pos (And.intro hd hm)]
        simp [Call.is_func]
  · -- skipped
    refine ⟨e, ?_, hw, rfl, rfl, fun b _ => rfl, ?_, ⟨[], by simp, ?_⟩, fun hI => hI⟩
    · unfold trigger_visit
      rw [ha]
      simp only
      by_cases hd : armed h = true
      · have hm : h.types &&& types = 0 := by
          by_contra hne
          exact hsel ⟨hd, hne⟩
        simp [hd, hm]
      · simp [hd]
    · rw [hdr]
      have : (armed h && (h.types &&& types != 0)) = false := by
        cases hd : armed h
        · rfl
        · have hm : h.types &&& types = 0 := by
            by_contra hne
            exact hsel ⟨hd, hne⟩
          simp [hm]
      rw [this]
      simpa using ha
    · rw [hdc, if_neg hsel]; rfl

/-- The walk over distinct live nodes of a well-shaped registry. -/
theorem loop_effect (cb : Nat → Nat → Nat → Nat → Int → Int) (types : Nat) (index : Int) :
    ∀ (l : List Nat) (e : nouveau_event), wf e → l.Nodup →
      (∀ a ∈ l, ∃ h, e.eventh a = some h) →
      ∃ e1, trigger_loop cb types index l e = .ok e1 ∧ wf e1 ∧ setup e1 = setup e ∧
        e1.list = e.list ∧ (∀ b, b ∉ l → e1.eventh b = e.eventh b) ∧
        (∀ b ∈ l, ∀ h, e.eventh b = some h → e1.eventh b = some
          (if dropped cb e types index b = true then
            { h with flags := __clear_bit NVKM_EVENT_ENABLE h.flags } else h)) ∧
        (∃ new, e1.calls = e.calls ++ new ∧
          new.filter Call.is_func = l.filterMap (dispatch_call e types index)) ∧
        (Inv e → Inv e1) := by
  intro l
  induction l with
  | nil =>
    intro e hw _ _
    exact ⟨e, by rw [trigger_loop], hw, rfl, rfl, fun _ _ => rfl, fun b hb => (by cases hb),
      ⟨[], by simp, rfl⟩, fun hI => hI⟩
  | cons a rest ih =>
    intro e hw hn hl
    rw [List.nodup_cons] at hn
    obtain ⟨h, ha⟩ := hl a (List.mem_cons_self _ _)
    obtain ⟨e2, hv, hw2, hs2, hl2, hoff2, hat2, ⟨new2, hc2, hf2⟩, hI2⟩ :=
      visit_effect cb types index a e hw h ha
    have hrest : ∀ b ∈ rest, e2.eventh b = e.eventh b := by
      intro b hb
      exact hoff2 b (fun hba => hn.1 (hba ▸ hb))
    obtain ⟨e1, hloop, hw1, hs1, hl1, hoff1, hin1, ⟨new1, hc1, hf1⟩, hI1⟩ :=
      ih e2 hw2 hn.2 (fun b hb => by
        obtain ⟨hb0, hbe⟩ := hl b (List.mem_cons_of_mem _ hb)
        exact ⟨hb0, by rw [hrest b hb]; exact hbe⟩)
    refine ⟨e1, ?_, hw1, hs1.trans hs2, hl1.trans hl2, ?_, ?_, ⟨new2 ++ new1, ?_, ?_⟩,
      fun hI => hI1 (hI2 hI)⟩
    · rw [trigger_loop_cons, hv]
      exact hloop
    · intro b hb
      rw [List.mem_cons, not_or] at hb
      rw [hoff1 b hb.2, hoff2 b hb.1]
    · intro b hb hb0 hbe
      rcases List.mem_cons.1 hb with rfl | hbr
      · rw [hoff1 b hn.1, hat2]
        rw [ha] at hbe
        cases hbe
        rfl
      · rw [hin1 b hbr hb0 (by rw [hrest b hbr]; exact hbe),
          dropped_congr cb e e2 types index b (hrest b hbr)]
    · rw [hc1, hc2, List.append_assoc]
    · rw [List.filter_append, hf2, hf1, List.filterMap_cons,
        filterMap_eq_of_forall _ (dispatch_call e types index) rest
          (fun b hb => dispatch_call_congr e e2 types index b (hrest b hb))]
      cases dispatch_call e types index a <;> rfl

/-- Dispatch on an in-range index of a well-shaped registry. -/
theorem trigger_effect (cb : Nat → Nat → Nat → Nat → Int → Int) (types : Nat) (index : Int)
    (e : nouveau_event) (hw : wf e) (h0 : 0 ≤ index) (h1 : index < e.index_nr) :
    ∃ e1, nouveau_event_trigger cb e types index = .ok e1 ∧ wf e1 ∧ setup e1 = setup e ∧
      e1.list = e.list ∧ (∀ b, b ∉ e.list.getD index.toNat [] → e1.eventh b = e.eventh b) ∧
      (∀ b ∈ e.list.getD index.toNat [], ∀ h, e.eventh b = some h → e1.eventh b = some
        (if dropped cb e types index b = true then
          { h with flags := __clear_bit NVKM_EVENT_ENABLE h.flags } else h)) ∧
      (∃ new, e1.calls = e.calls ++ new ∧
        new.filter Call.is_func =
          (e.list.getD index.toNat []).filterMap (dispatch_call e types index)) ∧
      (Inv e → Inv e1) := by
  have hlt : index.toNat < e.list.length := by have := hw.2.2.2.2.1; omega
  have hget : e.list[index.toNat]? = some (e.list.getD index.toNat []) := by
    rw [List.getD_eq_getElem?_getD, List.getElem?_eq_getElem hlt]; rfl
  have := loop_effect cb types index (e.list.getD index.toNat []) e hw
    (getD_nodup e.list hw.2.2.2.2.2.2.2.1 _)
    (fun a ha => by
      obtain ⟨h, hh, _⟩ := wf_member e hw _ a ha
      exact ⟨h, hh⟩)
  obtain ⟨e1, hloop, rest⟩ := this
  refine ⟨e1, ?_, rest⟩
  unfold nouveau_event_trigger
  rw [if_neg (by omega), if_neg (by omega), hget]
  exact hloop

/-! ### Facts used by the claims on dispatch, arming and disarming -/

theorem dispatch_call_some (e : nouveau_event) (types : Nat) (index : Int) (x : Nat) (c : Call)
    (h : dispatch_call e types index x = some c) :
    ∃ hx, e.eventh x = some hx ∧ armed hx = true ∧ hx.types &&& types ≠ 0 ∧
      c = Call.func x hx.func hx.priv (hx.types &&& types) index := by
  unfold dispatch_call at h
  cases hx : e.eventh x with
  | none => rw [hx] at h; cases h
  | some h0 =>
    rw [hx] at h
    simp only at h
    split at h
    · rename_i hs
      cases h
      exact ⟨h0, rfl, hs.1, hs.2, rfl⟩
    · cases h

theorem count_filterMap_dispatch (e : nouveau_event) (types : Nat) (index : Int) (a : Nat)
    (c : Call) (hc : dispatch_call e types index a = some c) :
    ∀ l : List Nat, l.Nodup →
      (l.filterMap (dispatch_call e types index)).count c = if a ∈ l then 1 else 0 := by
  obtain ⟨ha0, _, _, _, hca⟩ := dispatch_call_some e types index a c hc
  intro l
  induction l with
  | nil => intro _; simp
  | cons x xs ih =>
    intro hn
    rw [List.nodup_cons] at hn
    rw [List.filterMap_cons]
    by_cases hxa : x = a
    · subst hxa
      rw [hc]
      simp only [List.count_cons_self, List.mem_cons, true_or, if_true]
      rw [ih hn.2, if_neg hn.1]
    · have hax : a ≠ x := fun h => hxa h.symm
      have hmem : (a ∈ x :: xs) ↔ a ∈ xs := by
        rw [List.mem_cons]
        exact ⟨fun h => h.resolve_left hax, Or.inr⟩
      cases hdx : dispatch_call e types index x with
      | none =>
        simp only
        rw [ih hn.2]
        simp only [hmem]
      | some c1 =>
        simp only
        obtain ⟨_, _, _, _, hc1⟩ := dispatch_call_some e types index x c1 hdx
        have hne : c1 ≠ c := by
          rw [hc1, hca]
          intro h
          simp only [Call.func.injEq] at h
          exact hxa h.1
        rw [List.count_cons_of_ne hne.symm, ih hn.2]
        simp only [hmem]

theorem get_loop_handlers (index : Int) (fuel : Nat) : ∀ (m : Nat) (e e1 : nouveau_event),
    get_loop index fuel m e = .ok e1 → e1.handlers = e.handlers := by
  induction fuel with
  | zero => intro m e e1 h; rw [get_loop] at h; cases h
  | succ n ih =>
    intro m e e1 h
    rw [get_loop] at h
    split at h
    · cases h; rfl
    · split at h
      · cases h
      · rename_i e2 hb
        rw [ih _ e2 e1 h]
        unfold get_body at hb
        split at hb
        · cases hb
        · split at hb
          · split at hb <;> (cases hb; rfl)
          · cases hb; rfl

theorem put_loop_handlers (index : Int) (fuel : Nat) : ∀ (m : Nat) (e e1 : nouveau_event),
    put_loop index fuel m e = .ok e1 → e1.handlers = e.handlers := by
  induction fuel with
  | zero => intro m e e1 h; rw [put_loop] at h; cases h
  | succ n ih =>
    intro m e e1 h
    rw [put_loop] at h
    split at h
    · cases h; rfl
    · split at h
      · cases h
      · rename_i e2 hb
        rw [ih _ e2 e1 h]
        unfold put_body at hb
        split at hb
        · cases hb
        · split at hb
          · split at hb <;> (cases hb; rfl)
          · cases hb; rfl

theorem eventh_store_self (e : nouveau_event) (a : Nat) (h h1 : nouveau_eventh)
    (ha : e.eventh a = some h) : (e.store a h1).eventh a = some h1 := by
  rw [eventh_of_set e (e.store a h1) a h h1 ha rfl a, if_pos rfl]

theorem eventh_of_handlers (e e1 : nouveau_event) (hh : e1.handlers = e.handlers) (a : Nat) :
    e1.eventh a = e.eventh a := by
  unfold nouveau_event.eventh; rw [hh]

/-- After an arm that returns the listener is armed, whatever the registry. -/
theorem get_then_armed (e e1 : nouveau_event) (a : Nat) (hg : nouveau_event_get e a = .ok e1) :
    ∃ h1, e1.eventh a = some h1 ∧ armed h1 = true := by
  unfold nouveau_event_get at hg
  cases ha : e.eventh a with
  | none => rw [ha] at hg; cases hg
  | some h =>
    rw [ha] at hg
    simp only at hg
    by_cases hd : test_bit NVKM_EVENT_ENABLE h.flags = true
    · rw [if_pos hd] at hg
      cases hg
      exact ⟨h, ha, hd⟩
    · rw [if_neg hd] at hg
      refine ⟨{ h with flags := __set_bit NVKM_EVENT_ENABLE h.flags }, ?_, armed_set h⟩
      rw [eventh_of_handlers _ _ (get_loop_handlers _ _ _ _ _ hg) a]
      exact eventh_store_self e a h _ ha

theorem put_then_disarmed (e e1 : nouveau_event) (a : Nat) (hg : nouveau_event_put e a = .ok e1) :
    ∃ h1, e1.eventh a = some h1 ∧ armed h1 = false := by
  unfold nouveau_event_put at hg
  cases ha : e.eventh a with
  | none => rw [ha] at hg; cases hg
  | some h =>
    rw [ha] at hg
    simp only at hg
    by_cases hd : test_bit NVKM_EVENT_ENABLE h.flags = true
    · simp only [hd, Bool.not_true, Bool.false_eq_true, if_false] at hg
      refine ⟨{ h with flags := __clear_bit NVKM_EVENT_ENABLE h.flags }, ?_, armed_clear h⟩
      rw [eventh_of_handlers _ _ (put_loop_handlers _ _ _ _ _ hg) a]
      exact eventh_store_self e a h _ ha
    · have hf : test_bit NVKM_EVENT_ENABLE h.flags = false := by simpa using hd
      simp only [hf, Bool.not_false, if_true] at hg
      cases hg
      exact ⟨h, ha, hf⟩

/-- The backend calls of a pass, with plain masks and plain counter indices. -/
theorem fired_plain (mk : Int → Int → Call) (z : Int) (e : nouveau_event) (hw : wf e) (a : Nat)
    (h : nouveau_eventh) (ha : e.eventh a = some h) :
    fired mk z e.types_nr h.index (bits h.types) e.refs =
      ((bits h.types).filter
        (fun t => e.refs[h.index.toNat * e.types_nr.toNat + t]? = some z)).map
        (fun t => mk (2 ^ t) h.index) := by
  obtain ⟨h0, h1, _, _⟩ := wf_live e hw a h ha
  have hs : ∀ t ∈ bits h.types,
      slot e.types_nr h.index t = h.index.toNat * e.types_nr.toNat + t := by
    intro t ht
    have := slot_plain e hw h.index.toNat t (by omega) (wf_bit_lt e hw a h ha t ht)
    rw [Int.toNat_of_nonneg h0] at this
    exact this
  unfold fired
  have hf : (bits h.types).filter (fun t => e.refs[slot e.types_nr h.index t]? = some z) =
      (bits h.types).filter
        (fun t => e.refs[h.index.toNat * e.types_nr.toNat + t]? = some z) := by
    apply List.filter_congr
    intro t ht
    rw [hs t ht]
  rw [hf]
  apply List.map_congr_left
  intro t ht
  rw [s32_two_pow t (bits_lt_31 e hw a h ha t (List.mem_of_mem_filter ht))]

/-- The counters after a pass, at plain indices. -/
theorem refs_adj_plain (e : nouveau_event) (hw : wf e) (a : Nat) (h : nouveau_eventh)
    (ha : e.eventh a = some h) (d : Int) :
    (∀ t, h.types.testBit t = true → ∃ r,
      e.refs[h.index.toNat * e.types_nr.toNat + t]? = some r ∧
      (refs_adj d e.types_nr h.index (bits h.types) e.refs)[h.index.toNat * e.types_nr.toNat + t]?
        = some (r + d)) ∧
    (∀ k, (∀ t, h.types.testBit t = true → k ≠ h.index.toNat * e.types_nr.toNat + t) →
      (refs_adj d e.types_nr h.index (bits h.types) e.refs)[k]? = e.refs[k]?) := by
  obtain ⟨h0, h1, hty, _⟩ := wf_live e hw a h ha
  have hs : ∀ t ∈ bits h.types,
      slot e.types_nr h.index t = h.index.toNat * e.types_nr.toNat + t := by
    intro t ht
    have := slot_plain e hw h.index.toNat t (by omega) (wf_bit_lt e hw a h ha t ht)
    rw [Int.toNat_of_nonneg h0] at this
    exact this
  have hbit : ∀ t, h.types.testBit t = true → t ∈ bits h.types := by
    intro t ht
    have := testBit_lt_of_lt_pow _ _ _ hty ht
    have := hw.2.1
    exact (mem_bits _ _).2 ⟨by omega, ht⟩
  constructor
  · intro t ht
    have hmem := hbit t ht
    have hlt := wf_slots_lt e hw a h ha t hmem
    rw [← hs t hmem]
    refine ⟨e.refs[slot e.types_nr h.index t], List.getElem?_eq_getElem hlt, ?_⟩
    rw [refs_adj_getElem? _ _ _ _ _ _ (wf_slots_nodup e hw a h ha), List.getElem?_eq_getElem hlt]
    simp only [Option.map_some', Option.some.injEq]
    rw [if_pos (List.mem_map_of_mem _ hmem)]
  · intro k hk
    rw [refs_adj_getElem? _ _ _ _ _ _ (wf_slots_nodup e hw a h ha)]
    have hnot : k ∉ (bits h.types).map (slot e.types_nr h.index) := by
      intro hm
      obtain ⟨t, ht, rfl⟩ := List.mem_map.1 hm
      exact hk t ((mem_bits _ _).1 ht).2 (hs t ht)
    cases e.refs[k]? with
    | none => rfl
    | some r => simp [hnot]

/-! ### Listeners that are out of dispatch -/

theorem no_callback_append (a base : Nat) (x y : nouveau_event) (new : List Call)
    (hb : base ≤ x.calls.length) (hn : no_callback a base x) (hc : y.calls = x.calls ++ new)
    (hnew : ∀ c ∈ new, ∀ fn priv m i, c ≠ Call.func a fn priv m i) :
    base ≤ y.calls.length ∧ no_callback a base y := by
  refine ⟨by rw [hc, List.length_append]; omega, ?_⟩
  unfold no_callback at hn ⊢
  rw [hc, List.drop_append_of_le_length hb]
  intro c hcm
  rcases List.mem_append.1 hcm with h1 | h1
  · exact hn c h1
  · exact hnew c h1

theorem fired_not_func (mk : Int → Int → Call) (hmk : ∀ x y, (mk x y).is_func = false)
    (z n idx : Int) (ts : List Nat) (refs : List Int) (a : Nat) :
    ∀ c ∈ fired mk z n idx ts refs, ∀ fn priv m i, c ≠ Call.func a fn priv m i := by
  intro c hc fn priv m i heq
  obtain ⟨x, rfl⟩ := mem_fired mk z n idx ts refs c hc
  have := hmk x idx
  rw [heq] at this
  cases this

/-- Disarming any listener keeps `a` out of dispatch. -/
theorem quiet_put (a base : Nat) (x y : nouveau_event) (b : Nat) (hQ : Quiet a base x)
    (hp : nouveau_event_put x b = .ok y) :
    Quiet a base y ∧ (x.eventh a = none → y.eventh a = none) := by
  obtain ⟨hI, hlen, harm, hb, hn⟩ := hQ
  obtain ⟨h, hbe, hc⟩ := put_cases x y hI.1 b hp
  rcases hc with ⟨_, rfl⟩ | ⟨hd, hy⟩
  · exact ⟨⟨hI, hlen, harm, hb, hn⟩, fun hx => hx⟩
  · have hev := eventh_of_set x y b h _ hbe (by rw [hy])
    have hI1 := put_inv x _ b hI hp
    obtain ⟨hb1, hn1⟩ := no_callback_append a base x y _ hb hn (by rw [hy]) (by
      split
      · exact fired_not_func Call.disable (fun _ _ => rfl) _ _ _ _ _ a
      · intro c hc; cases hc)
    refine ⟨⟨hI1, by rw [hy]; simpa using hlen, ?_, hb1, hn1⟩, ?_⟩
    · intro h1 hh1
      rw [hev a] at hh1
      by_cases hab : a = b
      · rw [if_pos hab] at hh1
        cases hh1
        exact armed_clear h
      · rw [if_neg hab] at hh1
        exact harm h1 hh1
    · intro hx
      rw [hev a]
      by_cases hab : a = b
      · rw [hab, hbe] at hx; cases hx
      · rw [if_neg hab]; exact hx

theorem quiet_log (a base : Nat) (x : nouveau_event) (c : Call) (hQ : Quiet a base x)
    (hc : ∀ fn priv m i, c ≠ Call.func a fn priv m i) :
    Quiet a base (x.log c) := by
  obtain ⟨hI, hlen, harm, hb, hn⟩ := hQ
  obtain ⟨hb1, hn1⟩ := no_callback_append a base x (x.log c) [c] hb hn rfl (by
    intro c1 h1
    rw [List.mem_singleton] at h1
    subst h1
    exact hc)
  exact ⟨Inv_log x c hI, hlen, harm, hb1, hn1⟩

/-- Any step other than re-arming `a` keeps `a` out of dispatch; a freed cell
stays freed. -/
theorem quiet_step (a base : Nat) (x y : nouveau_event) (op : Op) (hQ : Quiet a base x)
    (hs : step x op = .ok y) (hG : op ≠ Op.get a ∨ x.eventh a = none) :
    Quiet a base y ∧ (x.eventh a = none → y.eventh a = none) := by
  have hQ0 := hQ
  obtain ⟨hI, hlen, harm, hb, hn⟩ := hQ
  rcases step_cases x y op hs with ⟨check, km, types, index, func, priv, ret, ph, _, hnew⟩ |
    ⟨b, hop, hg⟩ | ⟨b, _, hp⟩ | ⟨b, r, _, hr⟩ | ⟨cb, types, index, _, ht⟩
  · -- registration
    have hI1 := new_inv check km x y types index func priv ret ph hI hnew
    obtain ⟨_, _, _, _, _, _, h7, hsh⟩ :=
      new_effect check km x y types index func priv ret ph hI.1 hnew
    obtain ⟨hb1, hn1⟩ := no_callback_append a base x y _ hb hn h7 (by
      intro c hc
      split at hc
      · rw [List.mem_singleton] at hc
        subst hc
        intro _ _ _ _ hx
        cases hx
      · cases hc)
    have hev : y.eventh a = x.eventh a ∧ a < y.handlers.length := by
      rcases hsh with ⟨_, hh, _⟩ | ⟨_, hh, _⟩ | ⟨_, _, _, _, _, hh, _⟩
      · exact ⟨eventh_of_handlers x y hh a, by rw [hh]; exact hlen⟩
      · rw [eventh_append x y none hh a, if_pos hlen]
        exact ⟨rfl, by rw [hh, List.length_append]; omega⟩
      · rw [eventh_append x y _ hh a, if_pos hlen]
        exact ⟨rfl, by rw [hh, List.length_append]; omega⟩
    exact ⟨⟨hI1, hev.2, by rw [hev.1]; exact harm, hb1, hn1⟩, fun hx => by rw [hev.1]; exact hx⟩
  · -- arm
    have hI1 := get_inv x y b hI hg
    obtain ⟨h, hbe, hc⟩ := get_cases x y hI.1 b hg
    have hab : a ≠ b := by
      intro hab
      subst hab
      rcases hG with hG | hG
      · exact hG hop
      · rw [hG] at hbe; cases hbe
    rcases hc with ⟨_, rfl⟩ | ⟨hd, hy⟩
    · exact ⟨hQ0, fun hx => hx⟩
    · have hev := eventh_of_set x y b h _ hbe (by rw [hy])
      obtain ⟨hb1, hn1⟩ := no_callback_append a base x y _ hb hn (by rw [hy]) (by
        split
        · exact fired_not_func Call.enable (fun _ _ => rfl) _ _ _ _ _ a
        · intro c hc; cases hc)
      refine ⟨⟨hI1, by rw [hy]; simpa using hlen, ?_, hb1, hn1⟩, ?_⟩
      · intro h1 hh1
        rw [hev a, if_neg hab] at hh1
        exact harm h1 hh1
      · intro hx
        rw [hev a, if_neg hab]; exact hx
  · exact quiet_put a base x y b hQ0 hp
  · -- teardown
    obtain ⟨_, h0, x1, _, hp, hy⟩ := ref_effect x y hI.1 b r hr
    obtain ⟨⟨hI1, hlen1, harm1, hb1, hn1⟩, hnone1⟩ := quiet_put a base x x1 b hQ0 hp
    have hI2 := ref_inv x _ hI b r hr
    have hev := eventh_of_set_none x1 y b (by rw [hy])
    have hcalls : y.calls = x1.calls := by rw [hy]
    refine ⟨⟨hI2, by rw [hy]; simpa using hlen1, ?_, by rw [hcalls]; exact hb1,
      by unfold no_callback; rw [hcalls]; exact hn1⟩, ?_⟩
    · intro h1 hh1
      rw [hev a] at hh1
      by_cases hab : a = b
      · rw [if_pos hab] at hh1; cases hh1
      · rw [if_neg hab] at hh1; exact harm1 h1 hh1
    · intro hx
      rw [hev a]
      by_cases hab : a = b
      · rw [if_pos hab]
      · rw [if_neg hab]; exact hnone1 hx
  · -- dispatch
    exact trigger_keeps_live
      (fun z => Quiet a base z ∧ (x.eventh a = none → z.eventh a = none))
      (fun z b z1 hz hp =>
        ⟨(quiet_put a base z z1 b hz.1 hp).1,
          fun hx => (quiet_put a base z z1 b hz.1 hp).2 (hz.2 hx)⟩)
      (fun z b h m i hz hbe hd =>
        ⟨quiet_log a base z _ hz.1 (by
          intro fn priv m1 i1 heq
          simp only [Call.func.injEq] at heq
          have := hz.1.2.2.1 h (by rw [← heq.1]; exact hbe)
          rw [hd] at this
          cases this), hz.2⟩)
      (fun z hz => ⟨quiet_log a base z _ hz.1 (by intro _ _ _ _ hx; cases hx), hz.2⟩)
      cb types index x y ⟨hQ0, fun hx => hx⟩ ht

/-- While `a` is not re-armed, no run invokes its callback. -/
theorem quiet_run (a base : Nat) (ops : List Op) (x y : nouveau_event) (hQ : Quiet a base x)
    (hops : ∀ op ∈ ops, op ≠ Op.get a) (hr : run x ops = .ok y) : Quiet a base y :=
  run_keeps (Quiet a base) (fun op => op ≠ Op.get a)
    (fun z op z1 hG hz hs => (quiet_step a base z z1 op hz hs (Or.inl hG)).1)
    ops x y hops hQ hr

/-- Once the cell of `a` is freed, no run invokes its callback. -/
theorem freed_run (a base : Nat) (ops : List Op) (x y : nouveau_event) (hQ : Quiet a base x)
    (hfree : x.eventh a = none) (hr : run x ops = .ok y) : Quiet a base y ∧ y.eventh a = none :=
  run_keeps (fun z => Quiet a base z ∧ z.eventh a = none) (fun _ => True)
    (fun z op z1 _ hz hs =>
      ⟨(quiet_step a base z z1 op hz.1 hs (Or.inr hz.2)).1,
        (quiet_step a base z z1 op hz.1 hs (Or.inr hz.2)).2 hz.2⟩)
    ops x y (fun _ _ => trivial) ⟨hQ, hfree⟩ hr

theorem no_callback_base (a : Nat) (x : nouveau_event) : no_callback a x.calls.length x := by
  unfold no_callback
  rw [List.drop_length]
  intro c hc
  cases hc

/-! ### Unlinking one node -/

/-- On a well-shaped registry `list_del` of a live listener removes it from the
list of its index and touches no other list. -/
theorem list_del_eq (e : nouveau_event) (hw : wf e) (a : Nat) (h : nouveau_eventh)
    (ha : e.eventh a = some h) :
    list_del e a = .ok { e with
      list := e.list.set h.index.toNat ((e.list.getD h.index.toNat []).erase a) } := by
  obtain ⟨h0, h1, _, hmem⟩ := wf_live e hw a h ha
  have hi := getD_mem_lt _ _ _ hmem
  have hgd : e.list.getD h.index.toNat [] = e.list[h.index.toNat] := by
    rw [List.getD_eq_getElem?_getD, List.getElem?_eq_getElem hi]; rfl
  unfold list_del
  have hany : (e.list.any fun l => l.contains a) = true := by
    rw [List.any_eq_true]
    refine ⟨e.list[h.index.toNat], List.getElem_mem _, ?_⟩
    rw [← hgd]
    simpa using hmem
  rw [if_pos hany]
  congr 2
  apply List.ext_getElem?
  intro j
  rw [List.getElem?_map]
  by_cases hj : j = h.index.toNat
  · subst hj
    rw [List.getElem?_set_self hi, List.getElem?_eq_getElem hi, hgd]
    simp only [Option.map_some', Option.some.injEq]
    have := (getD_nodup e.list hw.2.2.2.2.2.2.2.1 h.index.toNat).erase_eq_filter a
    rw [hgd] at this
    exact this.symm
  · rw [List.getElem?_set_ne (fun x => hj x.symm)]
    cases hl : e.list[j]? with
    | none => rfl
    | some l =>
      simp only [Option.map_some', Option.some.injEq]
      rw [List.filter_eq_self]
      intro b hb
      have hbj : b ∈ e.list.getD j [] := by
        rw [List.getD_eq_getElem?_getD, hl]; exact hb
      obtain ⟨hb0, hbe, hbi, _⟩ := wf_member e hw j b hbj
      have : b ≠ a := by
        intro hba
        subst hba
        rw [ha] at hbe
        cases hbe
        omega
      simpa using this

/-! ### Counters are determined by lists and listeners -/

theorem armed_count_congr (e e2 : nouveau_event) (hl : e2.list = e.list)
    (hev : ∀ b, e2.eventh b = e.eventh b) (i t : Nat) : armed_count e2 i t = armed_count e i t := by
  unfold armed_count
  rw [hl]
  apply countP_eq_of_forall
  intro b _
  unfold wants
  rw [hev b]

theorem toNat_mul_of_nonneg (x y : Int) (hx : 0 ≤ x) (hy : 0 ≤ y) :
    (x * y).toNat = x.toNat * y.toNat := by
  obtain ⟨a, rfl⟩ := Int.eq_ofNat_of_zero_le hx
  obtain ⟨b, rfl⟩ := Int.eq_ofNat_of_zero_le hy
  have : ((a : Int) * (b : Int)) = ((a * b : Nat) : Int) := by push_cast; rfl
  rw [this, Int.toNat_ofNat, Int.toNat_ofNat, Int.toNat_ofNat]

theorem refs_determined (e e2 : nouveau_event) (hI : Inv e) (hI2 : Inv e2)
    (hn : e2.types_nr = e.types_nr) (hN : e2.index_nr = e.index_nr) (hl : e2.list = e.list)
    (hev : ∀ b, e2.eventh b = e.eventh b) : e2.refs = e.refs := by
  have hn0 := hI.1.1
  have hN0 := hI.1.2.2.1
  have hlen : e.refs.length = e.index_nr.toNat * e.types_nr.toNat := by
    rw [hI.1.2.2.2.2.2.1, toNat_mul_of_nonneg _ _ hN0 hn0]
  have hlen2 : e2.refs.length = e.index_nr.toNat * e.types_nr.toNat := by
    rw [hI2.1.2.2.2.2.2.1, hn, hN, toNat_mul_of_nonneg _ _ hN0 hn0]
  apply List.ext_getElem?
  intro k
  by_cases hk : k < e.index_nr.toNat * e.types_nr.toNat
  · have hnpos : 0 < e.types_nr.toNat := by
      rcases Nat.eq_zero_or_pos e.types_nr.toNat with h | h
      · rw [h] at hk; simp at hk
      · exact h
    have hi : k / e.types_nr.toNat < e.index_nr.toNat :=
      Nat.div_lt_of_lt_mul (by rw [Nat.mul_comm]; exact hk)
    have ht : k % e.types_nr.toNat < e.types_nr.toNat := Nat.mod_lt _ hnpos
    have hkeq : k = (k / e.types_nr.toNat) * e.types_nr.toNat + k % e.types_nr.toNat := by
      rw [Nat.mul_comm]; exact (Nat.div_add_mod k _).symm
    have h1 := Inv_refs_at e hI (k / e.types_nr.toNat) (k % e.types_nr.toNat)
      (by omega) (by omega)
    have h2 := Inv_refs_at e2 hI2 (k / e.types_nr.toNat) (k % e.types_nr.toNat)
      (by rw [hN]; omega) (by rw [hn]; omega)
    rw [hn, ← hkeq] at h2
    rw [← hkeq] at h1
    rw [h1, h2, armed_count_congr e e2 hl hev]
  · rw [List.getElem?_eq_none (by omega), List.getElem?_eq_none (by omega)]

theorem handlers_eq_of_eventh (e e2 : nouveau_event)
    (hlen : e2.handlers.length = e.handlers.length) (hev : ∀ b, e2.eventh b = e.eventh b) :
    e2.handlers = e.handlers := by
  apply List.ext_getElem?
  intro k
  by_cases hk : k < e.handlers.length
  · have := hev k
    unfold nouveau_event.eventh at this
    rw [List.getD_eq_getElem?_getD, List.getD_eq_getElem?_getD,
      List.getElem?_eq_getElem hk, List.getElem?_eq_getElem (by omega)] at this
    rw [List.getElem?_eq_getElem hk, List.getElem?_eq_getElem (by omega)]
    simpa using this
  · rw [List.getElem?_eq_none (by omega), List.getElem?_eq_none (by omega)]

/-! ### Arming and disarming a list of listeners -/

theorem run_get_all : ∀ (as : List Nat) (e : nouveau_event), Inv e →
    (∀ a ∈ as, ∃ h, e.eventh a = some h) →
    ∃ e1, run e (as.map Op.get) = .ok e1 ∧ Inv e1 ∧ setup e1 = setup e ∧ e1.list = e.list ∧
      e1.handlers.length = e.handlers.length ∧
      ∀ b, e1.eventh b = (e.eventh b).map (fun h =>
        if b ∈ as ∧ armed h = false then
          { h with flags := __set_bit NVKM_EVENT_ENABLE h.flags } else h) := by
  intro as
  induction as with
  | nil =>
    intro e hI _
    refine ⟨e, rfl, hI, rfl, rfl, rfl, fun b => ?_⟩
    cases e.eventh b <;> simp
  | cons a as ih =>
    intro e hI hl
    obtain ⟨h, ha⟩ := hl a (List.mem_cons_self _ _)
    obtain ⟨e2, hg⟩ := get_total e hI.1 a h ha
    have hI2 := get_inv e e2 a hI hg
    obtain ⟨hs2, hl2, _⟩ := get_setup e e2 hI.1 a hg
    have hev2 : e2.handlers.length = e.handlers.length ∧ ∀ b, e2.eventh b = (e.eventh b).map
        (fun h => if b = a ∧ armed h = false then
          { h with flags := __set_bit NVKM_EVENT_ENABLE h.flags } else h) := by
      obtain ⟨h', ha', hc⟩ := get_cases e e2 hI.1 a hg
      rw [ha] at ha'
      cases ha'
      rcases hc with ⟨hd, rfl⟩ | ⟨hd, hy⟩
      · refine ⟨rfl, fun b => ?_⟩
        cases hb : e2.eventh b with
        | none => rfl
        | some hb0 =>
          simp only [Option.map_some', Option.some.injEq]
          by_cases hba : b = a
          · subst hba
            rw [ha] at hb
            cases hb
            simp [hd]
          · simp [hba]
      · refine ⟨by rw [hy]; simp, fun b => ?_⟩
        rw [eventh_of_set e e2 a h _ ha (by rw [hy]) b]
        by_cases hba : b = a
        · subst hba
          rw [if_pos rfl, ha]
          simp [hd]
        · rw [if_neg hba]
          cases e.eventh b <;> simp [hba]
    obtain ⟨e1, hr, hI1, hs1, hl1, hlen1, hev1⟩ := ih e2 hI2 (fun b hb => by
      obtain ⟨hb0, hbe⟩ := hl b (List.mem_cons_of_mem _ hb)
      rw [hev2.2 b, hbe]
      exact ⟨_, rfl⟩)
    refine ⟨e1, ?_, hI1, hs1.trans hs2, hl1.trans hl2, hlen1.trans hev2.1, fun b => ?_⟩
    · rw [List.map_cons, run]
      show (match step e (Op.get a) with
        | .error x => Except.error x
        | .ok e3 => run e3 (as.map Op.get)) = _
      rw [show step e (Op.get a) = nouveau_event_get e a from rfl, hg]
      exact hr
    · rw [hev1 b, hev2.2 b]
      cases e.eventh b with
      | none => rfl
      | some hb0 =>
        simp only [Option.map_some', Option.some.injEq, List.mem_cons]
        by_cases hba : b = a
        · by_cases hd : armed hb0 = false
          · simp [hba, hd, armed_set]
          · simp [hba, hd]
        · simp [hba]

theorem run_put_all : ∀ (as : List Nat) (e : nouveau_event), Inv e →
    (∀ a ∈ as, ∃ h, e.eventh a = some h) →
    ∃ e1, run e (as.map Op.put) = .ok e1 ∧ Inv e1 ∧ setup e1 = setup e ∧ e1.list = e.list ∧
      e1.handlers.length = e.handlers.length ∧
      ∀ b, e1.eventh b = (e.eventh b).map (fun h =>
        if b ∈ as ∧ armed h = true then
          { h with flags := __clear_bit NVKM_EVENT_ENABLE h.flags } else h) := by
  intro as
  induction as with
  | nil =>
    intro e hI _
    refine ⟨e, rfl, hI, rfl, rfl, rfl, fun b => ?_⟩
    cases e.eventh b <;> simp
  | cons a as ih =>
    intro e hI hl
    obtain ⟨h, ha⟩ := hl a (List.mem_cons_self _ _)
    obtain ⟨e2, hg⟩ := put_total e hI.1 a h ha
    have hI2 := put_inv e e2 a hI hg
    obtain ⟨hs2, hl2, _⟩ := put_setup e e2 hI.1 a hg
    have hev2 : e2.handlers.length = e.handlers.length ∧ ∀ b, e2.eventh b = (e.eventh b).map
        (fun h => if b = a ∧ armed h = true then
          { h with flags := __clear_bit NVKM_EVENT_ENABLE h.flags } else h) := by
      obtain ⟨h', ha', hc⟩ := put_cases e e2 hI.1 a hg
      rw [ha] at ha'
      cases ha'
      rcases hc with ⟨hd, rfl⟩ | ⟨hd, hy⟩
      · refine ⟨rfl, fun b => ?_⟩
        cases hb : e2.eventh b with
        | none => rfl
        | some hb0 =>
          simp only [Option.map_some', Option.some.injEq]
          by_cases hba : b = a
          · subst hba
            rw [ha] at hb
            cases hb
            simp [hd]
          · simp [hba]
      · refine ⟨by rw [hy]; simp, fun b => ?_⟩
        rw [eventh_of_set e e2 a h _ ha (by rw [hy]) b]
        by_cases hba : b = a
        · subst hba
          rw [if_pos rfl, ha]
          simp [hd]
        · rw [if_neg hba]
          cases e.eventh b <;> simp [hba]
    obtain ⟨e1, hr, hI1, hs1, hl1, hlen1, hev1⟩ := ih e2 hI2 (fun b hb => by
      obtain ⟨hb0, hbe⟩ := hl b (List.mem_cons_of_mem _ hb)
      rw [hev2.2 b, hbe]
      exact ⟨_, rfl⟩)
    refine ⟨e1, ?_, hI1, hs1.trans hs2, hl1.trans hl2, hlen1.trans hev2.1, fun b => ?_⟩
    · rw [List.map_cons, run]
      show (match step e (Op.put a) with
        | .error x => Except.error x
        | .ok e3 => run e3 (as.map Op.put)) = _
      rw [show step e (Op.put a) = nouveau_event_put e a from rfl, hg]
      exact hr
    · rw [hev1 b, hev2.2 b]
      cases e.eventh b with
      | none => rfl
      | some hb0 =>
        simp only [Option.map_some', Option.some.injEq, List.mem_cons]
        by_cases hba : b = a
        · by_cases hd : armed hb0 = true
          · simp [hba, hd, armed_clear]
          · simp [hba, hd]
        · simp [hba]

/-! ### Teardown on a well-shaped registry -/

theorem put_wf (e e1 : nouveau_event) (hw : wf e) (a : Nat)
    (hp : nouveau_event_put e a = .ok e1) : wf e1 := by
  obtain ⟨h, ha, hc⟩ := put_cases e e1 hw a hp
  rcases hc with ⟨_, rfl⟩ | ⟨_, hy⟩
  · exact hw
  · exact wf_of_flags e e1 hw a h { h with flags := __clear_bit NVKM_EVENT_ENABLE h.flags } ha
      (by rw [hy]) rfl rfl (by rw [hy]) (by rw [hy]) (by rw [hy])
      (by rw [hy]; exact refs_adj_length _ _ _ _ _)

/-- `nouveau_event_fini` of a live listener: the result of `nouveau_event_put`
with the listener erased from the list of its index. -/
theorem fini_eq (e e1 : nouveau_event) (hw : wf e) (a : Nat) (h : nouveau_eventh)
    (ha : e.eventh a = some h) (hp : nouveau_event_put e a = .ok e1) :
    nouveau_event_fini e a = .ok { e1 with
      list := e1.list.set h.index.toNat ((e1.list.getD h.index.toNat []).erase a) } := by
  obtain ⟨h1, hb, _, hidx, _⟩ := put_disarms e e1 hw a h ha hp
  unfold nouveau_event_fini
  rw [hp]
  simp only
  rw [list_del_eq e1 (put_wf e e1 hw a hp) a h1 hb, hidx]

/-- The teardown `nouveau_event_ref(NULL, &ref)` of a live listener returns. -/
theorem ref_total (e : nouveau_event) (hw : wf e) (a : Nat) (h : nouveau_eventh)
    (ha : e.eventh a = some h) : ∃ e2, nouveau_event_ref e none (some a) = .ok (none, e2) := by
  obtain ⟨e1, hp⟩ := put_total e hw a h ha
  refine ⟨kfree { e1 with
    list := e1.list.set h.index.toNat ((e1.list.getD h.index.toNat []).erase a) } a, ?_⟩
  unfold nouveau_event_ref
  simp only [ne_eq, not_true_eq_false, if_false]
  rw [fini_eq e e1 hw a h ha hp]

/-! ### Counters and backend calls of a dispatch -/

theorem countP_split {α : Type} (p q r : α → Bool) : ∀ l : List α,
    (∀ a ∈ l, p a = (q a || r a)) → (∀ a ∈ l, ¬ (q a = true ∧ r a = true)) →
    l.countP p = l.countP q + l.countP r := by
  intro l
  induction l with
  | nil => intro _ _; rfl
  | cons x xs ih =>
    intro h1 h2
    have ihx := ih (fun a ha => h1 a (List.mem_cons_of_mem _ ha))
      (fun a ha => h2 a (List.mem_cons_of_mem _ ha))
    have hx1 := h1 x (List.mem_cons_self _ _)
    have hx2 := h2 x (List.mem_cons_self _ _)
    simp only [List.countP_cons, ihx, hx1]
    cases hq : q x <;> cases hr : r x
    · simp
    · simp; omega
    · simp; omega
    · exact absurd ⟨hq, hr⟩ hx2

/-- The armed listeners before a dispatch are those still armed after it and
those it dropped. -/
theorem armed_count_after_trigger (cb : Nat → Nat → Nat → Nat → Int → Int) (types : Nat)
    (index : Int) (e e1 : nouveau_event) (hw : wf e) (hl : e1.list = e.list)
    (hin : ∀ b ∈ e.list.getD index.toNat [], ∀ h, e.eventh b = some h → e1.eventh b = some
      (if dropped cb e types index b = true then
        { h with flags := __clear_bit NVKM_EVENT_ENABLE h.flags } else h)) (t : Nat) :
    armed_count e index.toNat t =
      armed_count e1 index.toNat t + dropped_count cb e types index t := by
  unfold armed_count dropped_count
  rw [hl]
  apply countP_split
  · intro a ha
    obtain ⟨h, hh, _⟩ := wf_member e hw _ a ha
    have h1 := hin a ha h hh
    cases hd : dropped cb e types index a with
    | false =>
      rw [hd] at h1
      simp only [Bool.false_eq_true, if_false] at h1
      have : wants e1 t a = wants e t a := by unfold wants; rw [h1, hh]
      rw [this]; simp
    | true =>
      rw [hd] at h1
      simp only [if_true] at h1
      have : wants e1 t a = false := by
        unfold wants; rw [h1]
        simp only [armed_clear, Bool.false_and]
      rw [this]; simp
  · intro a ha hboth
    obtain ⟨h, hh, _⟩ := wf_member e hw _ a ha
    have h1 := hin a ha h hh
    obtain ⟨hq, hr⟩ := hboth
    simp only [Bool.and_eq_true] at hr
    rw [hr.1] at h1
    simp only [if_true] at h1
    unfold wants at hq
    rw [h1] at hq
    simp only [armed_clear, Bool.false_and] at hq
    cases hq

theorem mem_drop_append {α : Type} (base : Nat) (l new : List α) (hb : base ≤ l.length) (c : α)
    (h : c ∈ l.drop base ∨ c ∈ new) : c ∈ (l ++ new).drop base := by
  rw [List.drop_append_of_le_length hb, List.mem_append]
  exact h

theorem disabled_since_log (e z : nouveau_event) (c : Call) (h : disabled_since e z) :
    disabled_since e (z.log c) := by
  obtain ⟨hI, hs, hb, hd⟩ := h
  refine ⟨Inv_log z c hI, hs, by simp only [nouveau_event.log, List.length_append]; omega, ?_⟩
  intro i t hi ht r hr hpos hz hdis
  exact mem_drop_append _ _ _ hb _ (Or.inl (hd i t hi ht r hr hpos hz hdis))

theorem disabled_since_put (e z z1 : nouveau_event) (b : Nat) (h : disabled_since e z)
    (hp : nouveau_event_put z b = .ok z1) : disabled_since e z1 := by
  obtain ⟨hI, hs, hb, hd⟩ := h
  obtain ⟨s1, s2, _, _, s5⟩ := setup_fields _ _ hs
  have hI1 := put_inv z z1 b hI hp
  obtain ⟨hs1, _, _⟩ := put_setup z z1 hI.1 b hp
  obtain ⟨h, hbe, hc⟩ := put_cases z z1 hI.1 b hp
  rcases hc with ⟨_, rfl⟩ | ⟨harm, hy⟩
  · exact ⟨hI, hs, hb, hd⟩
  · have hcalls : z1.calls = z.calls ++
        (if z.disable then fired Call.disable 1 z.types_nr h.index (bits h.types) z.refs
          else []) := by rw [hy]
    have hrefs : z1.refs = refs_adj (-1) z.types_nr h.index (bits h.types) z.refs := by rw [hy]
    refine ⟨hI1, hs1.trans hs, by rw [hcalls, List.length_append]; omega, ?_⟩
    intro i t hi ht r hr hpos hz hdis
    rw [hcalls]
    apply mem_drop_append _ _ _ hb
    rw [hrefs, ← s1, refs_adj_at z hI.1 b h hbe (-1) i t (by rw [s2]; exact hi)
      (by rw [s1]; exact ht)] at hz
    have hcur := hI.2 i (List.mem_range.2 (by rw [s2]; omega)) t
      (List.mem_range.2 (by rw [s1]; omega))
    rw [hcur] at hz
    simp only [Option.map_some', Option.some.injEq] at hz
    by_cases hit : (i : Int) = h.index ∧ h.types.testBit t = true
    · rw [if_pos hit] at hz
      right
      rw [s5, hdis, if_pos rfl]
      have hone : z.refs[slot z.types_nr h.index t]? = some 1 := by
        rw [← hit.1, hcur]
        congr 1
        omega
      have ht31 : t < 32 := by have := hI.1.2.1; rw [s1] at this; omega
      have hcount := count_fired Call.disable
        (by intro _ _ _ _ hx; cases hx; exact ⟨rfl, rfl⟩) 1 z.types_nr h.index z.refs t i
        (bits h.types) (bits_nodup _) (bits_lt_31 z hI.1 b h hbe)
      rw [if_pos ⟨hit.1, (mem_bits _ _).2 ⟨ht31, hit.2⟩, hone⟩] at hcount
      exact List.count_pos_iff.1 (by rw [hcount]; exact Nat.one_pos)
    · rw [if_neg hit] at hz
      left
      refine hd i t hi ht r hr hpos ?_ hdis
      rw [← s1, hcur, hz]

theorem trigger_disabled_since (cb : Nat → Nat → Nat → Nat → Int → Int) (types : Nat)
    (index : Int) (e e1 : nouveau_event) (hI : Inv e)
    (ht : nouveau_event_trigger cb e types index = .ok e1) : disabled_since e e1 :=
  trigger_keeps_live (disabled_since e)
    (fun z b z1 hz hp => disabled_since_put e z z1 b hz hp)
    (fun z b h m i hz _ _ => disabled_since_log e z _ hz)
    (fun z hz => disabled_since_log e z _ hz)
    cb types index e e1
    ⟨hI, rfl, le_refl _, fun i t _ _ r hr hpos hz _ => by
      rw [hr] at hz
      simp only [Option.some.injEq] at hz
      omega⟩ ht

/-! ## The claims -/

/-- C1: reference-count invariant.  In every state reached from
`nouveau_event_create(types_nr, index_nr)` (`types_nr <= 31`), configured by the
owner, through any sequence of registrations, arms, disarms, teardowns and
dispatches that return, the counter `refs[i * types_nr + t]` of every in-range
pair is the number of armed listeners on list `i` that want bit `t`; it is
non-negative, and positive iff some armed listener on list `i` has bit `t`. -/
theorem refs_count_invariant (types_nr index_nr : Int) (check enable disable : Bool)
    (e0 e : nouveau_event) (ops : List Op) (h31 : types_nr ≤ 31)
    (hc : nouveau_event_create true true types_nr index_nr = .ok (0, some e0))
    (hrun : run (configure e0 check enable disable) ops = .ok e)
    (i t : Nat) (hi : (i : Int) < index_nr) (ht : (t : Int) < types_nr) :
    e.refs[i * types_nr.toNat + t]? = some (armed_count e i t : Int) ∧
    (0 : Int) ≤ (armed_count e i t : Int) ∧
    ((0 : Int) < (armed_count e i t : Int) ↔
      ∃ a ∈ e.list.getD i [], ∃ h, e.eventh a = some h ∧ armed h = true ∧
        h.types.testBit t = true) := by
  obtain ⟨hI, rfl, rfl, _⟩ :=
    reachable_inv true true types_nr index_nr check enable disable e0 e ops (by omega) h31 hc
      hrun
  exact ⟨Inv_refs_at e hI i t hi ht, Int.natCast_nonneg _, armed_count_pos_iff e i t⟩

/-- Witness of C1: the worked scenario, counter of (index 0, type 0). -/
theorem refs_count_invariant_witness :
    nouveau_event_create true true 4 1 = .ok (0, some demo_fresh) ∧
    run (configure demo_fresh false true true) demo_ops = .ok demo_dropped ∧
    (demo_dropped.refs[0 * (4 : Int).toNat + 0]? = some (armed_count demo_dropped 0 0 : Int) ∧
      (0 : Int) ≤ (armed_count demo_dropped 0 0 : Int) ∧
      ((0 : Int) < (armed_count demo_dropped 0 0 : Int) ↔
        ∃ a ∈ demo_dropped.list.getD 0 [], ∃ h, demo_dropped.eventh a = some h ∧
          armed h = true ∧ h.types.testBit 0 = true)) :=
  ⟨rfl, rfl, refs_count_invariant 4 1 false true true demo_fresh demo_dropped demo_ops
    (by decide) rfl rfl 0 0 (by decide) (by decide)⟩

/-- C2: enable/disable balance.  For a registry with both `enable` and
`disable` configured, in every state reached from a fresh registry the number of
logged `enable(1 << t, i)` calls minus the number of logged `disable(1 << t, i)`
calls is 1 if `refs[i * types_nr + t]` is positive and 0 otherwise. -/
theorem enable_disable_balance (types_nr index_nr : Int) (check : Bool)
    (e0 e : nouveau_event) (ops : List Op) (h31 : types_nr ≤ 31)
    (hc : nouveau_event_create true true types_nr index_nr = .ok (0, some e0))
    (hrun : run (configure e0 check true true) ops = .ok e)
    (i t : Nat) (hi : (i : Int) < index_nr) (ht : (t : Int) < types_nr) :
    ∃ r : Int, e.refs[i * types_nr.toNat + t]? = some r ∧
      (e.calls.count (Call.enable (2 ^ t) i) : Int) - e.calls.count (Call.disable (2 ^ t) i) =
        (if 0 < r then 1 else 0) := by
  have h0 : 0 ≤ types_nr := by omega
  obtain ⟨hI, rfl, rfl, _⟩ :=
    reachable_inv true true types_nr index_nr check true true e0 e ops h0 h31 hc hrun
  have hb := reachable_bal true true e.types_nr e.index_nr check e0 e ops h0 h31 hc hrun
  have hr := Inv_refs_at e hI i t hi ht
  refine ⟨_, hr, ?_⟩
  rw [← slot_plain e hI.1 i t hi ht] at hr
  exact hb i t hi ht _ hr

/-- Witness of C2: the worked scenario, type 2 of index 0 (enabled by A, disabled
when A was dropped). -/
theorem enable_disable_balance_witness :
    nouveau_event_create true true 4 1 = .ok (0, some demo_fresh) ∧
    run (configure demo_fresh false true true) demo_ops = .ok demo_dropped ∧
    ∃ r : Int, demo_dropped.refs[0 * (4 : Int).toNat + 2]? = some r ∧
      (demo_dropped.calls.count (Call.enable (2 ^ 2) (0 : Nat)) : Int) -
          demo_dropped.calls.count (Call.disable (2 ^ 2) (0 : Nat)) =
        (if 0 < r then 1 else 0) :=
  ⟨rfl, rfl, enable_disable_balance 4 1 false demo_fresh demo_dropped demo_ops
    (by decide) rfl rfl 0 2 (by decide) (by decide)⟩

/-- C3: dispatch selection and order.  On a well-shaped registry and an
in-range index, `nouveau_event_trigger` returns, and the callbacks it logs are,
in list (registration) order, exactly the invocations
`func(priv, listener.types & types, index)` of the listeners of `list[index]`
that are armed at the start of the call and whose types meet `types`; each of
them is invoked once, and every logged callback is one of them. -/
theorem trigger_dispatch_order (cb : Nat → Nat → Nat → Nat → Int → Int) (types : Nat)
    (index : Int) (e : nouveau_event) (hw : wf e) (h0 : 0 ≤ index) (h1 : index < e.index_nr) :
    ∃ e1 new, nouveau_event_trigger cb e types index = .ok e1 ∧ e1.calls = e.calls ++ new ∧
      new.filter Call.is_func =
        (e.list.getD index.toNat []).filterMap (dispatch_call e types index) ∧
      (∀ a c, dispatch_call e types index a = some c →
        new.count c = if a ∈ e.list.getD index.toNat [] then 1 else 0) ∧
      (∀ a fn priv m i, Call.func a fn priv m i ∈ new →
        a ∈ e.list.getD index.toNat [] ∧
          dispatch_call e types index a = some (Call.func a fn priv m i)) := by
  obtain ⟨e1, ht, _, _, _, _, _, ⟨new, hc, hf⟩, _⟩ := trigger_effect cb types index e hw h0 h1
  refine ⟨e1, new, ht, hc, hf, ?_, ?_⟩
  · intro a c hd
    obtain ⟨hx, _, _, _, hcx⟩ := dispatch_call_some e types index a c hd
    have hfun : c.is_func = true := by rw [hcx]; rfl
    rw [← List.count_filter hfun, hf]
    exact count_filterMap_dispatch e types index a c hd _ (getD_nodup e.list hw.2.2.2.2.2.2.2.1 _)
  · intro a fn priv m i hm
    have hm2 : Call.func a fn priv m i ∈ new.filter Call.is_func :=
      List.mem_filter.2 ⟨hm, rfl⟩
    rw [hf, List.mem_filterMap] at hm2
    obtain ⟨x, hx, hdx⟩ := hm2
    obtain ⟨_, _, _, _, hcx⟩ := dispatch_call_some e types index x _ hdx
    simp only [Call.func.injEq] at hcx
    obtain ⟨rfl, _⟩ := hcx
    exact ⟨hx, hdx⟩

/-- Witness of C3: dispatch of type 0 on the registry with A and B armed. -/
theorem trigger_dispatch_order_witness :
    wf demo_armed ∧ (0 : Int) ≤ 0 ∧ (0 : Int) < demo_armed.index_nr ∧
    ∃ e1 new, nouveau_event_trigger demo_cb demo_armed 1 0 = .ok e1 ∧
      e1.calls = demo_armed.calls ++ new ∧
      new.filter Call.is_func =
        (demo_armed.list.getD (0 : Int).toNat []).filterMap (dispatch_call demo_armed 1 0) ∧
      (∀ a c, dispatch_call demo_armed 1 0 a = some c →
        new.count c = if a ∈ demo_armed.list.getD (0 : Int).toNat [] then 1 else 0) ∧
      (∀ a fn priv m i, Call.func a fn priv m i ∈ new →
        a ∈ demo_armed.list.getD (0 : Int).toNat [] ∧
          dispatch_call demo_armed 1 0 a = some (Call.func a fn priv m i)) :=
  ⟨by decide, by decide, by decide,
    trigger_dispatch_order demo_cb 1 0 demo_armed (by decide) (by decide) (by decide)⟩

/-- C4: arm postcondition, per bit.  For a disarmed live listener `h` of a
well-shaped registry (so `0 <= h.index < index_nr` and `h.types` inside the
mask), `nouveau_event_get` returns, sets the armed flag of `h`, adds exactly 1
to `refs[h.index * types_nr + t]` for every set bit `t` of `h.types` and leaves
every other counter, every list and every other listener alone; when `enable`
is configured it logs `enable(1 << t, h.index)` once, in ascending bit order and
with a single-bit mask, for exactly the set bits whose counter was 0, and
nothing else. -/
theorem get_postcondition (e : nouveau_event) (hw : wf e) (a : Nat) (h : nouveau_eventh)
    (ha : e.eventh a = some h) (hd : armed h = false) :
    ∃ e1, nouveau_event_get e a = .ok e1 ∧
      e1.eventh a = some { h with flags := __set_bit NVKM_EVENT_ENABLE h.flags } ∧
      armed { h with flags := __set_bit NVKM_EVENT_ENABLE h.flags } = true ∧
      (∀ b, b ≠ a → e1.eventh b = e.eventh b) ∧
      e1.list = e.list ∧ setup e1 = setup e ∧
      (∀ t, h.types.testBit t = true → ∃ r,
        e.refs[h.index.toNat * e.types_nr.toNat + t]? = some r ∧
        e1.refs[h.index.toNat * e.types_nr.toNat + t]? = some (r + 1)) ∧
      (∀ k, (∀ t, h.types.testBit t = true → k ≠ h.index.toNat * e.types_nr.toNat + t) →
        e1.refs[k]? = e.refs[k]?) ∧
      e1.calls = e.calls ++
        (if e.enable then
          ((bits h.types).filter
            (fun t => e.refs[h.index.toNat * e.types_nr.toNat + t]? = some 0)).map
            (fun t => Call.enable (2 ^ t) h.index)
         else []) := by
  refine ⟨_, get_eq e hw a h ha hd, ?_, armed_set h, ?_, rfl, rfl,
    (refs_adj_plain e hw a h ha 1).1, (refs_adj_plain e hw a h ha 1).2, ?_⟩
  · rw [eventh_of_set e _ a h _ ha rfl a, if_pos rfl]
  · intro b hb
    rw [eventh_of_set e _ a h _ ha rfl b, if_neg hb]
  · simp only
    rw [fired_plain Call.enable 0 e hw a h ha]

/-- Witness of C4: arming A (types `0b0101`) on the registry with A and B
registered. -/
theorem get_postcondition_witness :
    wf demo_registered ∧ demo_registered.eventh 0 = some ⟨0, 5, 0, 7, 8⟩ ∧
    armed ⟨0, 5, 0, 7, 8⟩ = false ∧
    ∃ e1, nouveau_event_get demo_registered 0 = .ok e1 ∧
      e1.eventh 0 = some ⟨__set_bit NVKM_EVENT_ENABLE 0, 5, 0, 7, 8⟩ ∧
      armed ⟨__set_bit NVKM_EVENT_ENABLE 0, 5, 0, 7, 8⟩ = true ∧
      (∀ b, b ≠ 0 → e1.eventh b = demo_registered.eventh b) ∧
      e1.list = demo_registered.list ∧ setup e1 = setup demo_registered ∧
      (∀ t, (5 : Nat).testBit t = true → ∃ r,
        demo_registered.refs[(0 : Int).toNat * demo_registered.types_nr.toNat + t]? = some r ∧
        e1.refs[(0 : Int).toNat * demo_registered.types_nr.toNat + t]? = some (r + 1)) ∧
      (∀ k, (∀ t, (5 : Nat).testBit t = true →
          k ≠ (0 : Int).toNat * demo_registered.types_nr.toNat + t) →
        e1.refs[k]? = demo_registered.refs[k]?) ∧
      e1.calls = demo_registered.calls ++
        (if demo_registered.enable then
          ((bits 5).filter
            (fun t => demo_registered.refs[(0 : Int).toNat * demo_registered.types_nr.toNat + t]?
              = some 0)).map
            (fun t => Call.enable (2 ^ t) 0)
         else []) :=
  ⟨by decide, rfl, rfl, get_postcondition demo_registered (by decide) 0 ⟨0, 5, 0, 7, 8⟩ rfl rfl⟩

/-- C5: disarm postcondition, per bit.  For an armed live listener `h` of a
well-shaped registry, `nouveau_event_put` returns, clears the armed flag of `h`,
subtracts exactly 1 from `refs[h.index * types_nr + t]` for every set bit `t` of
`h.types` and leaves every other counter, every list and every other listener
alone; when `disable` is configured it logs `disable(1 << t, h.index)` once, in
ascending bit order and with a single-bit mask, for exactly the set bits whose
counter was 1 (becomes 0), and nothing else. -/
theorem put_postcondition (e : nouveau_event) (hw : wf e) (a : Nat) (h : nouveau_eventh)
    (ha : e.eventh a = some h) (hd : armed h = true) :
    ∃ e1, nouveau_event_put e a = .ok e1 ∧
      e1.eventh a = some { h with flags := __clear_bit NVKM_EVENT_ENABLE h.flags } ∧
      armed { h with flags := __clear_bit NVKM_EVENT_ENABLE h.flags } = false ∧
      (∀ b, b ≠ a → e1.eventh b = e.eventh b) ∧
      e1.list = e.list ∧ setup e1 = setup e ∧
      (∀ t, h.types.testBit t = true → ∃ r,
        e.refs[h.index.toNat * e.types_nr.toNat + t]? = some r ∧
        e1.refs[h.index.toNat * e.types_nr.toNat + t]? = some (r - 1)) ∧
      (∀ k, (∀ t, h.types.testBit t = true → k ≠ h.index.toNat * e.types_nr.toNat + t) →
        e1.refs[k]? = e.refs[k]?) ∧
      e1.calls = e.calls ++
        (if e.disable then
          ((bits h.types).filter
            (fun t => e.refs[h.index.toNat * e.types_nr.toNat + t]? = some 1)).map
            (fun t => Call.disable (2 ^ t) h.index)
         else []) := by
  refine ⟨_, put_eq e hw a h ha hd, ?_, armed_clear h, ?_, rfl, rfl,
    (refs_adj_plain e hw a h ha (-1)).1, (refs_adj_plain e hw a h ha (-1)).2, ?_⟩
  · rw [eventh_of_set e _ a h _ ha rfl a, if_pos rfl]
  · intro b hb
    rw [eventh_of_set e _ a h _ ha rfl b, if_neg hb]
  · simp only
    rw [fired_plain Call.disable 1 e hw a h ha]

/-- Witness of C5: disarming A on the registry with A and B armed. -/
theorem put_postcondition_witness :
    wf demo_armed ∧ demo_armed.eventh 0 = some ⟨1, 5, 0, 7, 8⟩ ∧
    armed ⟨1, 5, 0, 7, 8⟩ = true ∧
    ∃ e1, nouveau_event_put demo_armed 0 = .ok e1 ∧
      e1.eventh 0 = some ⟨__clear_bit NVKM_EVENT_ENABLE 1, 5, 0, 7, 8⟩ ∧
      armed ⟨__clear_bit NVKM_EVENT_ENABLE 1, 5, 0, 7, 8⟩ = false ∧
      (∀ b, b ≠ 0 → e1.eventh b = demo_armed.eventh b) ∧
      e1.list = demo_armed.list ∧ setup e1 = setup demo_armed ∧
      (∀ t, (5 : Nat).testBit t = true → ∃ r,
        demo_armed.refs[(0 : Int).toNat * demo_armed.types_nr.toNat + t]? = some r ∧
        e1.refs[(0 : Int).toNat * demo_armed.types_nr.toNat + t]? = some (r - 1)) ∧
      (∀ k, (∀ t, (5 : Nat).testBit t = true →
          k ≠ (0 : Int).toNat * demo_armed.types_nr.toNat + t) →
        e1.refs[k]? = demo_armed.refs[k]?) ∧
      e1.calls = demo_armed.calls ++
        (if demo_armed.disable then
          ((bits 5).filter
            (fun t => demo_armed.refs[(0 : Int).toNat * demo_armed.types_nr.toNat + t]?
              = some 1)).map
            (fun t => Call.disable (2 ^ t) 0)
         else []) :=
  ⟨by decide, rfl, rfl, put_postcondition demo_armed (by decide) 0 ⟨1, 5, 0, 7, 8⟩ rfl rfl⟩

/-- C6: idempotence of arm and disarm.  For every registry and listener, a
second `nouveau_event_get` right after one that returned changes nothing (same
flags, counters, lists and log, so no second `enable`), and likewise a second
`nouveau_event_put`; `nouveau_event_put` on a disarmed listener, armed before or
never, returns the registry unchanged (no counter moves, no `disable`), and so
does `nouveau_event_get` on an armed one. -/
theorem arm_disarm_idempotent (e : nouveau_event) (a : Nat) :
    (∀ e1, nouveau_event_get e a = .ok e1 → nouveau_event_get e1 a = .ok e1) ∧
    (∀ e1, nouveau_event_put e a = .ok e1 → nouveau_event_put e1 a = .ok e1) ∧
    (∀ h, e.eventh a = some h → armed h = false → nouveau_event_put e a = .ok e) ∧
    (∀ h, e.eventh a = some h → armed h = true → nouveau_event_get e a = .ok e) := by
  refine ⟨?_, ?_, fun h ha hd => put_disarmed e a h ha hd, fun h ha hd => get_armed e a h ha hd⟩
  · intro e1 hg
    obtain ⟨h1, hb, hd⟩ := get_then_armed e e1 a hg
    exact get_armed e1 a h1 hb hd
  · intro e1 hp
    obtain ⟨h1, hb, hd⟩ := put_then_disarmed e e1 a hp
    exact put_disarmed e1 a h1 hb hd

/-- Witness of C6: arming A twice, disarming A twice, disarming the never-armed
B, arming the armed A. -/
theorem arm_disarm_idempotent_witness :
    (nouveau_event_get demo_registered 0 = .ok demo_A_armed ∧
      nouveau_event_get demo_A_armed 0 = .ok demo_A_armed) ∧
    (nouveau_event_put demo_registered 0 = .ok demo_registered ∧
      nouveau_event_put demo_registered 0 = .ok demo_registered) ∧
    (demo_A_armed.eventh 1 = some ⟨0, 1, 0, 9, 10⟩ ∧ armed ⟨0, 1, 0, 9, 10⟩ = false ∧
      nouveau_event_put demo_A_armed 1 = .ok demo_A_armed) ∧
    (demo_A_armed.eventh 0 = some ⟨1, 5, 0, 7, 8⟩ ∧ armed ⟨1, 5, 0, 7, 8⟩ = true ∧
      nouveau_event_get demo_A_armed 0 = .ok demo_A_armed) :=
  ⟨⟨rfl, (arm_disarm_idempotent demo_registered 0).1 demo_A_armed rfl⟩,
    ⟨rfl, (arm_disarm_idempotent demo_registered 0).2.1 demo_registered rfl⟩,
    ⟨rfl, rfl, (arm_disarm_idempotent demo_A_armed 1).2.2.1 ⟨0, 1, 0, 9, 10⟩ rfl rfl⟩,
    ⟨rfl, rfl, (arm_disarm_idempotent demo_A_armed 0).2.2.2 ⟨1, 5, 0, 7, 8⟩ rfl rfl⟩⟩

/-- C7: arm/disarm symmetry.  From a registry satisfying the invariant, arming
disarmed live listeners in the order `as` and then disarming them in any order
`bs` (a permutation of `as`) returns, leaves every listener armed in between,
and ends with the counter array, the listeners (armed flags included) and the
lists of the start; in particular `put` after `get` of one disarmed listener
restores the registry, log apart. -/
theorem arm_disarm_round_trip (e : nouveau_event) (hI : Inv e) (as bs : List Nat)
    (hperm : as.Perm bs) (hdis : ∀ a ∈ as, ∃ h, e.eventh a = some h ∧ armed h = false) :
    (∃ e1 e2, run e (as.map Op.get) = .ok e1 ∧ run e1 (bs.map Op.put) = .ok e2 ∧
      (∀ a ∈ as, ∃ h1, e1.eventh a = some h1 ∧ armed h1 = true) ∧
      e2.refs = e.refs ∧ e2.handlers = e.handlers ∧ e2.list = e.list ∧ setup e2 = setup e) ∧
    (∀ a ∈ as, ∃ e1 e2, nouveau_event_get e a = .ok e1 ∧ nouveau_event_put e1 a = .ok e2 ∧
      { e2 with calls := e.calls } = e) := by
  have main : ∀ (xs ys : List Nat), xs.Perm ys →
      (∀ a ∈ xs, ∃ h, e.eventh a = some h ∧ armed h = false) →
      ∃ e1 e2, run e (xs.map Op.get) = .ok e1 ∧ run e1 (ys.map Op.put) = .ok e2 ∧
        (∀ a ∈ xs, ∃ h1, e1.eventh a = some h1 ∧ armed h1 = true) ∧
        e2.refs = e.refs ∧ e2.handlers = e.handlers ∧ e2.list = e.list ∧ setup e2 = setup e := by
    intro xs ys hp hd
    obtain ⟨e1, hr1, hI1, hs1, hl1, hlen1, hev1⟩ := run_get_all xs e hI (fun a ha => by
      obtain ⟨h, hh, _⟩ := hd a ha
      exact ⟨h, hh⟩)
    obtain ⟨e2, hr2, hI2, hs2, hl2, hlen2, hev2⟩ := run_put_all ys e1 hI1 (fun a ha => by
      obtain ⟨h, hh, _⟩ := hd a (hp.mem_iff.2 ha)
      rw [hev1 a, hh]
      exact ⟨_, rfl⟩)
    have hev : ∀ b, e2.eventh b = e.eventh b := by
      intro b
      rw [hev2 b, hev1 b]
      cases hb : e.eventh b with
      | none => rfl
      | some h =>
        simp only [Option.map_some', Option.some.injEq]
        by_cases hbx : b ∈ xs
        · obtain ⟨hx, hhx, hdx⟩ := hd b hbx
          rw [hb] at hhx
          cases hhx
          have hby : b ∈ ys := hp.mem_iff.1 hbx
          have hclear := clear_set NVKM_EVENT_ENABLE h.flags hdx
          simp only [hbx, hby, hdx, armed_set, and_self, if_true, hclear]
        · have hby : b ∉ ys := fun hy => hbx (hp.mem_iff.2 hy)
          simp [hbx, hby]
    have hset := (hs2.trans hs1)
    obtain ⟨s1, s2, _⟩ := setup_fields _ _ hset
    refine ⟨e1, e2, hr1, hr2, ?_, refs_determined e e2 hI hI2 s1 s2 (hl2.trans hl1) hev,
      handlers_eq_of_eventh e e2 (hlen2.trans hlen1) hev, hl2.trans hl1, hset⟩
    intro a ha
    obtain ⟨h, hh, hdy⟩ := hd a ha
    refine ⟨_, by rw [hev1 a, hh]; rfl, ?_⟩
    simp only [ha, hdy, and_self, if_true]
    exact armed_set h
  refine ⟨main as bs hperm hdis, ?_⟩
  intro a ha
  obtain ⟨e1, e2, hr1, hr2, _, h4, h5, h6, h7⟩ := main [a] [a] (List.Perm.refl _) (fun b hb => by
    rw [List.mem_singleton] at hb
    subst hb
    exact hdis b ha)
  simp only [List.map_cons, List.map_nil, run, step] at hr1 hr2
  have hg : nouveau_event_get e a = .ok e1 := by
    cases hx : nouveau_event_get e a with
    | error x => rw [hx] at hr1; cases hr1
    | ok g1 => rw [hx] at hr1; exact hr1
  have hp : nouveau_event_put e1 a = .ok e2 := by
    cases hx : nouveau_event_put e1 a with
    | error x => rw [hx] at hr2; cases hr2
    | ok g2 => rw [hx] at hr2; exact hr2
  refine ⟨e1, e2, hg, hp, ?_⟩
  obtain ⟨s1, s2, s3, s4, s5⟩ := setup_fields _ _ h7
  cases e
  cases e2
  simp only at h4 h5 h6 s1 s2 s3 s4 s5
  subst h4 h5 h6 s1 s2 s3 s4 s5
  rfl

/-- Witness of C7: arming A then B and disarming B then A on the registry with
both registered. -/
theorem arm_disarm_round_trip_witness :
    Inv demo_registered ∧ [0, 1].Perm [1, 0] ∧
    (∀ a ∈ [0, 1], ∃ h, demo_registered.eventh a = some h ∧ armed h = false) ∧
    ((∃ e1 e2, run demo_registered ([0, 1].map Op.get) = .ok e1 ∧
        run e1 ([1, 0].map Op.put) = .ok e2 ∧
        (∀ a ∈ [0, 1], ∃ h1, e1.eventh a = some h1 ∧ armed h1 = true) ∧
        e2.refs = demo_registered.refs ∧ e2.handlers = demo_registered.handlers ∧
        e2.list = demo_registered.list ∧ setup e2 = setup demo_registered) ∧
      (∀ a ∈ [0, 1], ∃ e1 e2, nouveau_event_get demo_registered a = .ok e1 ∧
        nouveau_event_put e1 a = .ok e2 ∧
        { e2 with calls := demo_registered.calls } = demo_registered)) :=
  ⟨by decide, List.Perm.swap 1 0 [],
    fun a ha => by
      simp only [List.mem_cons, List.mem_singleton, List.not_mem_nil, or_false] at ha
      rcases ha with rfl | rfl
      · exact ⟨_, rfl, rfl⟩
      · exact ⟨_, rfl, rfl⟩,
    arm_disarm_round_trip demo_registered (by decide) [0, 1] [1, 0] (List.Perm.swap 1 0 [])
      (fun a ha => by
        simp only [List.mem_cons, List.mem_singleton, List.not_mem_nil, or_false] at ha
        rcases ha with rfl | rfl
        · exact ⟨_, rfl, rfl⟩
        · exact ⟨_, rfl, rfl⟩)⟩

/-- C8: drop-on-signal.  A dispatch on an in-range index of a registry
satisfying the invariant returns.  Each counter of that index goes down by the
number of dropped listeners (invoked, callback returned `NVKM_EVENT_DROP`) that
hold a reference on its bit.  A dropped listener is disarmed afterwards; for
each of its bits whose counter is 0 afterwards, `disable(1 << t, index)` has been
logged during the dispatch when `disable` is configured; and no later run of
operations that does not call `nouveau_event_get` on it logs a callback of it.
A listener that is not dropped (not invoked, or its callback returned another
value) is left as it was. -/
theorem drop_on_signal (cb : Nat → Nat → Nat → Nat → Int → Int) (types : Nat) (index : Int)
    (e : nouveau_event) (hI : Inv e) (h0 : 0 ≤ index) (h1 : index < e.index_nr) :
    ∃ e1, nouveau_event_trigger cb e types index = .ok e1 ∧
      (∀ t : Nat, (t : Int) < e.types_nr → ∃ r,
        e.refs[index.toNat * e.types_nr.toNat + t]? = some r ∧
        e1.refs[index.toNat * e.types_nr.toNat + t]? =
          some (r - (dropped_count cb e types index t : Int))) ∧
      (∀ L ∈ e.list.getD index.toNat [], ∀ h, e.eventh L = some h →
        (dropped cb e types index L = true →
          e1.eventh L = some { h with flags := __clear_bit NVKM_EVENT_ENABLE h.flags } ∧
          armed { h with flags := __clear_bit NVKM_EVENT_ENABLE h.flags } = false ∧
          (∀ t, h.types.testBit t = true → e.disable = true →
            e1.refs[index.toNat * e.types_nr.toNat + t]? = some 0 →
            Call.disable (2 ^ t) index ∈ e1.calls.drop e.calls.length) ∧
          (∀ ops e2, (∀ op ∈ ops, op ≠ Op.get L) → run e1 ops = .ok e2 →
            ∀ c ∈ e2.calls.drop e1.calls.length, ∀ fn priv m i,
              c ≠ Call.func L fn priv m i)) ∧
        (dropped cb e types index L = false → e1.eventh L = some h)) := by
  obtain ⟨e1, ht, hw1, hs1, hl1, _, hin, _, hInv⟩ := trigger_effect cb types index e hI.1 h0 h1
  have hI1 := hInv hI
  obtain ⟨s1, s2, _⟩ := setup_fields _ _ hs1
  have hidx : ((index.toNat : Nat) : Int) = index := Int.toNat_of_nonneg h0
  refine ⟨e1, ht, ?_, ?_⟩
  · intro t htn
    have hr := Inv_refs_at e hI index.toNat t (by omega) htn
    have hr1 := Inv_refs_at e1 hI1 index.toNat t (by rw [s2]; omega) (by rw [s1]; exact htn)
    rw [s1] at hr1
    refine ⟨_, hr, ?_⟩
    rw [hr1, armed_count_after_trigger cb types index e e1 hI.1 hl1 hin t]
    congr 1
    push_cast
    ring
  · intro L hL h hh
    have hLe := hin L hL h hh
    constructor
    · intro hd
      rw [hd] at hLe
      simp only [if_true] at hLe
      refine ⟨hLe, armed_clear h, ?_, ?_⟩
      · intro t hbit hdis hz
        obtain ⟨_, _, _, hsince⟩ := trigger_disabled_since cb types index e e1 hI ht
        obtain ⟨hx, hhx, hidxL, hty⟩ := wf_member e hI.1 _ L hL
        rw [hh] at hhx
        cases hhx
        have htn : (t : Int) < e.types_nr := by
          have := testBit_lt_of_lt_pow _ _ _ hty hbit
          have := hI.1.1
          omega
        have harm : armed h = true := by
          unfold dropped at hd
          rw [hh] at hd
          simp only [Bool.and_eq_true] at hd
          exact hd.1.1
        have hge := armed_count_ge_one e hI.1 L h hh harm t hbit
        have hidx2 : h.index.toNat = index.toNat := by omega
        rw [hidx2] at hge
        have hr := Inv_refs_at e hI index.toNat t (by omega) htn
        have hsl := slot_plain e hI.1 index.toNat t (by omega) htn
        have := hsince index.toNat t (by omega) htn _ (by rw [hsl]; exact hr)
          (by exact_mod_cast hge) (by rw [hsl]; exact hz) hdis
        rw [hidx] at this
        exact this
      · intro ops e2 hops hrun
        have hQ : Quiet L e1.calls.length e1 :=
          ⟨hI1, eventh_lt e1 L _ hLe, fun hx hhx => (by
            rw [hLe] at hhx
            cases hhx
            exact armed_clear h), le_refl _, no_callback_base L e1⟩
        exact (quiet_run L e1.calls.length ops e1 e2 hQ hops hrun).2.2.2.2
    · intro hd
      rw [hd] at hLe
      simpa using hLe

/-- Witness of C8: the dispatch of type 0 in which A asks to be dropped. -/
theorem drop_on_signal_witness :
    Inv demo_armed ∧ (0 : Int) ≤ 0 ∧ (0 : Int) < demo_armed.index_nr ∧
    ∃ e1, nouveau_event_trigger demo_cb demo_armed 1 0 = .ok e1 ∧
      (∀ t : Nat, (t : Int) < demo_armed.types_nr → ∃ r,
        demo_armed.refs[(0 : Int).toNat * demo_armed.types_nr.toNat + t]? = some r ∧
        e1.refs[(0 : Int).toNat * demo_armed.types_nr.toNat + t]? =
          some (r - (dropped_count demo_cb demo_armed 1 0 t : Int))) ∧
      (∀ L ∈ demo_armed.list.getD (0 : Int).toNat [], ∀ h, demo_armed.eventh L = some h →
        (dropped demo_cb demo_armed 1 0 L = true →
          e1.eventh L = some { h with flags := __clear_bit NVKM_EVENT_ENABLE h.flags } ∧
          armed { h with flags := __clear_bit NVKM_EVENT_ENABLE h.flags } = false ∧
          (∀ t, h.types.testBit t = true → demo_armed.disable = true →
            e1.refs[(0 : Int).toNat * demo_armed.types_nr.toNat + t]? = some 0 →
            Call.disable (2 ^ t) 0 ∈ e1.calls.drop demo_armed.calls.length) ∧
          (∀ ops e2, (∀ op ∈ ops, op ≠ Op.get L) → run e1 ops = .ok e2 →
            ∀ c ∈ e2.calls.drop e1.calls.length, ∀ fn priv m i,
              c ≠ Call.func L fn priv m i)) ∧
        (dropped demo_cb demo_armed 1 0 L = false → e1.eventh L = some h)) :=
  ⟨by decide, by decide, by decide,
    drop_on_signal demo_cb 1 0 demo_armed (by decide) (by decide) (by decide)⟩

/-- C9: no delivery after teardown.  For a live (registered) listener of a
registry satisfying the invariant, armed or not, the teardown
`nouveau_event_ref(NULL, &ref)` returns; afterwards every list is the old list
without the listener, the others in their old order, the cell of the listener is
freed, and no later run of operations logs a callback of that listener, whatever
the masks of its dispatches. -/
theorem no_delivery_after_teardown (e : nouveau_event) (hI : Inv e) (a : Nat)
    (h : nouveau_eventh) (ha : e.eventh a = some h) :
    ∃ e1, nouveau_event_ref e none (some a) = .ok (none, e1) ∧
      (∀ j, e1.list.getD j [] = (e.list.getD j []).filter (fun x => x != a)) ∧
      (∀ j, a ∉ e1.list.getD j []) ∧ e1.eventh a = none ∧
      ∀ ops e2, run e1 ops = .ok e2 →
        ∀ c ∈ e2.calls.drop e1.calls.length, ∀ fn priv m i, c ≠ Call.func a fn priv m i := by
  obtain ⟨e1, hr⟩ := ref_total e hI.1 a h ha
  have hI1 := ref_inv e e1 hI a none hr
  obtain ⟨_, h0, x1, _, hp, hy⟩ := ref_effect e e1 hI.1 a none hr
  obtain ⟨_, hlx, _⟩ := put_setup e x1 hI.1 a hp
  have hgd : ∀ j, e1.list.getD j [] = (e.list.getD j []).filter (fun x => x != a) := by
    intro j
    rw [hy]
    simp only
    rw [getD_map_list _ _ (by simp), hlx]
  have hnone : e1.eventh a = none := by
    rw [eventh_of_set_none x1 e1 a (by rw [hy]) a, if_pos rfl]
  have hlen : a < e1.handlers.length := by
    have := eventh_lt e a h ha
    obtain ⟨hx, hxe, _⟩ := put_disarms e x1 hI.1 a h ha hp
    have := eventh_lt x1 a hx hxe
    rw [hy]
    simpa using this
  refine ⟨e1, hr, hgd, ?_, hnone, ?_⟩
  · intro j hm
    rw [hgd j, List.mem_filter] at hm
    simp at hm
  · intro ops e2 hrun
    have hQ : Quiet a e1.calls.length e1 :=
      ⟨hI1, hlen, fun h1 hh => (by rw [hnone] at hh; cases hh), le_refl _, no_callback_base a e1⟩
    exact (freed_run a e1.calls.length ops e1 e2 hQ hnone hrun).1.2.2.2.2

/-- Witness of C9: teardown of the armed listener A. -/
theorem no_delivery_after_teardown_witness :
    Inv demo_armed ∧ demo_armed.eventh 0 = some ⟨1, 5, 0, 7, 8⟩ ∧
    ∃ e1, nouveau_event_ref demo_armed none (some 0) = .ok (none, e1) ∧
      (∀ j, e1.list.getD j [] = (demo_armed.list.getD j []).filter (fun x => x != 0)) ∧
      (∀ j, 0 ∉ e1.list.getD j []) ∧ e1.eventh 0 = none ∧
      ∀ ops e2, run e1 ops = .ok e2 →
        ∀ c ∈ e2.calls.drop e1.calls.length, ∀ fn priv m i, c ≠ Call.func 0 fn priv m i :=
  ⟨by decide, rfl, no_delivery_after_teardown demo_armed (by decide) 0 ⟨1, 5, 0, 7, 8⟩ rfl⟩

/-- C10: teardown releases references.  For a live listener of a well-shaped
registry, `nouveau_event_fini` returns the registry that `nouveau_event_put`
returns with the listener removed from the list of its index; so for an armed
listener each counter of its set bits goes down by 1 and `disable(1 << t,
index)` is logged for those that were 1, and for a disarmed listener no counter
changes and nothing is logged. -/
theorem fini_releases (e : nouveau_event) (hw : wf e) (a : Nat) (h : nouveau_eventh)
    (ha : e.eventh a = some h) :
    ∃ e1, nouveau_event_put e a = .ok e1 ∧
      nouveau_event_fini e a = .ok { e1 with
        list := e1.list.set h.index.toNat ((e1.list.getD h.index.toNat []).erase a) } ∧
      (armed h = false → e1 = e) ∧
      (armed h = true →
        (∀ t, h.types.testBit t = true → ∃ r,
          e.refs[h.index.toNat * e.types_nr.toNat + t]? = some r ∧
          e1.refs[h.index.toNat * e.types_nr.toNat + t]? = some (r - 1)) ∧
        e1.calls = e.calls ++
          (if e.disable then
            ((bits h.types).filter
              (fun t => e.refs[h.index.toNat * e.types_nr.toNat + t]? = some 1)).map
              (fun t => Call.disable (2 ^ t) h.index)
           else [])) := by
  obtain ⟨e1, hp⟩ := put_total e hw a h ha
  refine ⟨e1, hp, fini_eq e e1 hw a h ha hp, ?_, ?_⟩
  · intro hd
    rw [put_disarmed e a h ha hd] at hp
    cases hp
    rfl
  · intro hd
    rw [put_eq e hw a h ha hd] at hp
    cases hp
    refine ⟨(refs_adj_plain e hw a h ha (-1)).1, ?_⟩
    simp only
    rw [fired_plain Call.disable 1 e hw a h ha]

/-- Witness of C10: `nouveau_event_fini` of the armed listener A. -/
theorem fini_releases_witness :
    wf demo_armed ∧ demo_armed.eventh 0 = some ⟨1, 5, 0, 7, 8⟩ ∧
    ∃ e1, nouveau_event_put demo_armed 0 = .ok e1 ∧
      nouveau_event_fini demo_armed 0 = .ok { e1 with
        list := e1.list.set (0 : Int).toNat ((e1.list.getD (0 : Int).toNat []).erase 0) } ∧
      (armed ⟨1, 5, 0, 7, 8⟩ = false → e1 = demo_armed) ∧
      (armed ⟨1, 5, 0, 7, 8⟩ = true →
        (∀ t, (5 : Nat).testBit t = true → ∃ r,
          demo_armed.refs[(0 : Int).toNat * demo_armed.types_nr.toNat + t]? = some r ∧
          e1.refs[(0 : Int).toNat * demo_armed.types_nr.toNat + t]? = some (r - 1)) ∧
        e1.calls = demo_armed.calls ++
          (if demo_armed.disable then
            ((bits 5).filter
              (fun t => demo_armed.refs[(0 : Int).toNat * demo_armed.types_nr.toNat + t]?
                = some 1)).map
              (fun t => Call.disable (2 ^ t) 0)
           else [])) :=
  ⟨by decide, rfl, fini_releases demo_armed (by decide) 0 ⟨1, 5, 0, 7, 8⟩ rfl⟩

/-! ### Registration: failures and validation -/

/-- `nouveau_event_init` returns 0 or `-EINVAL`; when it fails it has written
nothing. -/
theorem init_nonzero (e e2 : nouveau_event) (types : Nat) (index : Int) (func priv handler : Nat)
    (ret : Int) (h : nouveau_event_init e types index func priv handler = .ok (ret, e2))
    (hr : ret ≠ 0) : ret = -EINVAL ∧ e2 = e := by
  unfold nouveau_event_init at h
  split at h
  · cases h
  · split at h
    · cases h; exact ⟨rfl, rfl⟩
    · split at h
      · cases h; exact ⟨rfl, rfl⟩
      · split at h
        · cases h
        · split at h
          · cases h
          · simp only at h
            split at h
            · cases h
            · simp only [Except.ok.injEq, Prod.mk.injEq] at h
              exact absurd h.1.symm hr

theorem eventh_append_none (e e1 : nouveau_event) (hh : e1.handlers = e.handlers ++ [none])
    (b : Nat) : e1.eventh b = e.eventh b := by
  rw [eventh_append e e1 none hh b]
  by_cases hb : b < e.handlers.length
  · simp [hb]
  · have : e.eventh b = none := by
      cases hx : e.eventh b with
      | none => rfl
      | some h => exact absurd (eventh_lt e b h hx) hb
    rw [this]; simp

/-- A registration that returns a non-zero value leaves the registry as it was,
up to the logged admission call and a freed cell. -/
theorem new_failed (check : Nat → Int → Int) (km : Bool) (e e1 : nouveau_event)
    (types : Nat) (index : Int) (func priv : Nat) (ret : Int) (ph : Option Nat)
    (h : nouveau_event_new check km e types index func priv = .ok (ret, ph, e1))
    (hr : ret ≠ 0) :
    e1.list = e.list ∧ e1.refs = e.refs ∧ setup e1 = setup e ∧
    (∀ a, e1.eventh a = e.eventh a) ∧
    e1.calls = e.calls ++ (if e.check then [Call.check (types % 4294967296) index] else []) := by
  have fin : ∀ e0 : nouveau_event, e0.list = e.list → e0.refs = e.refs → setup e0 = setup e →
      e0.handlers = e.handlers →
      e0.calls = e.calls ++ (if e.check then [Call.check (types % 4294967296) index] else []) →
      (match nouveau_event_init { e0 with handlers := e0.handlers ++ [some ⟨0, 0, 0, 0, 0⟩] }
        (types % 4294967296) index func priv e0.handlers.length with
      | .error x => Except.error x
      | .ok (ret1, event2) =>
        if ret1 ≠ 0 then .ok (ret1, some e0.handlers.length, kfree event2 e0.handlers.length)
        else .ok (ret1, some e0.handlers.length, event2)) = Except.ok (ret, ph, e1) →
      e1.list = e.list ∧ e1.refs = e.refs ∧ setup e1 = setup e ∧
      (∀ a, e1.eventh a = e.eventh a) ∧
      e1.calls = e.calls ++
        (if e.check then [Call.check (types % 4294967296) index] else []) := by
    intro e0 f1 f2 f3 f4 f5 hm
    cases hinit : nouveau_event_init { e0 with handlers := e0.handlers ++ [some ⟨0, 0, 0, 0, 0⟩] }
        (types % 4294967296) index func priv e0.handlers.length with
    | error x => rw [hinit] at hm; cases hm
    | ok r =>
      rw [hinit] at hm
      obtain ⟨ret1, e2⟩ := r
      simp only at hm
      by_cases hne : ret1 ≠ 0
      · rw [if_pos hne] at hm
        simp only [Except.ok.injEq, Prod.mk.injEq] at hm
        obtain ⟨m1, m2, m3⟩ := hm
        obtain ⟨_, he2⟩ := init_nonzero _ e2 _ _ _ _ _ ret1 hinit hne
        subst m1 m2 m3 he2
        refine ⟨f1, f2, f3, ?_, f5⟩
        intro a
        apply eventh_append_none e
        show (e0.handlers ++ [some (nouveau_eventh.mk 0 0 0 0 0)]).set e0.handlers.length none = _
        rw [set_append_last, f4]
      · rw [if_neg hne] at hm
        simp only [Except.ok.injEq, Prod.mk.injEq] at hm
        exact absurd (hm.1 ▸ (by simpa using hne)) hr
  unfold nouveau_event_new at h
  obtain ⟨ck, en, di, n, N, l, r, hs, cs⟩ := e
  cases ck with
  | false =>
    simp only [Bool.false_eq_true, if_false, false_and] at h
    cases km with
    | false =>
      simp only [Bool.false_eq_true, if_false, Except.ok.injEq, Prod.mk.injEq] at h
      obtain ⟨m1, m2, m3⟩ := h
      subst m1 m2 m3
      exact ⟨rfl, rfl, rfl, fun _ => rfl, by simp⟩
    | true =>
      simp only [if_true] at h
      exact fin (⟨false, en, di, n, N, l, r, hs, cs⟩ : nouveau_event)
        rfl rfl rfl rfl (by simp) h
  | true =>
    simp only [if_true, true_and] at h
    by_cases hret : check (types % 4294967296) index = 0
    · simp only [hret, ne_eq, not_true_eq_false, if_false] at h
      cases km with
      | false =>
        simp only [Bool.false_eq_true, if_false, Except.ok.injEq, Prod.mk.injEq] at h
        exact absurd h.1.symm hr
      | true =>
        simp only [if_true] at h
        exact fin ((⟨true, en, di, n, N, l, r, hs, cs⟩ : nouveau_event).log
          (Call.check (types % 4294967296) index)) rfl rfl rfl rfl
          (by simp [nouveau_event.log]) h
    · simp only [ne_eq, hret, not_false_eq_true, if_true, Except.ok.injEq, Prod.mk.injEq] at h
      obtain ⟨m1, m2, m3⟩ := h
      subst m1 m2 m3
      exact ⟨rfl, rfl, rfl, fun _ => rfl, by simp [nouveau_event.log]⟩

/-- An admission denial is returned verbatim, before anything else is done. -/
theorem new_denied (check : Nat → Int → Int) (km : Bool) (e : nouveau_event)
    (types : Nat) (index : Int) (func priv : Nat) (hck : e.check = true)
    (hd : check (types % 4294967296) index ≠ 0) :
    nouveau_event_new check km e types index func priv =
      .ok (check (types % 4294967296) index, none,
        e.log (Call.check (types % 4294967296) index)) := by
  unfold nouveau_event_new
  simp only [hck, if_true, true_and]
  rw [if_pos hd]

/-- Without an admission function an allocation failure returns `-ENOMEM`. -/
theorem new_nomem (check : Nat → Int → Int) (e : nouveau_event)
    (types : Nat) (index : Int) (func priv : Nat) (hck : e.check = false) :
    nouveau_event_new check false e types index func priv = .ok (-ENOMEM, none, e) := by
  unfold nouveau_event_new
  simp [hck]

/-- What `nouveau_event_init` answers on a registry of valid width. -/
theorem init_invalid (e : nouveau_event) (types : Nat) (index : Int) (func priv handler : Nat)
    (hn0 : 0 ≤ e.types_nr) (hn1 : e.types_nr ≤ 31) (ht : types < 4294967296)
    (hbad : ¬ types < 2 ^ e.types_nr.toNat ∨ e.index_nr ≤ index) :
    nouveau_event_init e types index func priv handler = .ok (-EINVAL, e) := by
  unfold nouveau_event_init
  have hw : ¬ (e.types_nr < 0 ∨ 32 ≤ e.types_nr) := by omega
  rw [if_neg hw]
  have hm := width_mask_zero_iff e.types_nr.toNat types (by omega) ht
  by_cases hmask : types &&& u32 (bnot (s32 (s32 (2 ^ e.types_nr.toNat) - 1))) = 0
  · rw [if_neg (by simpa using hmask)]
    rcases hbad with hb | hb
    · exact absurd (hm.1 hmask) hb
    · rw [if_pos hb]
  · rw [if_pos hmask]

/-- A negative index passes the range test of `nouveau_event_init` and reaches
`event->list[index]`. -/
theorem init_negative (e : nouveau_event) (types : Nat) (index : Int) (func priv handler : Nat)
    (hn0 : 0 ≤ e.types_nr) (hn1 : e.types_nr ≤ 31) (hN : 0 ≤ e.index_nr)
    (ht : types < 4294967296) (hmask : types < 2 ^ e.types_nr.toNat) (hneg : index < 0) :
    nouveau_event_init e types index func priv handler = .error Fault.invalid := by
  unfold nouveau_event_init
  have hw : ¬ (e.types_nr < 0 ∨ 32 ≤ e.types_nr) := by omega
  rw [if_neg hw]
  have hm := width_mask_zero_iff e.types_nr.toNat types (by omega) ht
  rw [if_neg (by simpa using hm.2 hmask), if_neg (by omega)]
  cases e.eventh handler with
  | none => rfl
  | some x => simp only [hneg, if_true]

/-- When admission passes and the allocation succeeds, `nouveau_event_new` is
`nouveau_event_init` on the new object, which is freed if that fails. -/
theorem new_pass_eq (check : Nat → Int → Int) (e : nouveau_event)
    (types : Nat) (index : Int) (func priv : Nat)
    (hpass : e.check = false ∨ check (types % 4294967296) index = 0) :
    nouveau_event_new check true e types index func priv =
      (match nouveau_event_init
          { (if e.check then e.log (Call.check (types % 4294967296) index) else e) with
            handlers := (if e.check then e.log (Call.check (types % 4294967296) index)
              else e).handlers ++ [some ⟨0, 0, 0, 0, 0⟩] }
          (types % 4294967296) index func priv
          (if e.check then e.log (Call.check (types % 4294967296) index) else e).handlers.length with
      | .error x => Except.error x
      | .ok (ret1, event2) =>
        if ret1 ≠ 0 then .ok (ret1,
          some (if e.check then e.log (Call.check (types % 4294967296) index)
            else e).handlers.length,
          kfree event2 (if e.check then e.log (Call.check (types % 4294967296) index)
            else e).handlers.length)
        else .ok (ret1,
          some (if e.check then e.log (Call.check (types % 4294967296) index)
            else e).handlers.length, event2)) := by
  unfold nouveau_event_new
  have hno : ¬ (e.check = true ∧
      (if e.check = true then check (types % 4294967296) index else -ENOMEM) ≠ 0) := by
    rintro ⟨h1, h2⟩
    rw [if_pos h1] at h2
    rcases hpass with hp | hp
    · rw [h1] at hp; cases hp
    · exact h2 hp
  simp only [hno, if_false, if_true]

/-- An invalid mask or an index at or above `index_nr` is answered `-EINVAL`. -/
theorem new_invalid_arg (check : Nat → Int → Int) (e : nouveau_event)
    (types : Nat) (index : Int) (func priv : Nat) (hn0 : 0 ≤ e.types_nr) (hn1 : e.types_nr ≤ 31)
    (hpass : e.check = false ∨ check (types % 4294967296) index = 0)
    (hbad : ¬ types % 4294967296 < 2 ^ e.types_nr.toNat ∨ e.index_nr ≤ index) :
    ret_of (nouveau_event_new check true e types index func priv) = some (-EINVAL) := by
  rw [new_pass_eq check e types index func priv hpass]
  rw [init_invalid _ (types % 4294967296) index func priv _
    (by split <;> exact hn0) (by split <;> exact hn1) (Nat.mod_lt _ (by norm_num))
    (by split <;> exact hbad)]
  have hne : (-EINVAL : Int) ≠ 0 := by unfold EINVAL; decide
  simp only [hne, ne_eq, not_false_eq_true, if_true]
  rfl

/-- A negative index with a valid mask is not rejected: the call reaches
`event->list[index]` outside the array. -/
theorem new_negative (check : Nat → Int → Int) (e : nouveau_event)
    (types : Nat) (index : Int) (func priv : Nat) (hn0 : 0 ≤ e.types_nr) (hn1 : e.types_nr ≤ 31)
    (hN : 0 ≤ e.index_nr)
    (hpass : e.check = false ∨ check (types % 4294967296) index = 0)
    (hmask : types % 4294967296 < 2 ^ e.types_nr.toNat) (hneg : index < 0) :
    nouveau_event_new check true e types index func priv = .error Fault.invalid := by
  rw [new_pass_eq check e types index func priv hpass]
  rw [init_negative _ (types % 4294967296) index func priv _
    (by split <;> exact hn0) (by split <;> exact hn1) (by split <;> exact hN)
    (Nat.mod_lt _ (by norm_num)) (by split <;> exact hmask) hneg]

/-- What `nouveau_event_init` does with valid arguments. -/
theorem init_valid (e : nouveau_event) (types : Nat) (index : Int) (func priv handler : Nat)
    (x : nouveau_eventh) (hn0 : 0 ≤ e.types_nr) (hn1 : e.types_nr ≤ 31)
    (hlen : e.list.length = e.index_nr.toNat) (ht : types < 4294967296)
    (hx : e.eventh handler = some x) (hmask : types < 2 ^ e.types_nr.toNat)
    (h0 : 0 ≤ index) (h1 : index < e.index_nr) :
    nouveau_event_init e types index func priv handler = .ok (0, { e with
      handlers := e.handlers.set handler (some ⟨0, types, index, func, priv⟩),
      list := e.list.set index.toNat (e.list.getD index.toNat [] ++ [handler]) }) := by
  cases hres : nouveau_event_init e types index func priv handler with
  | ok r =>
    obtain ⟨ret, e2⟩ := r
    rcases init_effect e e2 types index func priv handler ret x hn0 hn1 (by omega) hlen ht hx hres
      with ⟨_, _, hbad⟩ | ⟨hr, _, _, _, he2⟩
    · rcases hbad with hb | hb
      · exact absurd hmask hb
      · omega
    · rw [hr, he2]
  | error f =>
    exfalso
    unfold nouveau_event_init at hres
    have hwd : ¬ (e.types_nr < 0 ∨ 32 ≤ e.types_nr) := by omega
    have hm := width_mask_zero_iff e.types_nr.toNat types (by omega) ht
    rw [if_neg hwd, if_neg (by simpa using hm.2 hmask), if_neg (by omega), hx] at hres
    simp only [not_lt.2 h0, if_false, nouveau_event.store] at hres
    have hil : index.toNat < e.list.length := by omega
    rw [List.getElem?_eq_getElem hil] at hres
    cases hres

/-- A valid mask and an index in `[0, index_nr)` are accepted. -/
theorem new_valid (check : Nat → Int → Int) (e : nouveau_event)
    (types : Nat) (index : Int) (func priv : Nat) (hw : wf e)
    (hpass : e.check = false ∨ check (types % 4294967296) index = 0)
    (hmask : types % 4294967296 < 2 ^ e.types_nr.toNat) (h0 : 0 ≤ index)
    (h1 : index < e.index_nr) :
    ∃ e1, nouveau_event_new check true e types index func priv =
      .ok (0, some e.handlers.length, e1) := by
  obtain ⟨w1, w2, w3, _, w5, _⟩ := hw
  rw [new_pass_eq check e types index func priv hpass]
  have key : ∀ e0 : nouveau_event, e0.types_nr = e.types_nr → e0.index_nr = e.index_nr →
      e0.list = e.list → e0.handlers = e.handlers →
      ∃ e1, (match nouveau_event_init
          { e0 with handlers := e0.handlers ++ [some ⟨0, 0, 0, 0, 0⟩] }
          (types % 4294967296) index func priv e0.handlers.length with
        | .error x => Except.error x
        | .ok (ret1, event2) =>
          if ret1 ≠ 0 then .ok (ret1, some e0.handlers.length, kfree event2 e0.handlers.length)
          else .ok (ret1, some e0.handlers.length, event2)) =
        (.ok (0, some e.handlers.length, e1) :
          Except Fault (Int × Option Nat × nouveau_event)) := by
    intro e0 q1 q2 q3 q4
    have hlive : ({ e0 with handlers := e0.handlers ++ [some ⟨0, 0, 0, 0, 0⟩] } :
        nouveau_event).eventh e0.handlers.length = some ⟨0, 0, 0, 0, 0⟩ := by
      unfold nouveau_event.eventh
      simp
    rw [init_valid { e0 with handlers := e0.handlers ++ [some ⟨0, 0, 0, 0, 0⟩] }
      (types % 4294967296) index func priv e0.handlers.length ⟨0, 0, 0, 0, 0⟩
      (by rw [q1]; exact w1) (by rw [q1]; exact w2) (by rw [q3, q2]; exact w5)
      (Nat.mod_lt _ (by norm_num)) hlive (by rw [q1]; exact hmask) h0
      (by rw [q2]; exact h1)]
    simp only [ne_eq, not_true_eq_false, if_false]
    rw [q4]
    exact ⟨_, rfl⟩
  exact key _ (by split <;> rfl) (by split <;> rfl) (by split <;> rfl) (by split <;> rfl)

theorem trigger_above (cb : Nat → Nat → Nat → Nat → Int → Int) (e : nouveau_event) (types : Nat)
    (index : Int) (h : e.index_nr ≤ index) :
    nouveau_event_trigger cb e types index = .ok (e.log Call.WARN) := by
  unfold nouveau_event_trigger
  rw [if_pos h]

theorem trigger_negative (cb : Nat → Nat → Nat → Nat → Int → Int) (e : nouveau_event)
    (types : Nat) (index : Int) (hN : 0 ≤ e.index_nr) (h : index < 0) :
    nouveau_event_trigger cb e types index = .error Fault.invalid := by
  unfold nouveau_event_trigger
  rw [if_neg (by omega), if_pos h]

theorem ref_bug (e : nouveau_event) (x : Nat) (r : Option Nat) :
    nouveau_event_ref e (some x) r = .error Fault.BUG := by
  unfold nouveau_event_ref
  simp

theorem ref_none (e : nouveau_event) : nouveau_event_ref e none none = .ok (none, e) := by
  unfold nouveau_event_ref
  simp

/-! ### Registered fields are never rewritten -/

theorem later_refl (e : nouveau_event) : Later e e :=
  ⟨le_refl _, fun _ h1 _ h => ⟨h1, h, rfl, rfl, rfl, rfl⟩⟩

theorem later_trans (e y z : nouveau_event) (h1 : Later e y) (h2 : Later y z) : Later e z := by
  refine ⟨le_trans h1.1 h2.1, ?_⟩
  intro a hz ha hza
  obtain ⟨hy, hya, s1, s2, s3, s4⟩ := h2.2 a hz (lt_of_lt_of_le ha h1.1) hza
  obtain ⟨he, hea, t1, t2, t3, t4⟩ := h1.2 a hy ha hya
  exact ⟨he, hea, s1.trans t1, s2.trans t2, s3.trans t3, s4.trans t4⟩

/-- States with the same heap. -/
theorem later_of_eventh (e z : nouveau_event) (hlen : e.handlers.length ≤ z.handlers.length)
    (hev : ∀ a, a < e.handlers.length → z.eventh a = e.eventh a) : Later e z := by
  refine ⟨hlen, ?_⟩
  intro a h1 ha hz
  rw [hev a ha] at hz
  exact ⟨h1, hz, rfl, rfl, rfl, rfl⟩

/-- Rewriting the flags of one live listener. -/
theorem later_of_flags (e z : nouveau_event) (a : Nat) (h : nouveau_eventh) (f : Nat)
    (ha : e.eventh a = some h)
    (hh : z.handlers = e.handlers.set a (some { h with flags := f })) : Later e z := by
  have hev := eventh_of_set e z a h { h with flags := f } ha hh
  refine ⟨by rw [hh, List.length_set], ?_⟩
  intro b h1 _ hz
  rw [hev b] at hz
  by_cases hb : b = a
  · subst hb
    rw [if_pos rfl] at hz
    cases hz
    exact ⟨h, ha, rfl, rfl, rfl, rfl⟩
  · rw [if_neg hb] at hz
    exact ⟨h1, hz, rfl, rfl, rfl, rfl⟩

theorem later_put (e e1 : nouveau_event) (hw : wf e) (a : Nat)
    (hp : nouveau_event_put e a = .ok e1) : Later e e1 := by
  obtain ⟨h, ha, hc⟩ := put_cases e e1 hw a hp
  rcases hc with ⟨_, rfl⟩ | ⟨_, hy⟩
  · exact later_refl _
  · exact later_of_flags e e1 a h _ ha (by rw [hy])

theorem later_get (e e1 : nouveau_event) (hw : wf e) (a : Nat)
    (hp : nouveau_event_get e a = .ok e1) : Later e e1 := by
  obtain ⟨h, ha, hc⟩ := get_cases e e1 hw a hp
  rcases hc with ⟨_, rfl⟩ | ⟨_, hy⟩
  · exact later_refl _
  · exact later_of_flags e e1 a h _ ha (by rw [hy])

theorem eventh_append_lt (e e1 : nouveau_event) (x : Option nouveau_eventh)
    (hh : e1.handlers = e.handlers ++ [x]) (a : Nat) (ha : a < e.handlers.length) :
    e1.eventh a = e.eventh a := by
  unfold nouveau_event.eventh
  rw [hh, List.getD_eq_getElem?_getD, List.getD_eq_getElem?_getD, List.getElem?_append_left ha]

theorem later_new (check : Nat → Int → Int) (km : Bool) (e e1 : nouveau_event)
    (types : Nat) (index : Int) (func priv : Nat) (ret : Int) (ph : Option Nat) (hw : wf e)
    (h : nouveau_event_new check km e types index func priv = .ok (ret, ph, e1)) :
    Later e e1 := by
  obtain ⟨_, _, _, _, _, _, _, hc⟩ := new_effect check km e e1 types index func priv ret ph hw h
  rcases hc with ⟨_, hh, _⟩ | ⟨_, hh, _⟩ | ⟨_, _, _, _, _, hh, _⟩
  · exact later_of_eventh e e1 (by rw [hh]) (fun a _ => by unfold nouveau_event.eventh; rw [hh])
  · exact later_of_eventh e e1 (by rw [hh, List.length_append]; omega)
      (fun a ha => eventh_append_lt e e1 _ hh a ha)
  · exact later_of_eventh e e1 (by rw [hh, List.length_append]; omega)
      (fun a ha => eventh_append_lt e e1 _ hh a ha)

theorem later_ref (e e2 : nouveau_event) (hw : wf e) (a : Nat) (r : Option Nat)
    (h : nouveau_event_ref e none (some a) = .ok (r, e2)) : Later e e2 := by
  obtain ⟨_, h0, e1, ha, hp, he2⟩ := ref_effect e e2 hw a r h
  have h1 := later_put e e1 hw a hp
  refine later_trans e e1 e2 h1 ⟨by rw [he2]; simp, ?_⟩
  intro b hb hlt hz
  have hev := eventh_of_set_none e1 e2 a (by rw [he2]) b
  rw [hev] at hz
  by_cases hba : b = a
  · rw [if_pos hba] at hz
    cases hz
  · rw [if_neg hba] at hz
    exact ⟨hb, hz, rfl, rfl, rfl, rfl⟩

theorem later_trigger (cb : Nat → Nat → Nat → Nat → Int → Int) (types : Nat) (index : Int)
    (e e1 : nouveau_event) (hI : Inv e) (h : nouveau_event_trigger cb e types index = .ok e1) :
    Later e e1 := by
  have := trigger_keeps_live (fun x => Inv x ∧ Later e x)
    (fun x a x1 hx hp =>
      ⟨put_inv x x1 a hx.1 hp, later_trans e x x1 hx.2 (later_put x x1 hx.1.1 a hp)⟩)
    (fun x a h m i hx _ _ =>
      ⟨Inv_log x _ hx.1, later_trans e x _ hx.2 (later_of_eventh x _ (le_refl _) (fun _ _ => rfl))⟩)
    (fun x hx =>
      ⟨Inv_log x _ hx.1, later_trans e x _ hx.2 (later_of_eventh x _ (le_refl _) (fun _ _ => rfl))⟩)
    cb types index e e1 ⟨hI, later_refl e⟩ h
  exact this.2

theorem later_step (e e1 : nouveau_event) (op : Op) (hI : Inv e) (h : step e op = .ok e1) :
    Later e e1 := by
  rcases step_cases e e1 op h with ⟨check, km, types, index, func, priv, ret, ph, _, hn⟩ |
    ⟨a, _, hg⟩ | ⟨a, _, hp⟩ | ⟨a, r, _, hr⟩ | ⟨cb, types, index, _, ht⟩
  · exact later_new check km e e1 types index func priv ret ph hI.1 hn
  · exact later_get e e1 hI.1 a hg
  · exact later_put e e1 hI.1 a hp
  · exact later_ref e e1 hI.1 a r hr
  · exact later_trigger cb types index e e1 hI ht

theorem later_run (ops : List Op) (e e1 : nouveau_event) (hI : Inv e) (h : run e ops = .ok e1) :
    Later e e1 :=
  (run_keeps (fun x => Inv x ∧ Later e x) (fun _ => True)
    (fun x op x1 _ hx hs =>
      ⟨step_inv x x1 op hx.1 hs, later_trans e x x1 hx.2 (later_step x x1 op hx.1 hs)⟩)
    ops e e1 (fun _ _ => trivial) ⟨hI, later_refl e⟩ h).2

/-- A successful registration writes its arguments into the new listener. -/
theorem new_registers (check : Nat → Int → Int) (km : Bool) (e e1 : nouveau_event)
    (types : Nat) (index : Int) (func priv : Nat) (a : Nat) (hw : wf e)
    (h : nouveau_event_new check km e types index func priv = .ok (0, some a, e1)) :
    a = e.handlers.length ∧
    e1.eventh a = some ⟨0, types % 4294967296, index, func, priv⟩ ∧
    0 ≤ index ∧ a ∈ e1.list.getD index.toNat [] := by
  obtain ⟨_, _, _, _, _, _, _, hc⟩ := new_effect check km e e1 types index func priv 0 (some a) hw h
  rcases hc with ⟨hx, _, _⟩ | ⟨hx, _, _⟩ | ⟨_, hph, h0, h1, _, hh, hl⟩
  · rcases hx with hx | hx
    · exact absurd rfl hx
    · cases hx
  · unfold EINVAL at hx
    cases hx
  · cases hph
    refine ⟨rfl, ?_, h0, ?_⟩
    · unfold nouveau_event.eventh
      rw [hh, List.getD_eq_getElem?_getD, List.getElem?_append_right (le_refl _)]
      simp
    · have hlen : index.toNat < e.list.length := by rw [hw.2.2.2.2.1]; omega
      rw [hl, List.getD_eq_getElem?_getD, List.getElem?_set_self hlen]
      simp

/-! ### Counter slots from the dimensions alone -/

theorem locks_after_append (nest : Bool) (tr1 tr2 : List Ev) : ∀ held : List Lock,
    locks_after nest held (tr1 ++ tr2) =
      (locks_after nest held tr1).bind (fun h => locks_after nest h tr2) := by
  induction tr1 with
  | nil => intro held; rfl
  | cons ev tr ih =>
    intro held
    rw [List.cons_append]
    cases ev with
    | call c => simp only [locks_after]; exact ih held
    | spin_lock_irqsave l =>
      cases l with
      | list_lock =>
        simp only [locks_after]
        split
        · exact ih _
        · rfl
      | refs_lock =>
        simp only [locks_after]
        split
        · exact ih _
        · rfl
    | spin_unlock_irqrestore l =>
      cases held with
      | nil => rfl
      | cons l0 rest =>
        simp only [locks_after]
        split
        · exact ih _
        · rfl

theorem locks_after_calls (nest : Bool) (held : List Lock) (cs : List Call) :
    locks_after nest held (cs.map Ev.call) = some held := by
  induction cs with
  | nil => rfl
  | cons c cs ih => simp only [List.map_cons, locks_after]; exact ih

/-- A section under `refs_lock` entered with no lock held. -/
theorem refs_section_flat (nest : Bool) (cs : List Call) :
    locks_after nest [] ([Ev.spin_lock_irqsave Lock.refs_lock] ++ cs.map Ev.call ++
      [Ev.spin_unlock_irqrestore Lock.refs_lock]) = some [] := by
  rw [List.append_assoc, List.singleton_append]
  simp only [locks_after, true_or, if_true]
  rw [locks_after_append, locks_after_calls]
  simp [locks_after]

/-- A section under `refs_lock` entered with `list_lock` held. -/
theorem refs_section_nested (cs : List Call) :
    locks_after true [Lock.list_lock] ([Ev.spin_lock_irqsave Lock.refs_lock] ++ cs.map Ev.call ++
      [Ev.spin_unlock_irqrestore Lock.refs_lock]) = some [Lock.list_lock] := by
  rw [List.append_assoc, List.singleton_append]
  simp only [locks_after, and_self, or_true, if_true]
  rw [locks_after_append, locks_after_calls]
  simp [locks_after]

/-- The two shapes of a trace of `nouveau_event_put`. -/
theorem put_trace_shape (e e1 : nouveau_event) (a : Nat) (tr : List Ev)
    (h : nouveau_event_put_trace e a = .ok (e1, tr)) :
    tr = [] ∨ tr = [Ev.spin_lock_irqsave Lock.refs_lock] ++ (calls_since e e1).map Ev.call ++
      [Ev.spin_unlock_irqrestore Lock.refs_lock] := by
  unfold nouveau_event_put_trace at h
  cases ha : e.eventh a with
  | none => rw [ha] at h; cases h
  | some x =>
    rw [ha] at h
    simp only at h
    split at h
    · cases h; exact Or.inl rfl
    · split at h
      · cases h
      · cases h; exact Or.inr rfl

/-- The two shapes of a trace of `nouveau_event_get`. -/
theorem get_trace_shape (e e1 : nouveau_event) (a : Nat) (tr : List Ev)
    (h : nouveau_event_get_trace e a = .ok (e1, tr)) :
    tr = [] ∨ tr = [Ev.spin_lock_irqsave Lock.refs_lock] ++ (calls_since e e1).map Ev.call ++
      [Ev.spin_unlock_irqrestore Lock.refs_lock] := by
  unfold nouveau_event_get_trace at h
  cases ha : e.eventh a with
  | none => rw [ha] at h; cases h
  | some x =>
    rw [ha] at h
    simp only at h
    split at h
    · cases h; exact Or.inl rfl
    · split at h
      · cases h
      · cases h; exact Or.inr rfl

theorem put_trace_flat (nest : Bool) (e e1 : nouveau_event) (a : Nat) (tr : List Ev)
    (h : nouveau_event_put_trace e a = .ok (e1, tr)) : locks_after nest [] tr = some [] := by
  rcases put_trace_shape e e1 a tr h with rfl | rfl
  · rfl
  · exact refs_section_flat nest _

theorem get_trace_flat (nest : Bool) (e e1 : nouveau_event) (a : Nat) (tr : List Ev)
    (h : nouveau_event_get_trace e a = .ok (e1, tr)) : locks_after nest [] tr = some [] := by
  rcases get_trace_shape e e1 a tr h with rfl | rfl
  · rfl
  · exact refs_section_flat nest _

theorem put_trace_nested (e e1 : nouveau_event) (a : Nat) (tr : List Ev)
    (h : nouveau_event_put_trace e a = .ok (e1, tr)) :
    locks_after true [Lock.list_lock] tr = some [Lock.list_lock] := by
  rcases put_trace_shape e e1 a tr h with rfl | rfl
  · rfl
  · exact refs_section_nested _

/-- No step of a trace of `nouveau_event_put` touches `list_lock`. -/
theorem put_trace_no_list_lock (e e1 : nouveau_event) (a : Nat) (tr : List Ev)
    (h : nouveau_event_put_trace e a = .ok (e1, tr)) :
    ∀ ev ∈ tr, ev ≠ Ev.spin_lock_irqsave Lock.list_lock ∧
      ev ≠ Ev.spin_unlock_irqrestore Lock.list_lock := by
  rcases put_trace_shape e e1 a tr h with rfl | rfl
  · intro ev hev; cases hev
  · intro ev hev
    simp only [List.mem_append, List.mem_singleton, List.mem_map] at hev
    rcases hev with (rfl | ⟨c, _, rfl⟩) | rfl
    · exact ⟨(by intro hx; cases hx), (by intro hx; cases hx)⟩
    · exact ⟨(by intro hx; cases hx), (by intro hx; cases hx)⟩
    · exact ⟨(by intro hx; cases hx), (by intro hx; cases hx)⟩

/-- The calls of a trace of `nouveau_event_put` are the calls it logged. -/
theorem put_trace_calls (e e1 : nouveau_event) (a : Nat) (tr : List Ev)
    (h : nouveau_event_put_trace e a = .ok (e1, tr)) :
    tr.filterMap Ev.call? = calls_since e e1 := by
  unfold nouveau_event_put_trace at h
  cases ha : e.eventh a with
  | none => rw [ha] at h; cases h
  | some x =>
    rw [ha] at h
    simp only at h
    split at h
    · cases h
      unfold calls_since
      rw [List.drop_length]
      rfl
    · split at h
      · cases h
      · cases h
        simp only [List.filterMap_append, List.filterMap_cons, List.filterMap_nil, Ev.call?,
          List.nil_append, List.append_nil, List.filterMap_map]
        have : (Ev.call? ∘ Ev.call) = some := rfl
        rw [this, List.filterMap_some]

/-! ### The traced operations return what the operations return -/

theorem put_untraced (e : nouveau_event) (a : Nat) :
    untraced (nouveau_event_put_trace e a) = nouveau_event_put e a := by
  unfold nouveau_event_put_trace nouveau_event_put
  cases e.eventh a with
  | none => rfl
  | some x =>
    simp only
    split
    · rfl
    · cases put_loop x.index 33 x.types
        (e.store a { x with flags := __clear_bit NVKM_EVENT_ENABLE x.flags }) <;> rfl

theorem get_untraced (e : nouveau_event) (a : Nat) :
    untraced (nouveau_event_get_trace e a) = nouveau_event_get e a := by
  unfold nouveau_event_get_trace nouveau_event_get
  cases e.eventh a with
  | none => rfl
  | some x =>
    simp only
    split
    · rfl
    · cases get_loop x.index 33 x.types
        (e.store a { x with flags := __set_bit NVKM_EVENT_ENABLE x.flags }) <;> rfl

theorem untraced_ok {α : Type} (x : Except Fault (α × List Ev)) (r : α) (tr : List Ev)
    (h : x = .ok (r, tr)) : untraced x = .ok r := by
  rw [h]; rfl

theorem untraced_error {α : Type} (x : Except Fault (α × List Ev)) (f : Fault)
    (h : x = .error f) : untraced x = .error f := by
  rw [h]; rfl

theorem fini_untraced (e : nouveau_event) (a : Nat) :
    untraced (nouveau_event_fini_trace e a) = nouveau_event_fini e a := by
  unfold nouveau_event_fini_trace nouveau_event_fini
  rw [← put_untraced e a]
  cases nouveau_event_put_trace e a with
  | error f => rfl
  | ok r =>
    obtain ⟨e1, tr⟩ := r
    simp only [untraced]
    cases list_del e1 a <;> rfl

theorem init_untraced (e : nouveau_event) (types : Nat) (index : Int) (func priv a : Nat) :
    untraced (nouveau_event_init_trace e types index func priv a) =
      nouveau_event_init e types index func priv a := by
  unfold nouveau_event_init_trace nouveau_event_init
  split
  · rfl
  · split
    · rfl
    · split
      · rfl
      · cases e.eventh a with
        | none => rfl
        | some x =>
          simp only
          split
          · rfl
          · generalize (e.store a (nouveau_eventh.mk 0 types index func priv)).list[index.toNat]?
              = o
            cases o <;> rfl

theorem ref_untraced (e : nouveau_event) (x r : Option Nat) :
    untraced (nouveau_event_ref_trace e x r) = nouveau_event_ref e x r := by
  unfold nouveau_event_ref_trace nouveau_event_ref
  split
  · rfl
  · cases r with
    | none => rfl
    | some a =>
      simp only
      rw [← fini_untraced e a]
      cases nouveau_event_fini_trace e a with
      | error f => rfl
      | ok r => rfl

/-! ### Traces of registration and dispatch -/

/-- The two shapes of a trace of `nouveau_event_init`. -/
theorem init_trace_shape (e : nouveau_event) (types : Nat) (index : Int) (func priv a : Nat)
    (r : Int × nouveau_event) (tr : List Ev)
    (h : nouveau_event_init_trace e types index func priv a = .ok (r, tr)) :
    tr = [] ∨
      tr = [Ev.spin_lock_irqsave Lock.list_lock, Ev.spin_unlock_irqrestore Lock.list_lock] := by
  unfold nouveau_event_init_trace at h
  split at h
  · cases h
  · split at h
    · cases h; exact Or.inl rfl
    · split at h
      · cases h; exact Or.inl rfl
      · cases hx : e.eventh a with
        | none => rw [hx] at h; cases h
        | some x =>
          rw [hx] at h
          simp only at h
          split at h
          · cases h
          · split at h
            · cases h
            · cases h; exact Or.inr rfl

theorem init_trace_flat (nest : Bool) (e : nouveau_event) (types : Nat) (index : Int)
    (func priv a : Nat) (r : Int × nouveau_event) (tr : List Ev)
    (h : nouveau_event_init_trace e types index func priv a = .ok (r, tr)) :
    locks_after nest [] tr = some [] := by
  rcases init_trace_shape e types index func priv a r tr h with rfl | rfl
  · rfl
  · simp [locks_after]

/-- The shape of a trace of `nouveau_event_new`: the admission call, when one
is configured, comes first; the rest is a trace of `nouveau_event_init`. -/
theorem new_trace_shape (check : Nat → Int → Int) (km : Bool) (e : nouveau_event)
    (types : Nat) (index : Int) (func priv : Nat) (r : Int × Option Nat × nouveau_event)
    (tr : List Ev)
    (h : nouveau_event_new_trace check km e types index func priv = .ok (r, tr)) :
    ∃ tr1, tr = (if e.check then [Ev.call (Call.check (types % 4294967296) index)] else []) ++ tr1 ∧
      (tr1 = [] ∨
        tr1 = [Ev.spin_lock_irqsave Lock.list_lock, Ev.spin_unlock_irqrestore Lock.list_lock]) := by
  have fin : ∀ (e0 : nouveau_event) (tr0 : List Ev) (r : Int × Option Nat × nouveau_event)
      (tr : List Ev),
      (match nouveau_event_init_trace
          { e0 with handlers := e0.handlers ++ [some ⟨0, 0, 0, 0, 0⟩] }
          (types % 4294967296) index func priv e0.handlers.length with
        | .error x => Except.error x
        | .ok ((ret1, event2), tr) =>
          if ret1 ≠ 0 then
            .ok ((ret1, some e0.handlers.length, kfree event2 e0.handlers.length), tr0 ++ tr)
          else .ok ((ret1, some e0.handlers.length, event2), tr0 ++ tr)) = .ok (r, tr) →
      ∃ tr1, tr = tr0 ++ tr1 ∧ (tr1 = [] ∨
        tr1 = [Ev.spin_lock_irqsave Lock.list_lock,
          Ev.spin_unlock_irqrestore Lock.list_lock]) := by
    intro e0 tr0 r tr hm
    cases hi : nouveau_event_init_trace
        { e0 with handlers := e0.handlers ++ [some ⟨0, 0, 0, 0, 0⟩] }
        (types % 4294967296) index func priv e0.handlers.length with
    | error x => rw [hi] at hm; cases hm
    | ok q =>
      obtain ⟨⟨ret1, event2⟩, tr1⟩ := q
      have hs := init_trace_shape _ _ _ _ _ _ _ _ hi
      rw [hi] at hm
      simp only at hm
      split at hm
      · cases hm; exact ⟨tr1, rfl, hs⟩
      · cases hm; exact ⟨tr1, rfl, hs⟩
  obtain ⟨ck, en, di, n, N, l, rf, hs, cs⟩ := e
  unfold nouveau_event_new_trace at h
  cases ck with
  | false =>
    simp only [Bool.false_eq_true, if_false, false_and] at h
    cases km with
    | false =>
      simp only [Bool.false_eq_true, if_false] at h
      cases h
      exact ⟨[], by simp, Or.inl rfl⟩
    | true =>
      simp only [if_true] at h
      simpa using fin ⟨false, en, di, n, N, l, rf, hs, cs⟩ [] r tr h
  | true =>
    simp only [if_true, true_and] at h
    by_cases hd : check (types % 4294967296) index ≠ 0
    · rw [if_pos hd] at h
      cases h
      exact ⟨[], by simp, Or.inl rfl⟩
    · rw [if_neg hd] at h
      cases km with
      | false =>
        simp only [Bool.false_eq_true, if_false] at h
        cases h
        exact ⟨[], by simp, Or.inl rfl⟩
      | true =>
        simp only [if_true] at h
        exact fin (nouveau_event.log ⟨true, en, di, n, N, l, rf, hs, cs⟩
          (Call.check (types % 4294967296) index)) _ r tr h

theorem new_trace_flat (nest : Bool) (check : Nat → Int → Int) (km : Bool) (e : nouveau_event)
    (types : Nat) (index : Int) (func priv : Nat) (r : Int × Option Nat × nouveau_event)
    (tr : List Ev)
    (h : nouveau_event_new_trace check km e types index func priv = .ok (r, tr)) :
    locks_after nest [] tr = some [] := by
  obtain ⟨tr1, rfl, hs⟩ := new_trace_shape check km e types index func priv r tr h
  have h1 : locks_after nest []
      (if e.check then [Ev.call (Call.check (types % 4294967296) index)] else []) = some [] := by
    split <;> rfl
  rw [locks_after_append, h1]
  rcases hs with rfl | rfl
  · rfl
  · simp [locks_after]

theorem new_untraced (check : Nat → Int → Int) (km : Bool) (e : nouveau_event)
    (types : Nat) (index : Int) (func priv : Nat) :
    untraced (nouveau_event_new_trace check km e types index func priv) =
      nouveau_event_new check km e types index func priv := by
  have fin : ∀ (e0 : nouveau_event) (tr0 : List Ev),
      untraced (match nouveau_event_init_trace
          { e0 with handlers := e0.handlers ++ [some ⟨0, 0, 0, 0, 0⟩] }
          (types % 4294967296) index func priv e0.handlers.length with
        | .error x => Except.error x
        | .ok ((ret1, event2), tr) =>
          if ret1 ≠ 0 then
            .ok ((ret1, some e0.handlers.length, kfree event2 e0.handlers.length), tr0 ++ tr)
          else .ok ((ret1, some e0.handlers.length, event2), tr0 ++ tr)) =
      (match nouveau_event_init
          { e0 with handlers := e0.handlers ++ [some ⟨0, 0, 0, 0, 0⟩] }
          (types % 4294967296) index func priv e0.handlers.length with
        | .error x => Except.error x
        | .ok (ret1, event2) =>
          if ret1 ≠ 0 then .ok (ret1, some e0.handlers.length, kfree event2 e0.handlers.length)
          else .ok (ret1, some e0.handlers.length, event2)) := by
    intro e0 tr0
    rw [← init_untraced]
    generalize nouveau_event_init_trace _ _ _ _ _ _ = x
    cases x with
    | error f => rfl
    | ok q =>
      obtain ⟨⟨ret1, event2⟩, tr⟩ := q
      simp only [untraced]
      by_cases hr : ret1 ≠ 0
      · rw [if_pos hr, if_pos hr]
      · rw [if_neg hr, if_neg hr]
  obtain ⟨ck, en, di, n, N, l, rf, hs, cs⟩ := e
  unfold nouveau_event_new_trace nouveau_event_new
  cases ck with
  | false =>
    simp only [Bool.false_eq_true, if_false, false_and]
    cases km with
    | false => rfl
    | true =>
      simp only [if_true]
      exact fin ⟨false, en, di, n, N, l, rf, hs, cs⟩ []
  | true =>
    simp only [if_true, true_and]
    by_cases hd : check (types % 4294967296) index ≠ 0
    · rw [if_pos hd, if_pos hd]
      rfl
    · rw [if_neg hd, if_neg hd]
      cases km with
      | false => rfl
      | true =>
        simp only [if_true]
        exact fin (nouveau_event.log ⟨true, en, di, n, N, l, rf, hs, cs⟩
          (Call.check (types % 4294967296) index)) _

/-- The shape of a trace of `nouveau_event_fini`. -/
theorem fini_trace_shape (e e2 : nouveau_event) (a : Nat) (tr : List Ev)
    (h : nouveau_event_fini_trace e a = .ok (e2, tr)) :
    ∃ e1 tr1, nouveau_event_put_trace e a = .ok (e1, tr1) ∧ e2.calls = e1.calls ∧
      tr = tr1 ++
        [Ev.spin_lock_irqsave Lock.list_lock, Ev.spin_unlock_irqrestore Lock.list_lock] := by
  unfold nouveau_event_fini_trace at h
  cases hp : nouveau_event_put_trace e a with
  | error f => rw [hp] at h; cases h
  | ok r =>
    obtain ⟨e1, tr1⟩ := r
    rw [hp] at h
    simp only at h
    cases hl : list_del e1 a with
    | error f => rw [hl] at h; cases h
    | ok e3 =>
      rw [hl] at h
      cases h
      refine ⟨e1, tr1, rfl, ?_, rfl⟩
      unfold list_del at hl
      split at hl
      · cases hl; rfl
      · cases hl

theorem fini_trace_flat (nest : Bool) (e e2 : nouveau_event) (a : Nat) (tr : List Ev)
    (h : nouveau_event_fini_trace e a = .ok (e2, tr)) : locks_after nest [] tr = some [] := by
  obtain ⟨e1, tr1, hp, _, rfl⟩ := fini_trace_shape e e2 a tr h
  rw [locks_after_append, put_trace_flat nest e e1 a tr1 hp]
  simp [locks_after]

theorem ref_trace_flat (nest : Bool) (e : nouveau_event) (x r : Option Nat)
    (res : Option Nat × nouveau_event) (tr : List Ev)
    (h : nouveau_event_ref_trace e x r = .ok (res, tr)) : locks_after nest [] tr = some [] := by
  unfold nouveau_event_ref_trace at h
  split at h
  · cases h
  · cases r with
    | none => cases h; rfl
    | some a =>
      simp only at h
      cases hf : nouveau_event_fini_trace e a with
      | error f => rw [hf] at h; cases h
      | ok q =>
        obtain ⟨e1, tr1⟩ := q
        rw [hf] at h
        cases h
        exact fini_trace_flat nest e e1 a tr hf

/-- The walk of a dispatch keeps `list_lock` held and takes `refs_lock` only
inside it. -/
theorem trigger_loop_trace_nested (cb : Nat → Nat → Nat → Nat → Int → Int) (types : Nat)
    (index : Int) : ∀ (l : List Nat) (e e1 : nouveau_event) (tr : List Ev),
    trigger_loop_trace cb types index l e = .ok (e1, tr) →
    locks_after true [Lock.list_lock] tr = some [Lock.list_lock] := by
  intro l
  induction l with
  | nil => intro e e1 tr h; unfold trigger_loop_trace at h; cases h; rfl
  | cons a rest ih =>
    intro e e1 tr h
    unfold trigger_loop_trace at h
    cases ha : e.eventh a with
    | none => rw [ha] at h; cases h
    | some x =>
      rw [ha] at h
      simp only at h
      split at h
      · exact ih e e1 tr h
      · split at h
        · exact ih e e1 tr h
        · split at h
          · split at h
            · cases h
            · rename_i e3 tr3 hl
              cases h
              simp only [locks_after]
              exact ih _ _ _ hl
          · split at h
            · cases h
            · rename_i e2 tr1 hp
              split at h
              · cases h
              · rename_i e3 tr3 hl
                cases h
                simp only [locks_after]
                rw [locks_after_append, put_trace_nested _ _ _ _ hp]
                exact ih _ _ _ hl

/-- When no callback asks to be dropped, the walk takes no lock at all. -/
theorem trigger_loop_trace_keep (cb : Nat → Nat → Nat → Nat → Int → Int) (types : Nat)
    (index : Int) (hk : ∀ a f p m i, cb a f p m i ≠ NVKM_EVENT_DROP) :
    ∀ (l : List Nat) (e e1 : nouveau_event) (tr : List Ev),
    trigger_loop_trace cb types index l e = .ok (e1, tr) →
    ∃ cs : List Call, tr = cs.map Ev.call := by
  intro l
  induction l with
  | nil => intro e e1 tr h; unfold trigger_loop_trace at h; cases h; exact ⟨[], rfl⟩
  | cons a rest ih =>
    intro e e1 tr h
    unfold trigger_loop_trace at h
    cases ha : e.eventh a with
    | none => rw [ha] at h; cases h
    | some x =>
      rw [ha] at h
      simp only at h
      split at h
      · exact ih e e1 tr h
      · split at h
        · exact ih e e1 tr h
        · rw [if_pos (hk _ _ _ _ _)] at h
          split at h
          · cases h
          · rename_i e3 tr3 hl
            cases h
            obtain ⟨cs, rfl⟩ := ih _ _ _ hl
            exact ⟨_ :: cs, rfl⟩

theorem trigger_loop_untraced (cb : Nat → Nat → Nat → Nat → Int → Int) (types : Nat)
    (index : Int) : ∀ (l : List Nat) (e : nouveau_event),
    untraced (trigger_loop_trace cb types index l e) = trigger_loop cb types index l e := by
  intro l
  induction l with
  | nil => intro e; rfl
  | cons a rest ih =>
    intro e
    unfold trigger_loop_trace trigger_loop
    cases e.eventh a with
    | none => rfl
    | some x =>
      simp only
      split
      · exact ih e
      · split
        · exact ih e
        · split
          · rw [← ih]
            generalize trigger_loop_trace cb types index rest _ = y
            cases y <;> rfl
          · rw [← put_untraced]
            generalize nouveau_event_put_trace _ _ = y
            cases y with
            | error f => rfl
            | ok r =>
              obtain ⟨e2, tr1⟩ := r
              simp only [untraced]
              rw [← ih]
              generalize trigger_loop_trace cb types index rest _ = z
              cases z <;> rfl

theorem trigger_untraced (cb : Nat → Nat → Nat → Nat → Int → Int) (e : nouveau_event)
    (types : Nat) (index : Int) :
    untraced (nouveau_event_trigger_trace cb e types index) =
      nouveau_event_trigger cb e types index := by
  unfold nouveau_event_trigger_trace nouveau_event_trigger
  split
  · rfl
  · split
    · rfl
    · cases e.list[index.toNat]? with
      | none => rfl
      | some l =>
        simp only
        rw [← trigger_loop_untraced]
        generalize trigger_loop_trace cb types index l e = y
        cases y <;> rfl

/-- The shape of a trace of `nouveau_event_trigger`. -/
theorem trigger_trace_shape (cb : Nat → Nat → Nat → Nat → Int → Int) (e e1 : nouveau_event)
    (types : Nat) (index : Int) (tr : List Ev)
    (h : nouveau_event_trigger_trace cb e types index = .ok (e1, tr)) :
    tr = [Ev.call Call.WARN] ∨
    ∃ l tr1, trigger_loop_trace cb types index l e = .ok (e1, tr1) ∧
      tr = [Ev.spin_lock_irqsave Lock.list_lock] ++ tr1 ++
        [Ev.spin_unlock_irqrestore Lock.list_lock] := by
  unfold nouveau_event_trigger_trace at h
  split at h
  · cases h; exact Or.inl rfl
  · split at h
    · cases h
    · cases hl : e.list[index.toNat]? with
      | none => rw [hl] at h; cases h
      | some l =>
        rw [hl] at h
        simp only at h
        cases ht : trigger_loop_trace cb types index l e with
        | error f => rw [ht] at h; cases h
        | ok r =>
          obtain ⟨e2, tr1⟩ := r
          rw [ht] at h
          cases h
          exact Or.inr ⟨l, tr1, ht, rfl⟩

theorem trigger_trace_nested (cb : Nat → Nat → Nat → Nat → Int → Int) (e e1 : nouveau_event)
    (types : Nat) (index : Int) (tr : List Ev)
    (h : nouveau_event_trigger_trace cb e types index = .ok (e1, tr)) :
    locks_after true [] tr = some [] := by
  rcases trigger_trace_shape cb e e1 types index tr h with rfl | ⟨l, tr1, hl, rfl⟩
  · rfl
  · rw [List.append_assoc, List.singleton_append]
    simp only [locks_after, if_true]
    rw [locks_after_append, trigger_loop_trace_nested cb types index l e e1 tr1 hl]
    simp [locks_after]

theorem trigger_trace_keep (cb : Nat → Nat → Nat → Nat → Int → Int) (e e1 : nouveau_event)
    (types : Nat) (index : Int) (tr : List Ev)
    (hk : ∀ a f p m i, cb a f p m i ≠ NVKM_EVENT_DROP)
    (h : nouveau_event_trigger_trace cb e types index = .ok (e1, tr)) :
    locks_after false [] tr = some [] := by
  rcases trigger_trace_shape cb e e1 types index tr h with rfl | ⟨l, tr1, hl, rfl⟩
  · rfl
  · obtain ⟨cs, rfl⟩ := trigger_loop_trace_keep cb types index hk l e e1 tr1 hl
    rw [List.append_assoc, List.singleton_append]
    simp only [locks_after, if_true]
    rw [locks_after_append, locks_after_calls]
    simp [locks_after]

/-! ## The claims on registration, dispatch range and replacement -/

/-- C11: registration validation at a negative index.  On the registry with
four types and one index, without an admission function and with a successful
allocation, `nouveau_event_new` with the valid mask `0b0001` and index `-1` is
not answered `-EINVAL`: the only range test is `index >= index_nr`, so the call
goes on to `event->list[-1]`, outside the array, and returns nothing defined. -/
theorem new_negative_index_not_rejected :
    nouveau_event_new demo_check true demo_registered 1 (-1) 7 8 = .error Fault.invalid ∧
    ret_of (nouveau_event_new demo_check true demo_registered 1 (-1) 7 8) ≠ some (-EINVAL) ∧
    ret_of (nouveau_event_new demo_check true demo_registered 1 1 7 8) = some (-EINVAL) ∧
    ret_of (nouveau_event_new demo_check true demo_registered 16 0 7 8) = some (-EINVAL) ∧
    ret_of (nouveau_event_new demo_check true demo_registered 1 0 7 8) = some 0 := by
  refine ⟨rfl, ?_, rfl, rfl, rfl⟩
  decide

/-- C12: admission passes and the allocation fails.  With an admission function
that returns 0 and a failing `kmalloc`, `nouveau_event_new` returns the 0 left
in `ret` by the admission call, with `*phandler` NULL; the same call on the same
registry without an admission function returns `-ENOMEM`. -/
theorem new_check_then_alloc_failure :
    nouveau_event_new demo_check false demo_checked 1 0 7 8 =
      .ok (0, none, demo_checked.log (Call.check 1 0)) ∧
    nouveau_event_new demo_check false { demo_checked with check := false } 1 0 7 8 =
      .ok (-ENOMEM, none, { demo_checked with check := false }) := by
  exact ⟨rfl, rfl⟩

/-- C13: a failed registration is atomic.  Whenever `nouveau_event_new` returns
a non-zero value, on any registry and for any arguments, admission answer and
allocation outcome, the lists, the counters, the configuration and every
listener (its armed flag included) are as before, no new listener is live, and
the only call logged is the admission call when one is configured: neither
`enable` nor `disable` is called. -/
theorem failed_registration_atomic (check : Nat → Int → Int) (km : Bool) (e e1 : nouveau_event)
    (types : Nat) (index : Int) (func priv : Nat) (ret : Int) (ph : Option Nat)
    (h : nouveau_event_new check km e types index func priv = .ok (ret, ph, e1))
    (hr : ret ≠ 0) :
    e1.list = e.list ∧ e1.refs = e.refs ∧
    (∀ a, e1.eventh a = e.eventh a) ∧
    e1.calls = e.calls ++ (if e.check then [Call.check (types % 4294967296) index] else []) ∧
    (∀ c ∈ e1.calls.drop e.calls.length, ∀ t i, c ≠ Call.enable t i ∧ c ≠ Call.disable t i) := by
  obtain ⟨hl, hrf, _, hev, hc⟩ := new_failed check km e e1 types index func priv ret ph h hr
  refine ⟨hl, hrf, hev, hc, ?_⟩
  · intro c hcm t i
    rw [hc, List.drop_left] at hcm
    split at hcm
    · rw [List.mem_singleton] at hcm
      subst hcm
      exact ⟨(by intro hx; cases hx), (by intro hx; cases hx)⟩
    · cases hcm

/-- Witness of C13: the admission function denies `(types = 0b011, index = 2)`. -/
theorem failed_registration_atomic_witness :
    nouveau_event_new demo_deny true demo_wide 3 2 7 8 =
      .ok (-13, none, demo_wide.log (Call.check 3 2)) ∧
    (demo_wide.log (Call.check 3 2)).list = demo_wide.list ∧
    (demo_wide.log (Call.check 3 2)).refs = demo_wide.refs ∧
    (∀ a, (demo_wide.log (Call.check 3 2)).eventh a = demo_wide.eventh a) ∧
    (demo_wide.log (Call.check 3 2)).calls = demo_wide.calls ++
      (if demo_wide.check then [Call.check (3 % 4294967296) 2] else []) ∧
    (∀ c ∈ (demo_wide.log (Call.check 3 2)).calls.drop demo_wide.calls.length,
      ∀ t i, c ≠ Call.enable t i ∧ c ≠ Call.disable t i) :=
  ⟨rfl, failed_registration_atomic demo_deny true demo_wide _ 3 2 7 8 (-13) none rfl
    (by decide)⟩

/-- C14, as stated, fails: on the registry with four types and one index, the
call rejected only for its mask (`types = 0b10000`, `index = 0`) and the call
rejected only for its index (`types = 0b0001`, `index = 1`) return the same
value, `-EINVAL`. -/
theorem mask_and_index_errors_coincide :
    16 % 4294967296 ≥ 2 ^ demo_registered.types_nr.toNat ∧
    (0 : Int) < demo_registered.index_nr ∧
    1 % 4294967296 < 2 ^ demo_registered.types_nr.toNat ∧
    demo_registered.index_nr ≤ (1 : Int) ∧
    ret_of (nouveau_event_new demo_check true demo_registered 16 0 7 8) =
      ret_of (nouveau_event_new demo_check true demo_registered 1 1 7 8) ∧
    ret_of (nouveau_event_new demo_check true demo_registered 16 0 7 8) = some (-EINVAL) := by
  refine ⟨by decide, by decide, by decide, by decide, rfl, rfl⟩

/-- C14, amended: the values `nouveau_event_new` returns on failure.  On a
registry of width 0 to 31: an admission denial returns the value of the
admission function verbatim, whatever the allocation would do; when admission
passes and the allocation succeeds, a mask beyond the width and an index at or
above `index_nr` both return `-EINVAL`; without an admission function an
allocation failure returns `-ENOMEM`; and `-EINVAL` differs from `-ENOMEM`. -/
theorem registration_error_values (check : Nat → Int → Int) (e : nouveau_event)
    (types : Nat) (index : Int) (func priv : Nat)
    (hn0 : 0 ≤ e.types_nr) (hn1 : e.types_nr ≤ 31) :
    (e.check = true → check (types % 4294967296) index ≠ 0 → ∀ km,
      ret_of (nouveau_event_new check km e types index func priv) =
        some (check (types % 4294967296) index)) ∧
    ((e.check = false ∨ check (types % 4294967296) index = 0) →
      (¬ types % 4294967296 < 2 ^ e.types_nr.toNat ∨ e.index_nr ≤ index) →
      ret_of (nouveau_event_new check true e types index func priv) = some (-EINVAL)) ∧
    (e.check = false →
      ret_of (nouveau_event_new check false e types index func priv) = some (-ENOMEM)) ∧
    -EINVAL ≠ -ENOMEM := by
  refine ⟨?_, ?_, ?_, by unfold EINVAL ENOMEM; decide⟩
  · intro hck hd km
    rw [new_denied check km e types index func priv hck hd]
    rfl
  · intro hpass hbad
    exact new_invalid_arg check e types index func priv hn0 hn1 hpass hbad
  · intro hck
    rw [new_nomem check e types index func priv hck]
    rfl

/-- Witness of C14, amended: the registry with four types and one index. -/
theorem registration_error_values_witness :
    (0 : Int) ≤ demo_registered.types_nr ∧ demo_registered.types_nr ≤ 31 ∧
    (demo_registered.check = true → demo_check (16 % 4294967296) 0 ≠ 0 → ∀ km,
      ret_of (nouveau_event_new demo_check km demo_registered 16 0 7 8) =
        some (demo_check (16 % 4294967296) 0)) ∧
    ((demo_registered.check = false ∨ demo_check (16 % 4294967296) 0 = 0) →
      (¬ 16 % 4294967296 < 2 ^ demo_registered.types_nr.toNat ∨
        demo_registered.index_nr ≤ (0 : Int)) →
      ret_of (nouveau_event_new demo_check true demo_registered 16 0 7 8) = some (-EINVAL)) ∧
    (demo_registered.check = false →
      ret_of (nouveau_event_new demo_check false demo_registered 16 0 7 8) = some (-ENOMEM)) ∧
    -EINVAL ≠ -ENOMEM :=
  ⟨by decide, by decide,
    registration_error_values demo_check demo_registered 16 0 7 8 (by decide) (by decide)⟩

/-- C15: a registration that returns 0 without a listener.  With an admission
function that returns 0 and a failing `kmalloc`, `nouveau_event_new` for types
`0b0101` at index 0 returns 0 although `*phandler` is NULL, no listener was
created and `list[0]` is as before, with nothing appended. -/
theorem new_returns_zero_without_listener :
    ∃ e1, nouveau_event_new demo_check false demo_checked 5 0 7 8 = .ok (0, none, e1) ∧
      e1.list = demo_checked.list ∧ e1.handlers = demo_checked.handlers ∧
      e1.list.getD 0 [] = [0, 1] := by
  exact ⟨demo_checked.log (Call.check 5 0), rfl, rfl, rfl, rfl⟩

/-- C16: dispatch at a negative index is not skipped.  On the armed registry
with one index, `nouveau_event_trigger` at index `-1` passes the test
`index >= index_nr` and reads `event->list[-1]`, outside the array; at index 1
the dispatch is skipped with a warning and nothing else changes. -/
theorem trigger_negative_index_not_skipped :
    nouveau_event_trigger demo_cb demo_armed 1 (-1) = .error Fault.invalid ∧
    nouveau_event_trigger demo_cb demo_armed 1 1 = .ok (demo_armed.log Call.WARN) := by
  exact ⟨rfl, rfl⟩

/-- C17, as stated, fails: replacing the listener at address 0 by a newly
registered one trips the assertion `BUG_ON(handler != NULL)`. -/
theorem ref_replacement_is_fatal :
    ∃ e1, nouveau_event_new demo_check true demo_registered 1 0 7 8 = .ok (0, some 2, e1) ∧
      nouveau_event_ref e1 (some 2) (some 0) = .error Fault.BUG ∧
      nouveau_event_ref e1 (some 2) none = .error Fault.BUG := by
  exact ⟨_, rfl, rfl, rfl⟩

/-- C17, amended: `nouveau_event_ref` releases, it does not replace.  On a
well-shaped registry: a non-NULL `handler` trips `BUG_ON` whatever the slot
holds; with a NULL `handler` and an empty slot the registry is unchanged and
the slot stays NULL; with a NULL `handler` and a slot holding a live listener
the call returns, the slot is NULL, and the registry is the one
`nouveau_event_put` returns (listener disarmed, references released) with the
listener removed from every list and freed. -/
theorem ref_releases_slot (e : nouveau_event) (hw : wf e) :
    (∀ x r, nouveau_event_ref e (some x) r = .error Fault.BUG) ∧
    nouveau_event_ref e none none = .ok (none, e) ∧
    ∀ a h, e.eventh a = some h →
      ∃ e1 e2 h1, nouveau_event_put e a = .ok e1 ∧ e1.eventh a = some h1 ∧ armed h1 = false ∧
        nouveau_event_ref e none (some a) = .ok (none, e2) ∧
        e2 = { e1 with
          list := e1.list.map (fun l => l.filter (fun x => x != a)),
          handlers := e1.handlers.set a none } ∧
        e2.eventh a = none ∧ (∀ l ∈ e2.list, a ∉ l) := by
  refine ⟨fun x r => ref_bug e x r, ref_none e, ?_⟩
  intro a h ha
  obtain ⟨e1, hp⟩ := put_total e hw a h ha
  obtain ⟨h1, hb, hd, _⟩ := put_disarms e e1 hw a h ha hp
  obtain ⟨e2, hr⟩ := ref_total e hw a h ha
  obtain ⟨_, h0, e1b, _, hpb, he2⟩ := ref_effect e e2 hw a none hr
  rw [hp] at hpb
  cases hpb
  refine ⟨e1, e2, h1, hp, hb, hd, hr, he2, ?_, ?_⟩
  · rw [he2]
    unfold nouveau_event.eventh
    simp only
    have hlt : a < e1.handlers.length := by
      unfold nouveau_event.eventh at hb
      by_contra hge
      rw [List.getD_eq_default _ _ (by omega)] at hb
      cases hb
    rw [List.getD_eq_getElem _ _ (by rw [List.length_set]; exact hlt)]
    simp
  · intro l hl hal
    rw [he2] at hl
    simp only [List.mem_map] at hl
    obtain ⟨l0, _, rfl⟩ := hl
    rw [List.mem_filter] at hal
    simp at hal

/-- Witness of C17, amended: the armed listener A is released. -/
theorem ref_releases_slot_witness :
    wf demo_armed ∧
    (∀ x r, nouveau_event_ref demo_armed (some x) r = .error Fault.BUG) ∧
    nouveau_event_ref demo_armed none none = .ok (none, demo_armed) ∧
    ∀ a h, demo_armed.eventh a = some h →
      ∃ e1 e2 h1, nouveau_event_put demo_armed a = .ok e1 ∧ e1.eventh a = some h1 ∧
        armed h1 = false ∧
        nouveau_event_ref demo_armed none (some a) = .ok (none, e2) ∧
        e2 = { e1 with
          list := e1.list.map (fun l => l.filter (fun x => x != a)),
          handlers := e1.handlers.set a none } ∧
        e2.eventh a = none ∧ (∀ l ∈ e2.list, a ∉ l) :=
  ⟨by decide, ref_releases_slot demo_armed (by decide)⟩

/-- C18: listener well-formedness.  In every state reached from
`nouveau_event_create(types_nr, index_nr)` (`1 <= types_nr <= 31`), configured by
the owner, through any sequence of registrations, arms, disarms, teardowns and
dispatches that return: every node of `list[i]` is a live listener whose stored
index is `i`, with `i < index_nr` and `types & ~((1 << types_nr) - 1) = 0`; a
registration that succeeds there writes its arguments into the new listener and
links it on the list of its index; and whatever calls follow, a listener that
is still live carries the `types`, `index`, `func` and `priv` it was registered
with. -/
theorem listener_well_formed (kz km : Bool) (types_nr index_nr : Int)
    (check enable disable : Bool) (e0 e : nouveau_event) (ops : List Op)
    (h1 : 1 ≤ types_nr) (h31 : types_nr ≤ 31)
    (hc : nouveau_event_create kz km types_nr index_nr = .ok (0, some e0))
    (hrun : run (configure e0 check enable disable) ops = .ok e) :
    (∀ i a, a ∈ e.list.getD i [] → ∃ h, e.eventh a = some h ∧ h.index = i ∧
      (i : Int) < index_nr ∧
      h.types &&& u32 (bnot (s32 (s32 (2 ^ types_nr.toNat) - 1))) = 0) ∧
    (∀ ck km2 types index func priv a e1,
      nouveau_event_new ck km2 e types index func priv = .ok (0, some a, e1) →
      e1.eventh a = some ⟨0, types % 4294967296, index, func, priv⟩ ∧
      a ∈ e1.list.getD index.toNat [] ∧
      ∀ ops2 e2 h2, run e1 ops2 = .ok e2 → e2.eventh a = some h2 →
        h2.types = types % 4294967296 ∧ h2.index = index ∧ h2.func = func ∧ h2.priv = priv) ∧
    (∀ ops2 e2 a h h2, run e ops2 = .ok e2 → e.eventh a = some h → e2.eventh a = some h2 →
      h2.types = h.types ∧ h2.index = h.index) := by
  obtain ⟨hI, hn, hN, _, _, _, _⟩ :=
    reachable_inv kz km types_nr index_nr check enable disable e0 e ops (by omega) h31 hc
      hrun
  refine ⟨?_, ?_, ?_⟩
  · intro i a ha
    obtain ⟨h, hev, hidx, hty⟩ := wf_member e hI.1 i a ha
    have hil := getD_mem_lt _ _ _ ha
    rw [hI.1.2.2.2.2.1, hN] at hil
    rw [hn] at hty
    have hpow : 2 ^ types_nr.toNat ≤ 2 ^ 31 := Nat.pow_le_pow_right (by norm_num) (by omega)
    refine ⟨h, hev, hidx, by omega, ?_⟩
    exact (width_mask_zero_iff types_nr.toNat h.types (by omega)
      (lt_of_lt_of_le hty (le_trans hpow (by norm_num)))).2 hty
  · intro ck km2 types index func priv a e1 hnew
    obtain ⟨_, hev, _, hmem⟩ := new_registers ck km2 e e1 types index func priv a hI.1 hnew
    refine ⟨hev, hmem, ?_⟩
    intro ops2 e2 h2 hr2 hev2
    have hI1 : Inv e1 := new_inv ck km2 e e1 types index func priv 0 (some a) hI hnew
    have hL := later_run ops2 e1 e2 hI1 hr2
    obtain ⟨h, hh, s1, s2, s3, s4⟩ := hL.2 a h2 (eventh_lt e1 a _ hev) hev2
    rw [hev] at hh
    cases hh
    exact ⟨s1, s2, s3, s4⟩
  · intro ops2 e2 a h h2 hr2 hev hev2
    have hL := later_run ops2 e e2 hI hr2
    obtain ⟨h0, hh, s1, s2, _, _⟩ := hL.2 a h2 (eventh_lt e a _ hev) hev2
    rw [hev] at hh
    cases hh
    exact ⟨s1, s2⟩

/-- Witness of C18: the worked scenario. -/
theorem listener_well_formed_witness :
    (1 : Int) ≤ 4 ∧ (4 : Int) ≤ 31 ∧
    nouveau_event_create true true 4 1 = .ok (0, some demo_fresh) ∧
    run (configure demo_fresh false true true) demo_ops = .ok demo_dropped ∧
    ((∀ i a, a ∈ demo_dropped.list.getD i [] → ∃ h, demo_dropped.eventh a = some h ∧
      h.index = i ∧ (i : Int) < 1 ∧
      h.types &&& u32 (bnot (s32 (s32 (2 ^ (4 : Int).toNat) - 1))) = 0) ∧
    (∀ ck km2 types index func priv a e1,
      nouveau_event_new ck km2 demo_dropped types index func priv = .ok (0, some a, e1) →
      e1.eventh a = some ⟨0, types % 4294967296, index, func, priv⟩ ∧
      a ∈ e1.list.getD index.toNat [] ∧
      ∀ ops2 e2 h2, run e1 ops2 = .ok e2 → e2.eventh a = some h2 →
        h2.types = types % 4294967296 ∧ h2.index = index ∧ h2.func = func ∧ h2.priv = priv) ∧
    (∀ ops2 e2 a h h2, run demo_dropped ops2 = .ok e2 → demo_dropped.eventh a = some h →
      e2.eventh a = some h2 → h2.types = h.types ∧ h2.index = h.index)) :=
  ⟨by decide, by decide, rfl, rfl,
    listener_well_formed true true 4 1 false true true demo_fresh demo_dropped demo_ops
      (by decide) (by decide) rfl rfl⟩

/-- C19: lock ordering.  Each operation is run with the trace of its lock
acquisitions, lock releases and outgoing calls; the traced operations return
what the operations return.  In every trace of `nouveau_event_get`,
`nouveau_event_put`, `nouveau_event_fini`, `nouveau_event_new` and
`nouveau_event_ref` each lock is taken with no lock held and released before
the next is taken, and nothing is held at the end.  In every trace of
`nouveau_event_trigger`, `list_lock` is taken with no lock held, `refs_lock` is
taken only with exactly `list_lock` held, releases are innermost first and
nothing is held at the end; when no callback asks to be dropped, `refs_lock` is
not taken at all.  A trace of `nouveau_event_fini` is a trace of
`nouveau_event_put`, which holds every call the teardown logged and does not
touch `list_lock`, followed by taking and releasing `list_lock`. -/
theorem lock_ordering (check : Nat → Int → Int) (cb : Nat → Nat → Nat → Nat → Int → Int)
    (km : Bool) (e : nouveau_event) (a : Nat) (x r : Option Nat) (types : Nat) (index : Int)
    (func priv : Nat) :
    (untraced (nouveau_event_get_trace e a) = nouveau_event_get e a ∧
      untraced (nouveau_event_put_trace e a) = nouveau_event_put e a ∧
      untraced (nouveau_event_fini_trace e a) = nouveau_event_fini e a ∧
      untraced (nouveau_event_new_trace check km e types index func priv) =
        nouveau_event_new check km e types index func priv ∧
      untraced (nouveau_event_ref_trace e x r) = nouveau_event_ref e x r ∧
      untraced (nouveau_event_trigger_trace cb e types index) =
        nouveau_event_trigger cb e types index) ∧
    (∀ e1 tr, nouveau_event_get_trace e a = .ok (e1, tr) → locks_after false [] tr = some []) ∧
    (∀ e1 tr, nouveau_event_put_trace e a = .ok (e1, tr) → locks_after false [] tr = some []) ∧
    (∀ e2 tr, nouveau_event_fini_trace e a = .ok (e2, tr) →
      locks_after false [] tr = some [] ∧
      ∃ e1 tr1, nouveau_event_put_trace e a = .ok (e1, tr1) ∧
        tr = tr1 ++
          [Ev.spin_lock_irqsave Lock.list_lock, Ev.spin_unlock_irqrestore Lock.list_lock] ∧
        (∀ ev ∈ tr1, ev ≠ Ev.spin_lock_irqsave Lock.list_lock ∧
          ev ≠ Ev.spin_unlock_irqrestore Lock.list_lock) ∧
        tr1.filterMap Ev.call? = calls_since e e2) ∧
    (∀ res tr, nouveau_event_new_trace check km e types index func priv = .ok (res, tr) →
      locks_after false [] tr = some []) ∧
    (∀ res tr, nouveau_event_ref_trace e x r = .ok (res, tr) →
      locks_after false [] tr = some []) ∧
    (∀ e1 tr, nouveau_event_trigger_trace cb e types index = .ok (e1, tr) →
      locks_after true [] tr = some [] ∧
      ((∀ b f p m i, cb b f p m i ≠ NVKM_EVENT_DROP) → locks_after false [] tr = some [])) := by
  refine ⟨⟨get_untraced e a, put_untraced e a, fini_untraced e a,
    new_untraced check km e types index func priv, ref_untraced e x r,
    trigger_untraced cb e types index⟩, ?_, ?_, ?_, ?_, ?_, ?_⟩
  · exact fun e1 tr h => get_trace_flat false e e1 a tr h
  · exact fun e1 tr h => put_trace_flat false e e1 a tr h
  · intro e2 tr h
    refine ⟨fini_trace_flat false e e2 a tr h, ?_⟩
    obtain ⟨e1, tr1, hp, hc, htr⟩ := fini_trace_shape e e2 a tr h
    refine ⟨e1, tr1, hp, htr, put_trace_no_list_lock e e1 a tr1 hp, ?_⟩
    rw [put_trace_calls e e1 a tr1 hp]
    unfold calls_since
    rw [hc]
  · exact fun res tr h => new_trace_flat false check km e types index func priv res tr h
  · exact fun res tr h => ref_trace_flat false e x r res tr h
  · exact fun e1 tr h => ⟨trigger_trace_nested cb e e1 types index tr h,
      fun hk => trigger_trace_keep cb e e1 types index tr hk h⟩

/-- Witness of C19: the dispatch of the worked scenario, in which listener A is
dropped under `list_lock`, and the teardown of listener A. -/
theorem lock_ordering_witness :
    nouveau_event_trigger_trace demo_cb demo_armed 1 0 = .ok (demo_dropped,
      [Ev.spin_lock_irqsave Lock.list_lock, Ev.call (Call.func 0 7 8 1 0),
        Ev.spin_lock_irqsave Lock.refs_lock, Ev.call (Call.disable 4 0),
        Ev.spin_unlock_irqrestore Lock.refs_lock, Ev.call (Call.func 1 9 10 1 0),
        Ev.spin_unlock_irqrestore Lock.list_lock]) ∧
    locks_after true []
      [Ev.spin_lock_irqsave Lock.list_lock, Ev.call (Call.func 0 7 8 1 0),
        Ev.spin_lock_irqsave Lock.refs_lock, Ev.call (Call.disable 4 0),
        Ev.spin_unlock_irqrestore Lock.refs_lock, Ev.call (Call.func 1 9 10 1 0),
        Ev.spin_unlock_irqrestore Lock.list_lock] = some [] ∧
    locks_after false []
      [Ev.spin_lock_irqsave Lock.list_lock, Ev.call (Call.func 0 7 8 1 0),
        Ev.spin_lock_irqsave Lock.refs_lock, Ev.call (Call.disable 4 0),
        Ev.spin_unlock_irqrestore Lock.refs_lock, Ev.call (Call.func 1 9 10 1 0),
        Ev.spin_unlock_irqrestore Lock.list_lock] = none ∧
    locks_after true []
      [Ev.spin_lock_irqsave Lock.refs_lock, Ev.spin_lock_irqsave Lock.list_lock,
        Ev.spin_unlock_irqrestore Lock.list_lock,
        Ev.spin_unlock_irqrestore Lock.refs_lock] = none :=
  ⟨rfl,
    ((lock_ordering demo_check demo_cb true demo_armed 0 none (some 0) 1 0 7 8).2.2.2.2.2.2
      _ _ rfl).1, rfl, rfl⟩

end Nouveau
